import Mathlib

/-!
# FSM-HTTPD: the incremental HTTP request parser of `httpd.cpp`

A shallow embedding of the two-level state machine of `src/httpd.cpp`
(`parse_line`, `parse_requestline`, `parse_headers`, `parse_content` and the
receive loop of `main`), followed by theorems about it.

Conventions of the embedding.

* A byte is a `Nat` (the value of the `unsigned char`); the read buffer is a
  `List Nat` whose length is the capacity of the array.  Reading index `i` is
  `buffer.getD i 0`, writing is `List.set`.
* A `char *` into the buffer is an index; the C string it designates is read
  from the memory suffix `buffer.drop i` and ends at the first NUL byte.
* `int` cursors are `Nat`: every cursor of the program starts at `0` and only
  grows, and it is bounded by `BUFFER_SIZE`, so no overflow can occur.
* `printf` is modelled by appending an `Event` to the standard output trace.
-/

namespace FsmHttpd

/-! ## Constants and enumerations (lines 12-33) -/

/-- Capacity of the read buffer, `#define BUFFER_SIZE 4096`. -/
def BUFFER_SIZE : Nat := 4096

/-- Main state machine: analysing the request line, or analysing header fields. -/
inductive CHECK_STATE where
  | CHECK_STATE_REQUESTLINE
  | CHECK_STATE_HEADER
  deriving DecidableEq, Repr

/-- Slave state machine: a complete line was read, the line is bad, the line is incomplete. -/
inductive LINE_STATUS where
  | LINE_OK
  | LINE_BAD
  | LINE_OPEN
  deriving DecidableEq, Repr

/-- Result of processing the HTTP request. -/
inductive HTTP_CODE where
  | NO_REQUEST
  | GET_REQUEST
  | BAD_REQUEST
  | FORBIDDEN_REQUEST
  | INTERNAL_ERROR
  | CLOSED_CONNECTION
  deriving DecidableEq, Repr

open CHECK_STATE LINE_STATUS HTTP_CODE

/-! ## Byte constants and string literals -/

/-- The byte of the character NUL. -/
abbrev NUL : Nat := 0
/-- The byte of the horizontal tab. -/
abbrev HT : Nat := 9
/-- The byte of the line feed. -/
abbrev LF : Nat := 10
/-- The byte of the carriage return. -/
abbrev CR : Nat := 13
/-- The byte of the space. -/
abbrev SP : Nat := 32
/-- The byte of the slash. -/
abbrev SLASH : Nat := 47

/-- The literal `" \t"`. -/
def ws : List Nat := [32, 9]
/-- The literal `"GET"`. -/
def lit_GET : List Nat := [71, 69, 84]
/-- The literal `"HTTP/1.1"`. -/
def lit_HTTP11 : List Nat := [72, 84, 84, 80, 47, 49, 46, 49]
/-- The literal `"http://"`. -/
def lit_http : List Nat := [104, 116, 116, 112, 58, 47, 47]
/-- The literal `"Host:"`. -/
def lit_Host : List Nat := [72, 111, 115, 116, 58]

/-! ## The C library functions used by the program

Each function takes the memory suffix beginning at its pointer argument.  A
suffix that ends without a NUL byte reads as if a NUL followed it. -/

/-- Function `tolower` of the C locale on an `unsigned char`. -/
def tolower (c : Nat) : Nat := if 65 ≤ c ∧ c ≤ 90 then c + 32 else c

/-- The C string at the head of a memory suffix: the bytes before the first NUL. -/
def cstr : List Nat → List Nat
  | [] => []
  | c :: cs => if c = 0 then [] else c :: cstr cs

/-- Function `strpbrk(s, accept)`: offset of the first byte of the string that
occurs in `accept`, `none` for the null pointer. -/
def strpbrk : List Nat → List Nat → Option Nat
  | [], _ => none
  | c :: cs, accept =>
    if c = 0 then none
    else if c ∈ accept then some 0
    else (strpbrk cs accept).map (· + 1)

/-- Function `strspn(s, accept)`: length of the initial segment of the string
made of bytes of `accept`. -/
def strspn : List Nat → List Nat → Nat
  | [], _ => 0
  | c :: cs, accept => if c ≠ 0 ∧ c ∈ accept then strspn cs accept + 1 else 0

/-- Function `strchr(s, ch)`: offset of the first occurrence of `ch` in the
string (the terminator counts as part of it), `none` for the null pointer. -/
def strchr : List Nat → Nat → Option Nat
  | [], ch => if ch = 0 then some 0 else none
  | c :: cs, ch =>
    if c = ch then some 0
    else if c = 0 then none
    else (strchr cs ch).map (· + 1)

/-- Function `strcasecmp(s1, s2)`: compares the two strings byte by byte after
`tolower`; the result is the difference at the first mismatch, `0` when both
strings end together. -/
def strcasecmp : List Nat → List Nat → Int
  | [], [] => 0
  | [], b :: _ => (tolower 0 : Int) - tolower b
  | a :: _, [] => (tolower a : Int) - tolower 0
  | a :: as, b :: bs =>
    if tolower a ≠ tolower b then (tolower a : Int) - tolower b
    else if a = 0 then 0
    else strcasecmp as bs

/-- Function `strncasecmp(s1, s2, n)`: as `strcasecmp`, on at most `n` bytes. -/
def strncasecmp : List Nat → List Nat → Nat → Int
  | _, _, 0 => 0
  | s1, s2, n + 1 =>
    let c1 := tolower (s1.headD 0)
    let c2 := tolower (s2.headD 0)
    if c1 ≠ c2 then (c1 : Int) - c2
    else if c1 = 0 then 0
    else strncasecmp s1.tail s2.tail n

/-! ## Standard output -/

/-- One line written by `printf`. -/
inductive Event where
  /-- Line 103, `The request method is GET`. -/
  | method_get
  /-- Line 130, `The request url is: %s`. -/
  | url (s : List Nat)
  /-- Line 151, `the request host is: %s`. -/
  | host (s : List Nat)
  /-- Line 155, `I can not handle this header:(%s)`. -/
  | unhandled (s : List Nat)
  deriving DecidableEq, Repr

/-! ## The slave state machine `parse_line` (lines 47-85) -/

/-- The `for` loop of `parse_line`; the first argument bounds the number of
iterations, and `read_index - checked_index` iterations always suffice.
Returns the status, the buffer and `checked_index`. -/
def parse_line_loop : Nat → List Nat → Nat → Nat → LINE_STATUS × List Nat × Nat
  | 0, buffer, checked_index, _ => (LINE_OPEN, buffer, checked_index)
  | fuel + 1, buffer, checked_index, read_index =>
    if checked_index < read_index then
      let temp := buffer.getD checked_index 0
      if temp = CR then
        if read_index = checked_index + 1 then
          (LINE_OPEN, buffer, checked_index)
        else if buffer.getD (checked_index + 1) 0 = LF then
          (LINE_OK, (buffer.set checked_index 0).set (checked_index + 1) 0, checked_index + 2)
        else
          (LINE_BAD, buffer, checked_index)
      else if temp = LF then
        if checked_index > 1 ∧ buffer.getD (checked_index - 1) 0 = CR then
          (LINE_OK, (buffer.set (checked_index - 1) 0).set checked_index 0, checked_index + 1)
        else
          (LINE_BAD, buffer, checked_index)
      else
        parse_line_loop fuel buffer (checked_index + 1) read_index
    else
      (LINE_OPEN, buffer, checked_index)

/-- Function `parse_line(buffer, checked_index, read_index)`: returns the line
status together with the buffer and `checked_index` as the call leaves them. -/
def parse_line (buffer : List Nat) (checked_index read_index : Nat) :
    LINE_STATUS × List Nat × Nat :=
  parse_line_loop (read_index - checked_index) buffer checked_index read_index

/-! ## The request-line interpreter `parse_requestline` (lines 91-135) -/

/-- What a call of `parse_requestline` leaves behind: the returned code, the
buffer (the call writes NUL bytes into it), the phase, and the lines printed. -/
structure ReqLine where
  code : HTTP_CODE
  buffer : List Nat
  checkstate : CHECK_STATE
  out : List Event
  deriving DecidableEq, Repr

/-- Function `parse_requestline(temp, checkstate)`, where `temp` is an index
into `buffer`. -/
def parse_requestline (buffer : List Nat) (temp : Nat) (checkstate : CHECK_STATE) : ReqLine :=
  match strpbrk (buffer.drop temp) ws with
  | none => ⟨BAD_REQUEST, buffer, checkstate, []⟩
  | some k =>
    -- *url++ = 0
    let buffer := buffer.set (temp + k) 0
    let url := temp + k + 1
    let method := temp
    if strcasecmp (buffer.drop method) lit_GET = 0 then
      let url := url + strspn (buffer.drop url) ws
      match strpbrk (buffer.drop url) ws with
      | none => ⟨BAD_REQUEST, buffer, checkstate, [Event.method_get]⟩
      | some j =>
        -- *version++ = 0
        let buffer := buffer.set (url + j) 0
        let version := url + j + 1
        let version := version + strspn (buffer.drop version) ws
        if strcasecmp (buffer.drop version) lit_HTTP11 ≠ 0 then
          ⟨BAD_REQUEST, buffer, checkstate, [Event.method_get]⟩
        else
          let url? : Option Nat :=
            if strncasecmp (buffer.drop url) lit_http 7 = 0 then
              (strchr (buffer.drop (url + 7)) SLASH).map (url + 7 + ·)
            else some url
          match url? with
          | none => ⟨BAD_REQUEST, buffer, checkstate, [Event.method_get]⟩
          | some url =>
            if buffer.getD url 0 ≠ SLASH then
              ⟨BAD_REQUEST, buffer, checkstate, [Event.method_get]⟩
            else
              ⟨NO_REQUEST, buffer, CHECK_STATE_HEADER,
                [Event.method_get, Event.url (cstr (buffer.drop url))]⟩
    else
      ⟨BAD_REQUEST, buffer, checkstate, []⟩

/-! ## The header interpreter `parse_headers` (lines 141-158) -/

/-- Function `parse_headers(temp)`, where `temp` is an index into `buffer`:
the returned code and the line printed. -/
def parse_headers (buffer : List Nat) (temp : Nat) : HTTP_CODE × List Event :=
  if buffer.getD temp 0 = 0 then
    (GET_REQUEST, [])
  else if strncasecmp (buffer.drop temp) lit_Host 5 = 0 then
    let temp := temp + 5
    let temp := temp + strspn (buffer.drop temp) ws
    (NO_REQUEST, [Event.host (cstr (buffer.drop temp))])
  else
    (NO_REQUEST, [Event.unhandled (cstr (buffer.drop temp))])

/-! ## The main state machine `parse_content` (lines 164-211) -/

/-- The variables of one connection, declared in `main` at lines 249-260,
and the standard output written so far. -/
structure Session where
  buffer : List Nat
  checked_index : Nat
  read_index : Nat
  start_line : Nat
  checkstate : CHECK_STATE
  out : List Event
  deriving DecidableEq, Repr

/-- The `while` loop of `parse_content` with the two statements after it; the
first argument bounds the number of iterations (see `parse_content`); a
bound that runs out would show as `INTERNAL_ERROR`.  The `default` case of the
`switch` (line 199) has no counterpart: `CHECK_STATE` has two values. -/
def parse_content_loop : Nat → Session → HTTP_CODE × Session
  | 0, s => (INTERNAL_ERROR, s)
  | fuel + 1, s =>
    match parse_line s.buffer s.checked_index s.read_index with
    | (LINE_OK, buffer, checked_index) =>
      let temp := s.start_line
      let s := { s with buffer := buffer, checked_index := checked_index,
                        start_line := checked_index }
      match s.checkstate with
      | CHECK_STATE_REQUESTLINE =>
        let r := parse_requestline s.buffer temp s.checkstate
        let s := { s with buffer := r.buffer, checkstate := r.checkstate,
                          out := s.out ++ r.out }
        if r.code = BAD_REQUEST then (BAD_REQUEST, s)
        else parse_content_loop fuel s
      | CHECK_STATE_HEADER =>
        let r := parse_headers s.buffer temp
        let s := { s with out := s.out ++ r.2 }
        if r.1 = BAD_REQUEST then (BAD_REQUEST, s)
        else if r.1 = GET_REQUEST then (GET_REQUEST, s)
        else parse_content_loop fuel s
    | (LINE_OPEN, buffer, checked_index) =>
      (NO_REQUEST, { s with buffer := buffer, checked_index := checked_index })
    | (LINE_BAD, buffer, checked_index) =>
      (BAD_REQUEST, { s with buffer := buffer, checked_index := checked_index })

/-- Function `parse_content(buffer, checked_index, checkstate, read_index,
start_line)`.  Every iteration of the loop but the last consumes a line of at
least one byte of `[checked_index, read_index)`, so
`read_index - checked_index + 1` iterations suffice. -/
def parse_content (s : Session) : HTTP_CODE × Session :=
  parse_content_loop (s.read_index - s.checked_index + 1) s

/-! ## The receive loop of `main` (lines 249-289) -/

/-- The state in which `main` enters its receive loop, for a buffer of
`capacity` bytes. -/
def fresh_session (capacity : Nat) : Session :=
  ⟨List.replicate capacity 0, 0, 0, 0, CHECK_STATE_REQUESTLINE, []⟩

/-- The bytes `data` stored from index `i` on, as `recv` stores them. -/
def store : List Nat → Nat → List Nat → List Nat
  | buffer, _, [] => buffer
  | buffer, i, b :: bs => store (buffer.set i b) (i + 1) bs

/-- Lines 263 and 272: `recv` stores `data`, the bytes it received (at most
`BUFFER_SIZE - read_index` of them), at `buffer + read_index`, and `read_index`
grows by their number. -/
def feed (s : Session) (data : List Nat) : Session :=
  { s with buffer := store s.buffer s.read_index data,
           read_index := s.read_index + data.length }

/-- The `while(1)` loop of `main`, the successive results of `recv` being
`chunks`: an empty result (the peer closed the connection) ends the loop, a
result of `parse_content` other than `NO_REQUEST` ends it as well.  Returns the
last result of `parse_content` (`NO_REQUEST` before the first call) and the
final state. -/
def recv_loop : Session → List (List Nat) → HTTP_CODE × Session
  | s, [] => (NO_REQUEST, s)
  | s, data :: chunks =>
    if data.length = 0 then (NO_REQUEST, s)
    else
      let r := parse_content (feed s data)
      if r.1 = NO_REQUEST then recv_loop r.2 chunks
      else r

/-- The buffer declared at line 249 and the initial values of lines 250-260. -/
def begin_session : Session := fresh_session BUFFER_SIZE

/-! ## Vocabulary of the statements -/

/-- No carriage return and no line feed among the bytes of `[c, i)`. -/
def NoCRLF (buffer : List Nat) (c i : Nat) : Prop :=
  ∀ j < i, c ≤ j → buffer.getD j 0 ≠ CR ∧ buffer.getD j 0 ≠ LF

instance (buffer : List Nat) (c i : Nat) : Decidable (NoCRLF buffer c i) := by
  unfold NoCRLF; infer_instance

/-- The cursors are in order and within the buffer. -/
def Inv (s : Session) : Prop :=
  s.start_line ≤ s.checked_index ∧ s.checked_index ≤ s.read_index
    ∧ s.read_index ≤ s.buffer.length

instance (s : Session) : Decidable (Inv s) := by
  unfold Inv; infer_instance

/-- Space or tab, the bytes of `" \t"`. -/
def isws (c : Nat) : Bool := decide (c ∈ ws)

/-- Neither space nor tab. -/
def notws (c : Nat) : Bool := !isws c

/-- Not the slash. -/
def notslash (c : Nat) : Bool := decide (c ≠ SLASH)

/-- ASCII lower-casing of a byte string. -/
def lower (l : List Nat) : List Nat := l.map tolower

/-- The header lines `hs`, each followed by CR LF. -/
def header_block : List (List Nat) → List Nat
  | [] => []
  | h :: hs => h ++ CR :: LF :: header_block hs

/-- What is observed of the result of `recv_loop`: the last code, the phase, the
lines printed (the effective target among them) and the two line cursors. -/
def observe (x : HTTP_CODE × Session) : HTTP_CODE × CHECK_STATE × List Event × Nat × Nat :=
  (x.1, x.2.checkstate, x.2.out, x.2.checked_index, x.2.start_line)

/-! ## The stages of `parse_requestline`

The body of `parse_requestline` from a given line on, as functions of their
own; `parse_requestline_stages` states that the function is their composition. -/

/-- Lines 122-134 of `parse_requestline`, `url` being the value of the variable
at line 122. -/
def parse_requestline_target (buffer : List Nat) (url : Nat) (checkstate : CHECK_STATE) :
    ReqLine :=
  let url? : Option Nat :=
    if strncasecmp (buffer.drop url) lit_http 7 = 0 then
      (strchr (buffer.drop (url + 7)) SLASH).map (url + 7 + ·)
    else some url
  match url? with
  | none => ⟨BAD_REQUEST, buffer, checkstate, [Event.method_get]⟩
  | some url =>
    if buffer.getD url 0 ≠ SLASH then
      ⟨BAD_REQUEST, buffer, checkstate, [Event.method_get]⟩
    else
      ⟨NO_REQUEST, buffer, CHECK_STATE_HEADER,
        [Event.method_get, Event.url (cstr (buffer.drop url))]⟩

/-- Lines 110-134 of `parse_requestline`, `url` being the value of the variable
after line 109. -/
def parse_requestline_version (buffer : List Nat) (url : Nat) (checkstate : CHECK_STATE) :
    ReqLine :=
  match strpbrk (buffer.drop url) ws with
  | none => ⟨BAD_REQUEST, buffer, checkstate, [Event.method_get]⟩
  | some j =>
    let buffer := buffer.set (url + j) 0
    let version := url + j + 1
    let version := version + strspn (buffer.drop version) ws
    if strcasecmp (buffer.drop version) lit_HTTP11 ≠ 0 then
      ⟨BAD_REQUEST, buffer, checkstate, [Event.method_get]⟩
    else
      parse_requestline_target buffer url checkstate

/-! ## The body of the loop of `parse_content`

The same statements as in `parse_content_loop`, with the remaining iterations
of the loop as a parameter `k`; `parse_content_loop_succ` states that the loop
is made of them. -/

/-- Lines 175-202: what the loop body does with a line that `parse_line`
reported `LINE_OK`, leaving `buffer` and `checked_index`. -/
def dispatch (k : Session → HTTP_CODE × Session) (s : Session) (buffer : List Nat)
    (checked_index : Nat) : HTTP_CODE × Session :=
  let temp := s.start_line
  let s := { s with buffer := buffer, checked_index := checked_index,
                    start_line := checked_index }
  match s.checkstate with
  | CHECK_STATE_REQUESTLINE =>
    let r := parse_requestline s.buffer temp s.checkstate
    let s := { s with buffer := r.buffer, checkstate := r.checkstate,
                      out := s.out ++ r.out }
    if r.code = BAD_REQUEST then (BAD_REQUEST, s)
    else k s
  | CHECK_STATE_HEADER =>
    let r := parse_headers s.buffer temp
    let s := { s with out := s.out ++ r.2 }
    if r.1 = BAD_REQUEST then (BAD_REQUEST, s)
    else if r.1 = GET_REQUEST then (GET_REQUEST, s)
    else k s

/-- Lines 173-210: one evaluation of the loop condition, the body, and the
statements after the loop. -/
def content_body (k : Session → HTTP_CODE × Session) (s : Session) : HTTP_CODE × Session :=
  match parse_line s.buffer s.checked_index s.read_index with
  | (LINE_OK, buffer, checked_index) => dispatch k s buffer checked_index
  | (LINE_OPEN, buffer, checked_index) =>
    (NO_REQUEST, { s with buffer := buffer, checked_index := checked_index })
  | (LINE_BAD, buffer, checked_index) =>
    (BAD_REQUEST, { s with buffer := buffer, checked_index := checked_index })

/-! ## Line-level descriptions of the two interpreters

The functions below describe `parse_requestline` and `parse_headers` on the
bytes of the C string they are given, without pointers;
`parse_requestline_append` and `parse_headers_append` prove that the program
computes them. -/

/-- The effective target of a target token `T`: for a token that begins with
`http://` (in any case), what follows the first slash after these 7 bytes,
that slash included, if there is one; otherwise the token itself. -/
def effective_target (T : List Nat) : Option (List Nat) :=
  if lower (T.take 7) = lit_http then
    match (T.drop 7).dropWhile notslash with
    | [] => none
    | u => some u
  else if T.headD 0 ≠ SLASH then none
  else some T

/-- Lines 110-134 on the C string `t2` that begins at the target token: the
code returned, the bytes of `t2` as the call leaves them, and what is printed. -/
def version_spec (t2 : List Nat) : HTTP_CODE × List Nat × List Event :=
  let T := t2.takeWhile notws
  match t2.dropWhile notws with
  | [] => (BAD_REQUEST, t2, [Event.method_get])
  | _ :: t3 =>
    if lower (t3.dropWhile isws) ≠ lower lit_HTTP11 then
      (BAD_REQUEST, T ++ 0 :: t3, [Event.method_get])
    else
      match effective_target T with
      | none => (BAD_REQUEST, T ++ 0 :: t3, [Event.method_get])
      | some u => (NO_REQUEST, T ++ 0 :: t3, [Event.method_get, Event.url u])

/-- What `parse_requestline` does with the C string `a` (a byte string without
NUL): the code it returns, the bytes of `a` as it leaves them, and what it
prints. -/
def reqline_spec (a : List Nat) : HTTP_CODE × List Nat × List Event :=
  let M := a.takeWhile notws
  match a.dropWhile notws with
  | [] => (BAD_REQUEST, a, [])
  | _ :: t1 =>
    if lower M ≠ lower lit_GET then (BAD_REQUEST, M ++ 0 :: t1, [])
    else
      let r := version_spec (t1.dropWhile isws)
      (r.1, M ++ 0 :: (t1.takeWhile isws ++ r.2.1), r.2.2)

/-- What `parse_headers` does with the C string `a` (a byte string without
NUL): the code it returns and what it prints. -/
def header_spec (a : List Nat) : HTTP_CODE × List Event :=
  if a = [] then (GET_REQUEST, [])
  else if lower (a.take 5) = lower lit_Host then
    (NO_REQUEST, [Event.host ((a.drop 5).dropWhile isws)])
  else (NO_REQUEST, [Event.unhandled a])

/-! ## Concrete inputs used as instances -/

/-- The bytes `GET` and a carriage return have been received. -/
def ex_split : Session :=
  ⟨[71, 69, 84, 13, 0, 0, 0, 0], 0, 4, 0, CHECK_STATE_REQUESTLINE, []⟩

/-- The bytes `GE`, a line feed and `T` have been received. -/
def ex_bare_lf : Session :=
  ⟨[71, 69, 10, 84, 0, 0, 0, 0], 0, 4, 0, CHECK_STATE_REQUESTLINE, []⟩

/-- The bytes `GE`, a carriage return and `X` have been received. -/
def ex_bare_cr : Session :=
  ⟨[71, 69, 13, 88, 0, 0, 0, 0], 0, 4, 0, CHECK_STATE_REQUESTLINE, []⟩

/-- Header phase; the bytes NUL, `A`, CR, LF have been received. -/
def ex_nul_header : Session :=
  ⟨[0, 65, 13, 10, 0, 0, 0, 0], 0, 4, 0, CHECK_STATE_HEADER, []⟩

/-- Header phase; the line `Host: a` and its terminator have been received. -/
def ex_host_header : Session :=
  ⟨[72, 111, 115, 116, 58, 32, 97, 13, 10, 0], 0, 9, 0, CHECK_STATE_HEADER, []⟩

/-- The request line `POST / HTTP/1.1`. -/
def ex_post : List Nat := [80, 79, 83, 84, 32, 47, 32, 72, 84, 84, 80, 47, 49, 46, 49]

/-- The request line `GET /index.html HTTP/1.0`. -/
def ex_http10 : List Nat :=
  [71, 69, 84, 32, 47, 105, 110, 100, 101, 120, 46, 104, 116, 109, 108, 32,
   72, 84, 84, 80, 47, 49, 46, 48]

/-- The bytes `GET / HTTP/1.1`, NUL, `x`: a line whose remainder after the
target is `HTTP/1.1` followed by two more bytes. -/
def ex_nul_version : List Nat :=
  [71, 69, 84, 32, 47, 32, 72, 84, 84, 80, 47, 49, 46, 49, 0, 120]

/-- The request line `GET http://host.example/path HTTP/1.1`. -/
def ex_absolute : List Nat :=
  [71, 69, 84, 32, 104, 116, 116, 112, 58, 47, 47, 104, 111, 115, 116, 46, 101, 120, 97,
   109, 112, 108, 101, 47, 112, 97, 116, 104, 32, 72, 84, 84, 80, 47, 49, 46, 49]

/-- The request line `GET index.html HTTP/1.1`. -/
def ex_relative : List Nat :=
  [71, 69, 84, 32, 105, 110, 100, 101, 120, 46, 104, 116, 109, 108, 32,
   72, 84, 84, 80, 47, 49, 46, 49]

/-- The request line `GET / HTTP/1.1`. -/
def ex_get_root : List Nat := [71, 69, 84, 32, 47, 32, 72, 84, 84, 80, 47, 49, 46, 49]

/-- The header line `Host: example.com`. -/
def ex_host : List Nat :=
  [72, 111, 115, 116, 58, 32, 101, 120, 97, 109, 112, 108, 101, 46, 99, 111, 109]

/-- The request `GET / HTTP/1.1`, CR LF, CR LF. -/
def ex_request : List Nat := ex_get_root ++ [13, 10, 13, 10]

/-- The bytes of `ex_request`, each as a chunk of its own. -/
def ex_request_bytewise : List (List Nat) := ex_request.map (fun b => [b])

/-! ## Further vocabulary of the statements -/

/-- The byte before `checked_index`, if there is one, is not a carriage return:
`checked_index` does not stand just after an unconsumed CR. -/
def NotAfterCR (s : Session) : Prop :=
  1 ≤ s.checked_index → s.buffer.getD (s.checked_index - 1) 0 ≠ CR

instance (s : Session) : Decidable (NotAfterCR s) := by
  unfold NotAfterCR; infer_instance

/-- The cursors are in order: `0 ≤ start_line ≤ checked_index ≤ read_index`
(the first inequality holds of every `Nat`). -/
def CursorInv (s : Session) : Prop :=
  0 ≤ s.start_line ∧ s.start_line ≤ s.checked_index ∧ s.checked_index ≤ s.read_index

instance (s : Session) : Decidable (CursorInv s) := by
  unfold CursorInv; infer_instance

/-- A session in which `ab\r\n` has been received and `checked_index` stands
at the line feed. -/
def ex_lf_at_three : Session :=
  ⟨[97, 98, 13, 10, 0, 0, 0, 0], 3, 4, 0, CHECK_STATE_REQUESTLINE, []⟩

/-- A session in which `abc` has been received, nothing of it checked. -/
def ex_no_terminator : Session :=
  ⟨[97, 98, 99, 0, 0, 0, 0, 0], 0, 3, 0, CHECK_STATE_REQUESTLINE, []⟩

/-- A session in which `ab` and a line feed have been received, `ab` checked. -/
def ex_lookback : Session :=
  ⟨[97, 98, 10, 0, 0, 0, 0, 0], 2, 3, 0, CHECK_STATE_REQUESTLINE, []⟩

/-- The form of an accepted request line, in the words of the specification:
`M W1 T W2 V` where `M` is `GET` up to case, `W1` and `W2` are non-empty runs of
spaces and tabs, `T` is non-empty, holds no space or tab and either begins with a
slash or begins with `http://` (up to case) followed by a string that holds a
slash, and `V` is `HTTP/1.1` up to case, with nothing after it. -/
def WellFormedLine (line : List Nat) : Prop :=
  ∃ M W1 T W2 V : List Nat, line = M ++ W1 ++ T ++ W2 ++ V
    ∧ lower M = lower lit_GET
    ∧ (W1 ≠ [] ∧ ∀ b ∈ W1, b ∈ ws)
    ∧ (T ≠ [] ∧ (∀ b ∈ T, b ∉ ws)
        ∧ (T.head? = some SLASH ∨ (lower (T.take 7) = lit_http ∧ SLASH ∈ T.drop 7)))
    ∧ (W2 ≠ [] ∧ ∀ b ∈ W2, b ∈ ws)
    ∧ lower V = lower lit_HTTP11

/-- A sequence of calls of `parse_content` in one session, each after `recv`
stored one more chunk; the session after the last call. -/
def parse_calls : Session → List (List Nat) → Session
  | s, [] => s
  | s, d :: ds => parse_calls (parse_content (feed s d)).2 ds

/-- Where the receive loop of `main` stands: about to call `recv`, or past its
`break`. -/
inductive Stage where
  | awaiting
  | finished
  deriving DecidableEq, Repr

/-- The sessions that the receive loop of `main` reaches from the fresh session:
each step stores a chunk that fits in the buffer at `read_index` and calls
`parse_content`; the loop goes on after `NO_REQUEST` only. -/
inductive Reachable : Stage → Session → Prop where
  | fresh : Reachable Stage.awaiting begin_session
  | more (s : Session) (d : List Nat) :
      Reachable Stage.awaiting s → s.read_index + d.length ≤ BUFFER_SIZE →
      (parse_content (feed s d)).1 = NO_REQUEST →
      Reachable Stage.awaiting (parse_content (feed s d)).2
  | done (s : Session) (d : List Nat) :
      Reachable Stage.awaiting s → s.read_index + d.length ≤ BUFFER_SIZE →
      (parse_content (feed s d)).1 ≠ NO_REQUEST →
      Reachable Stage.finished (parse_content (feed s d)).2

/-! ## The loop body of `parse_content`, interpreter part -/

/-- Lines 175-198 up to the tests on `retcode`: for a line that `parse_line`
reported `LINE_OK`, leaving `buffer` and `checked_index`, the code returned by
the interpreter of the current phase and the session it leaves. -/
def interpret (s : Session) (buffer : List Nat) (checked_index : Nat) : HTTP_CODE × Session :=
  let temp := s.start_line
  let s := { s with buffer := buffer, checked_index := checked_index,
                    start_line := checked_index }
  match s.checkstate with
  | CHECK_STATE_REQUESTLINE =>
    let r := parse_requestline s.buffer temp s.checkstate
    (r.code, { s with buffer := r.buffer, checkstate := r.checkstate, out := s.out ++ r.out })
  | CHECK_STATE_HEADER =>
    let r := parse_headers s.buffer temp
    (r.1, { s with out := s.out ++ r.2 })

/-! ## Instrumented copies of the two state machines

The same programs as `parse_line_loop` and `parse_content_loop`, which record
in addition what they do: the buffer accesses of `parse_line`, and for
`parse_content` the sessions at which the loop condition is evaluated and the
number of executions of the loop body.  `parse_line_log_fst` and
`parse_content_log_result` state that they compute what the plain programs
compute. -/

/-- One access to `buffer`, the index being the value of the C expression. -/
inductive Access where
  | read (i : Int)
  | write (i : Int)
  deriving DecidableEq, Repr

/-- The index of an access. -/
def Access.index : Access → Int
  | Access.read i => i
  | Access.write i => i

/-- Whether an access is a read. -/
def Access.isRead : Access → Bool
  | Access.read _ => true
  | Access.write _ => false

/-- The `for` loop of `parse_line` with the list of its buffer accesses, in
order: line 56 reads `buffer[checked_index]`, line 65 reads
`buffer[checked_index + 1]`, lines 66-67 write both; line 75 reads
`buffer[checked_index - 1]` when `checked_index > 1` holds (the `&&` does not
evaluate its right operand otherwise), lines 76-77 write. -/
def parse_line_loop_log :
    Nat → List Nat → Nat → Nat → (LINE_STATUS × List Nat × Nat) × List Access
  | 0, buffer, checked_index, _ => ((LINE_OPEN, buffer, checked_index), [])
  | fuel + 1, buffer, checked_index, read_index =>
    if checked_index < read_index then
      let temp := buffer.getD checked_index 0
      if temp = CR then
        if read_index = checked_index + 1 then
          ((LINE_OPEN, buffer, checked_index), [Access.read checked_index])
        else if buffer.getD (checked_index + 1) 0 = LF then
          ((LINE_OK, (buffer.set checked_index 0).set (checked_index + 1) 0, checked_index + 2),
            [Access.read checked_index, Access.read ((checked_index : Int) + 1),
             Access.write checked_index, Access.write ((checked_index : Int) + 1)])
        else
          ((LINE_BAD, buffer, checked_index),
            [Access.read checked_index, Access.read ((checked_index : Int) + 1)])
      else if temp = LF then
        if checked_index > 1 then
          if buffer.getD (checked_index - 1) 0 = CR then
            ((LINE_OK, (buffer.set (checked_index - 1) 0).set checked_index 0,
                checked_index + 1),
              [Access.read checked_index, Access.read ((checked_index : Int) - 1),
               Access.write ((checked_index : Int) - 1), Access.write checked_index])
          else
            ((LINE_BAD, buffer, checked_index),
              [Access.read checked_index, Access.read ((checked_index : Int) - 1)])
        else
          ((LINE_BAD, buffer, checked_index), [Access.read checked_index])
      else
        let rest := parse_line_loop_log fuel buffer (checked_index + 1) read_index
        (rest.1, Access.read checked_index :: rest.2)
    else
      ((LINE_OPEN, buffer, checked_index), [])

/-- Function `parse_line` with the list of its buffer accesses. -/
def parse_line_log (buffer : List Nat) (checked_index read_index : Nat) :
    (LINE_STATUS × List Nat × Nat) × List Access :=
  parse_line_loop_log (read_index - checked_index) buffer checked_index read_index

/-- What the instrumented `parse_content` returns: the result of
`parse_content`, the sessions at which the condition of the `while` loop was
evaluated (that is, at which `parse_line` was called), in order, and the number
of executions of the loop body. -/
structure ContentLog where
  result : HTTP_CODE × Session
  heads : List Session
  iterations : Nat

/-- One more execution of the loop body, entered from session `s`. -/
def ContentLog.after (l : ContentLog) (s : Session) : ContentLog :=
  ⟨l.result, s :: l.heads, l.iterations + 1⟩

/-- The `while` loop of `parse_content` with its record. -/
def parse_content_loop_log : Nat → Session → ContentLog
  | 0, s => ⟨(INTERNAL_ERROR, s), [], 0⟩
  | fuel + 1, s =>
    match parse_line s.buffer s.checked_index s.read_index with
    | (LINE_OK, buffer, checked_index) =>
      let temp := s.start_line
      let s1 := { s with buffer := buffer, checked_index := checked_index,
                         start_line := checked_index }
      match s1.checkstate with
      | CHECK_STATE_REQUESTLINE =>
        let r := parse_requestline s1.buffer temp s1.checkstate
        let s2 := { s1 with buffer := r.buffer, checkstate := r.checkstate,
                            out := s1.out ++ r.out }
        if r.code = BAD_REQUEST then ⟨(BAD_REQUEST, s2), [s], 1⟩
        else (parse_content_loop_log fuel s2).after s
      | CHECK_STATE_HEADER =>
        let r := parse_headers s1.buffer temp
        let s2 := { s1 with out := s1.out ++ r.2 }
        if r.1 = BAD_REQUEST then ⟨(BAD_REQUEST, s2), [s], 1⟩
        else if r.1 = GET_REQUEST then ⟨(GET_REQUEST, s2), [s], 1⟩
        else (parse_content_loop_log fuel s2).after s
    | (LINE_OPEN, buffer, checked_index) =>
      ⟨(NO_REQUEST, { s with buffer := buffer, checked_index := checked_index }), [s], 0⟩
    | (LINE_BAD, buffer, checked_index) =>
      ⟨(BAD_REQUEST, { s with buffer := buffer, checked_index := checked_index }), [s], 0⟩

/-- Function `parse_content` with its record. -/
def parse_content_log (s : Session) : ContentLog :=
  parse_content_loop_log (s.read_index - s.checked_index + 1) s

/-! ## Lemmas on buffers -/

theorem getD_set_eq (l : List Nat) (i j v : Nat) :
    (l.set i v).getD j 0 = if i = j ∧ i < l.length then v else l.getD j 0 := by
  simp only [List.getD_eq_getElem?_getD, List.getElem?_set]
  by_cases h : i = j
  · subst h
    by_cases h2 : i < l.length
    · simp [h2]
    · simp [h2, List.getElem?_eq_none (Nat.le_of_not_lt h2)]
  · simp [h]

theorem getD_set_ne (l : List Nat) (i j v : Nat) (h : i ≠ j) :
    (l.set i v).getD j 0 = l.getD j 0 := by
  rw [getD_set_eq]; simp [h]

theorem parse_line_loop_skip (buffer : List Nat) (r : Nat) :
    ∀ (n fuel c : Nat), c + n ≤ r → r - c ≤ fuel → NoCRLF buffer c (c + n) →
      parse_line_loop fuel buffer c r = parse_line_loop (fuel - n) buffer (c + n) r := by
  intro n
  induction n with
  | zero => intro fuel c _ _ _; simp
  | succ n ih =>
    intro fuel c h1 h2 h3
    obtain ⟨f, rfl⟩ : ∃ f, fuel = f + 1 := ⟨fuel - 1, by omega⟩
    have hc := h3 c (by omega) (Nat.le_refl c)
    have hlt : c < r := by omega
    rw [parse_line_loop]
    simp only [hlt, if_true, hc.1, hc.2, if_false]
    rw [ih f (c + 1) (by omega) (by omega) (fun j hj hcj => h3 j (by omega) (by omega))]
    have e1 : f + 1 - (n + 1) = f - n := by omega
    have e2 : c + 1 + n = c + (n + 1) := by omega
    rw [e1, e2]

theorem parse_line_skip (buffer : List Nat) (c i r : Nat) (hci : c ≤ i) (hir : i ≤ r)
    (h : NoCRLF buffer c i) :
    parse_line buffer c r = parse_line buffer i r := by
  unfold parse_line
  have := parse_line_loop_skip buffer r (i - c) (r - c) c (by omega) (Nat.le_refl _)
    (by rw [Nat.add_sub_cancel' hci]; exact h)
  rw [this, Nat.add_sub_cancel' hci]
  congr 1
  omega

theorem parse_line_at (buffer : List Nat) (i r : Nat) (hir : i < r) :
    parse_line buffer i r =
      if buffer.getD i 0 = CR then
        if r = i + 1 then (LINE_OPEN, buffer, i)
        else if buffer.getD (i + 1) 0 = LF then
          (LINE_OK, (buffer.set i 0).set (i + 1) 0, i + 2)
        else (LINE_BAD, buffer, i)
      else if buffer.getD i 0 = LF then
        if i > 1 ∧ buffer.getD (i - 1) 0 = CR then
          (LINE_OK, (buffer.set (i - 1) 0).set i 0, i + 1)
        else (LINE_BAD, buffer, i)
      else parse_line buffer (i + 1) r := by
  unfold parse_line
  obtain ⟨f, hf⟩ : ∃ f, r - i = f + 1 := ⟨r - i - 1, by omega⟩
  have e : r - (i + 1) = f := by omega
  rw [hf, e, parse_line_loop]
  simp only [hir, if_true]

theorem parse_line_end (buffer : List Nat) (i r : Nat) (hir : r ≤ i) :
    parse_line buffer i r = (LINE_OPEN, buffer, i) := by
  unfold parse_line
  have e : r - i = 0 := by omega
  rw [e, parse_line_loop]

/-! ## One call of `parse_content` whose first line is not complete -/

theorem parse_content_of_open (s : Session) (b : List Nat) (c : Nat)
    (h : parse_line s.buffer s.checked_index s.read_index = (LINE_OPEN, b, c)) :
    parse_content s = (NO_REQUEST, { s with buffer := b, checked_index := c }) := by
  unfold parse_content
  rw [parse_content_loop, h]

theorem parse_content_of_bad (s : Session) (b : List Nat) (c : Nat)
    (h : parse_line s.buffer s.checked_index s.read_index = (LINE_BAD, b, c)) :
    parse_content s = (BAD_REQUEST, { s with buffer := b, checked_index := c }) := by
  unfold parse_content
  rw [parse_content_loop, h]

theorem store_one (b : List Nat) (i v : Nat) : store b i [v] = b.set i v := by
  simp [store]

/-! ## A buffer that holds a terminated line -/

theorem getD_append_add (pre l : List Nat) (k : Nat) :
    (pre ++ l).getD (pre.length + k) 0 = l.getD k 0 := by
  rw [List.getD_append_right _ _ _ _ (by omega)]
  congr 1; omega

theorem getD_append_lt (a l : List Nat) (k : Nat) (h : k < a.length) :
    (a ++ l).getD k 0 = a.getD k 0 := by
  rw [List.getD_append _ _ _ _ h]

theorem getD_mem (a : List Nat) (k : Nat) (h : k < a.length) : a.getD k 0 ∈ a := by
  rw [List.getD_eq_getElem _ _ h]
  exact List.getElem_mem _

theorem set_append_add (pre l : List Nat) (k v : Nat) :
    (pre ++ l).set (pre.length + k) v = pre ++ l.set k v := by
  rw [List.set_append_right _ _ (by omega)]
  congr 2; omega

/-- A buffer that holds `a`, then CR LF: the scan from `c` within `a` meets no
CR or LF before the terminator and returns the line. -/
theorem parse_line_crlf (a rest : List Nat) (c r : Nat) (hc : c ≤ a.length)
    (hr : a.length + 2 ≤ r) (hno : NoCRLF (a ++ CR :: LF :: rest) c a.length) :
    parse_line (a ++ CR :: LF :: rest) c r
      = (LINE_OK, a ++ 0 :: 0 :: rest, a.length + 2) := by
  rw [parse_line_skip _ c a.length r hc (by omega) hno, parse_line_at _ _ _ (by omega)]
  have h0 : (a ++ CR :: LF :: rest).getD a.length 0 = CR := by
    have := getD_append_add a (CR :: LF :: rest) 0
    simpa using this
  have h1 : (a ++ CR :: LF :: rest).getD (a.length + 1) 0 = LF := by
    have := getD_append_add a (CR :: LF :: rest) 1
    simpa using this
  rw [if_pos h0, if_neg (by omega), if_pos h1]
  have e0 := set_append_add a (CR :: LF :: rest) 0 0
  have e1 := set_append_add a (0 :: LF :: rest) 1 0
  simp only [Nat.add_zero, List.set_cons_zero, List.set_cons_succ] at e0 e1
  rw [e0, e1]

theorem noCRLF_of_forall (pre l rest : List Nat) (c : Nat) (hc : pre.length ≤ c)
    (hl : ∀ b ∈ l, b ≠ CR ∧ b ≠ LF) :
    NoCRLF (pre ++ l ++ rest) c (pre ++ l).length := by
  intro j hj hcj
  obtain ⟨k, rfl⟩ : ∃ k, j = pre.length + k := ⟨j - pre.length, by omega⟩
  rw [List.length_append] at hj
  rw [List.append_assoc, getD_append_add, getD_append_lt _ _ _ (by omega)]
  exact hl _ (getD_mem _ _ (by omega))

theorem parse_headers_ne_bad (buffer : List Nat) (temp : Nat) :
    (parse_headers buffer temp).1 ≠ BAD_REQUEST := by
  unfold parse_headers
  split_ifs <;> simp

theorem parse_headers_get_iff (buffer : List Nat) (temp : Nat) :
    (parse_headers buffer temp).1 = GET_REQUEST ↔ buffer.getD temp 0 = 0 := by
  unfold parse_headers
  split_ifs with h1 h2 <;> simp_all

theorem parse_headers_no_iff (buffer : List Nat) (temp : Nat) :
    (parse_headers buffer temp).1 = NO_REQUEST ↔ buffer.getD temp 0 ≠ 0 := by
  unfold parse_headers
  split_ifs with h1 h2 <;> simp_all

/-! ## The C library functions on a string followed by its terminator -/

theorem tolower_eq_zero (c : Nat) : tolower c = 0 ↔ c = 0 := by
  unfold tolower
  by_cases h : 65 ≤ c ∧ c ≤ 90
  · rw [if_pos h]; omega
  · rw [if_neg h]

theorem zero_not_ws : (0 : Nat) ∉ ws := by decide

theorem isws_iff (c : Nat) : isws c = true ↔ c ∈ ws := by simp [isws]

theorem notws_iff (c : Nat) : notws c = true ↔ c ∉ ws := by simp [notws, isws]

theorem cstr_append (a t : List Nat) (ha : ∀ b ∈ a, b ≠ 0) (ht : t.headD 0 = 0) :
    cstr (a ++ t) = a := by
  induction a with
  | nil =>
    cases t with
    | nil => rfl
    | cons c x => simp at ht; simp [cstr, ht]
  | cons b a ih =>
    have hb : b ≠ 0 := ha b (List.mem_cons_self _ _)
    rw [List.cons_append]
    simp only [cstr, hb, if_false]
    rw [ih (fun c hc => ha c (List.mem_cons_of_mem _ hc))]

theorem cstr_ne_zero (m : List Nat) : ∀ b ∈ cstr m, b ≠ 0 := by
  induction m with
  | nil => simp [cstr]
  | cons c x ih =>
    by_cases hc : c = 0
    · simp [cstr, hc]
    · simp only [cstr, hc, if_false, List.mem_cons]
      rintro b (rfl | hb)
      · exact hc
      · exact ih b hb

theorem cstr_split (m : List Nat) :
    m = cstr m ++ m.drop (cstr m).length ∧ (m.drop (cstr m).length).headD 0 = 0 := by
  induction m with
  | nil => simp [cstr]
  | cons c x ih =>
    by_cases hc : c = 0
    · simp [cstr, hc]
    · simp only [cstr, hc, if_false, List.length_cons, List.drop_succ_cons, List.cons_append]
      exact ⟨by rw [← ih.1], ih.2⟩

theorem strpbrk_none (a t : List Nat) (ha : ∀ b ∈ a, b ∉ ws) (ht : t.headD 0 = 0) :
    strpbrk (a ++ t) ws = none := by
  induction a with
  | nil =>
    cases t with
    | nil => rfl
    | cons c x => simp at ht; simp [strpbrk, ht]
  | cons b a ih =>
    have hb : b ∉ ws := ha b (List.mem_cons_self _ _)
    rw [List.cons_append]
    simp only [strpbrk, hb, if_false]
    rw [ih (fun c hc => ha c (List.mem_cons_of_mem _ hc))]
    simp

theorem strpbrk_some (a x : List Nat) (c : Nat) (ha : ∀ b ∈ a, b ≠ 0 ∧ b ∉ ws)
    (hc : c ∈ ws) : strpbrk (a ++ c :: x) ws = some a.length := by
  induction a with
  | nil =>
    have h0 : c ≠ 0 := fun h => zero_not_ws (h ▸ hc)
    simp [strpbrk, h0, hc]
  | cons b a ih =>
    have hb := ha b (List.mem_cons_self _ _)
    rw [List.cons_append]
    simp only [strpbrk, hb.1, hb.2, if_false]
    rw [ih (fun c hc => ha c (List.mem_cons_of_mem _ hc))]
    simp

theorem strspn_append (w x : List Nat) (hw : ∀ b ∈ w, b ∈ ws) (hx : x.headD 0 ∉ ws) :
    strspn (w ++ x) ws = w.length := by
  induction w with
  | nil =>
    cases x with
    | nil => rfl
    | cons c y => simp at hx; simp [strspn, hx]
  | cons b w ih =>
    have hb : b ∈ ws := hw b (List.mem_cons_self _ _)
    have h0 : b ≠ 0 := fun h => zero_not_ws (h ▸ hb)
    rw [List.cons_append]
    simp only [strspn, h0, hb, ne_eq, not_false_eq_true, and_self, if_true,
      List.length_cons]
    rw [ih (fun c hc => hw c (List.mem_cons_of_mem _ hc))]

theorem strchr_none (a t : List Nat) (ch : Nat) (hch : ch ≠ 0) (ha : ∀ b ∈ a, b ≠ ch)
    (ht : t.headD 0 = 0) : strchr (a ++ t) ch = none := by
  induction a with
  | nil =>
    cases t with
    | nil => simp [strchr, hch]
    | cons c x =>
      simp at ht
      simp [strchr, ht, hch.symm]
  | cons b a ih =>
    have hb : b ≠ ch := ha b (List.mem_cons_self _ _)
    rw [List.cons_append]
    simp only [strchr, hb, if_false]
    rw [ih (fun c hc => ha c (List.mem_cons_of_mem _ hc))]
    simp

theorem strchr_some (a x : List Nat) (ch : Nat) (ha : ∀ b ∈ a, b ≠ 0 ∧ b ≠ ch) :
    strchr (a ++ ch :: x) ch = some a.length := by
  induction a with
  | nil => simp [strchr]
  | cons b a ih =>
    have hb := ha b (List.mem_cons_self _ _)
    rw [List.cons_append]
    simp only [strchr, hb.1, hb.2, if_false]
    rw [ih (fun c hc => ha c (List.mem_cons_of_mem _ hc))]
    simp

theorem strcasecmp_append (a t lit : List Nat) (ha : ∀ b ∈ a, b ≠ 0) (hl : ∀ b ∈ lit, b ≠ 0)
    (ht : t.headD 0 = 0) : strcasecmp (a ++ t) lit = 0 ↔ lower a = lower lit := by
  induction a generalizing lit with
  | nil =>
    cases lit with
    | nil =>
      cases t with
      | nil => simp [strcasecmp, lower]
      | cons c x =>
        simp at ht
        simp [strcasecmp, lower, ht, tolower]
    | cons l lit =>
      have h := hl l (List.mem_cons_self _ _)
      have h2 : tolower l ≠ 0 := fun e => h ((tolower_eq_zero l).1 e)
      cases t with
      | nil =>
        simp only [List.append_nil, strcasecmp, lower, List.map_nil, List.map_cons]
        constructor
        · intro e; simp [tolower] at e; omega
        · intro e; simp at e
      | cons c x =>
        simp at ht
        subst ht
        have h3 : tolower 0 ≠ tolower l := by
          intro e; apply h2; rw [← e]; rfl
        simp only [List.nil_append, strcasecmp, lower, List.map_nil, List.map_cons, h3, ne_eq,
          not_false_eq_true, if_true]
        constructor
        · intro e; simp [tolower] at e; omega
        · intro e; simp at e
  | cons b a ih =>
    have hb : b ≠ 0 := ha b (List.mem_cons_self _ _)
    have hb2 : tolower b ≠ 0 := fun e => hb ((tolower_eq_zero b).1 e)
    cases lit with
    | nil =>
      rw [List.cons_append]
      simp only [strcasecmp, lower, List.map_nil, List.map_cons]
      constructor
      · intro e; simp [tolower] at e; omega
      · intro e; simp at e
    | cons l lit =>
      rw [List.cons_append]
      simp only [strcasecmp, lower, List.map_cons, List.cons.injEq]
      by_cases e : tolower b = tolower l
      · simp only [e, ne_eq, not_true_eq_false, if_false, hb, true_and]
        exact ih lit (fun c hc => ha c (List.mem_cons_of_mem _ hc))
          (fun c hc => hl c (List.mem_cons_of_mem _ hc))
      · simp only [e, ne_eq, not_false_eq_true, if_true, false_and, iff_false]
        omega

theorem strncasecmp_append (n : Nat) (a t lit : List Nat) (ha : ∀ b ∈ a, b ≠ 0)
    (hl : ∀ b ∈ lit, b ≠ 0) (hn : lit.length = n) (ht : t.headD 0 = 0) :
    strncasecmp (a ++ t) lit n = 0 ↔ lower (a.take n) = lower lit := by
  induction n generalizing a lit with
  | zero =>
    have : lit = [] := List.length_eq_zero.1 hn
    simp [strncasecmp, this, lower]
  | succ n ih =>
    obtain ⟨l, lit, rfl⟩ : ∃ l lit', lit = l :: lit' := by
      cases lit with
      | nil => simp at hn
      | cons l lit => exact ⟨l, lit, rfl⟩
    have h := hl l (List.mem_cons_self _ _)
    have h2 : tolower l ≠ 0 := fun e => h ((tolower_eq_zero l).1 e)
    cases a with
    | nil =>
      have h0 : (([] : List Nat) ++ t).headD 0 = 0 := by simpa using ht
      simp only [strncasecmp, h0, List.headD_cons, lower, List.take_nil, List.map_nil,
        List.map_cons]
      have h3 : tolower 0 ≠ tolower l := by
        intro e; apply h2; rw [← e]; rfl
      simp only [h3, ne_eq, not_false_eq_true, if_true]
      constructor
      · intro e; simp [tolower] at e; omega
      · intro e; simp at e
    | cons b a =>
      have hb : b ≠ 0 := ha b (List.mem_cons_self _ _)
      have hb2 : tolower b ≠ 0 := fun e => hb ((tolower_eq_zero b).1 e)
      rw [List.cons_append]
      simp only [strncasecmp, List.headD_cons, List.tail_cons, lower,
        List.take_succ_cons, List.map_cons, List.cons.injEq]
      by_cases e : tolower b = tolower l
      · simp only [e, ne_eq, not_true_eq_false, if_false, h2, true_and]
        exact ih a lit (fun c hc => ha c (List.mem_cons_of_mem _ hc))
          (fun c hc => hl c (List.mem_cons_of_mem _ hc)) (by simpa using hn)
      · simp only [e, ne_eq, not_false_eq_true, if_true, false_and, iff_false]
        omega

/-! ## Pointers into a buffer written as an append -/

theorem drop_of_length (X Y : List Nat) (i : Nat) (h : X.length = i) :
    (X ++ Y).drop i = Y := by
  subst h; exact List.drop_left _ _

theorem set_of_length (X Y : List Nat) (c v i : Nat) (h : X.length = i) :
    (X ++ c :: Y).set i v = X ++ v :: Y := by
  subst h
  simp

theorem getD_of_length (X Y : List Nat) (i : Nat) (h : X.length = i) :
    (X ++ Y).getD i 0 = Y.headD 0 := by
  subst h
  have := getD_append_add X Y 0
  rw [Nat.add_zero] at this
  rw [this]
  cases Y <;> simp

theorem lower_lit_http : lower lit_http = lit_http := by decide

theorem lower_length (l : List Nat) : (lower l).length = l.length := by simp [lower]

/-- Lines 123-130 on a target token `T` that is followed by NUL. -/
theorem url_stage (X T y : List Nat) (hT : ∀ b ∈ T, b ≠ 0) :
    (match (if strncasecmp ((X ++ (T ++ 0 :: y)).drop X.length) lit_http 7 = 0 then
              (strchr ((X ++ (T ++ 0 :: y)).drop (X.length + 7)) SLASH).map (X.length + 7 + ·)
            else some X.length) with
      | none => none
      | some u =>
        if (X ++ (T ++ 0 :: y)).getD u 0 ≠ SLASH then none
        else some (cstr ((X ++ (T ++ 0 :: y)).drop u)))
      = effective_target T := by
  have hdrop : (X ++ (T ++ 0 :: y)).drop X.length = T ++ 0 :: y := drop_of_length _ _ _ rfl
  have hcmp := strncasecmp_append 7 T (0 :: y) lit_http hT (by decide) rfl rfl
  rw [lower_lit_http] at hcmp
  rw [hdrop]
  unfold effective_target
  by_cases h7 : lower (T.take 7) = lit_http
  · rw [if_pos (hcmp.2 h7), if_pos h7]
    have hlen : 7 ≤ T.length := by
      have := congrArg List.length h7
      rw [lower_length, List.length_take] at this
      have e : lit_http.length = 7 := rfl
      omega
    have hsplitT : T = T.take 7 ++ T.drop 7 := (List.take_append_drop 7 T).symm
    have hsplit := (List.takeWhile_append_dropWhile notslash (T.drop 7)).symm
    have hA : ∀ b ∈ (T.drop 7).takeWhile notslash, b ≠ 0 ∧ b ≠ SLASH := by
      intro b hb
      refine ⟨hT b (List.mem_of_mem_drop (List.takeWhile_subset notslash hb)), ?_⟩
      have := List.mem_takeWhile_imp hb
      simpa [notslash] using this
    cases hd : (T.drop 7).dropWhile notslash with
    | nil =>
      rw [hd, List.append_nil] at hsplit
      have hall : ∀ b ∈ T.drop 7, b ≠ SLASH := by
        intro b hb; rw [hsplit] at hb; exact (hA b hb).2
      have e1 : (X ++ (T ++ 0 :: y)).drop (X.length + 7) = T.drop 7 ++ 0 :: y := by
        have : X ++ (T ++ 0 :: y) = (X ++ T.take 7) ++ (T.drop 7 ++ 0 :: y) := by
          rw [List.append_assoc, ← List.append_assoc (T.take 7), List.take_append_drop]
        rw [this]
        exact drop_of_length _ _ _ (by rw [List.length_append, List.length_take]; omega)
      rw [e1, strchr_none _ (0 :: y) SLASH (by decide) hall rfl]
      rfl
    | cons s x =>
      have hs : s = SLASH := by
        have h := List.head_dropWhile_not notslash (T.drop 7) (by rw [hd]; simp)
        simp only [hd, List.head_cons] at h
        simpa [notslash] using h
      subst hs
      rw [hd] at hsplit
      have hx : ∀ b ∈ SLASH :: x, b ≠ 0 := by
        intro b hb
        apply hT b
        apply List.mem_of_mem_drop (n := 7)
        rw [hsplit]
        exact List.mem_append_right _ hb
      have e0 : X ++ (T ++ 0 :: y)
          = (X ++ (T.take 7 ++ (T.drop 7).takeWhile notslash)) ++ (SLASH :: x ++ 0 :: y) := by
        conv_lhs => rw [hsplitT, hsplit]
        simp only [List.append_assoc]
      have e1 : (X ++ (T ++ 0 :: y)).drop (X.length + 7)
          = (T.drop 7).takeWhile notslash ++ SLASH :: (x ++ 0 :: y) := by
        have : X ++ (T ++ 0 :: y)
            = (X ++ T.take 7) ++ ((T.drop 7).takeWhile notslash ++ SLASH :: (x ++ 0 :: y)) := by
          rw [e0]; simp only [List.append_assoc, List.cons_append]
        rw [this]
        exact drop_of_length _ _ _ (by rw [List.length_append, List.length_take]; omega)
      rw [e1, strchr_some _ _ SLASH hA]
      have hl : (X ++ (T.take 7 ++ (T.drop 7).takeWhile notslash)).length
          = X.length + 7 + ((T.drop 7).takeWhile notslash).length := by
        simp only [List.length_append, List.length_take]; omega
      simp only [Option.map_some']
      rw [e0, getD_of_length _ _ _ hl, drop_of_length _ _ _ hl]
      simp only [List.cons_append, List.headD_cons, ne_eq, not_true_eq_false, if_false]
      rw [← List.cons_append, cstr_append _ (0 :: y) hx rfl]
  · rw [if_neg (fun h => h7 (hcmp.1 h)), if_neg h7]
    simp only []
    rw [getD_of_length _ _ _ rfl, hdrop]
    have hh : (T ++ 0 :: y).headD 0 = T.headD 0 := by cases T <;> rfl
    rw [hh]
    by_cases hsl : T.headD 0 = SLASH
    · simp only [hsl, ne_eq, not_true_eq_false, if_false]
      rw [cstr_append _ (0 :: y) hT rfl]
    · simp only [hsl, ne_eq, not_false_eq_true, if_true]

theorem parse_requestline_stages (buffer : List Nat) (temp : Nat) (cs : CHECK_STATE) :
    parse_requestline buffer temp cs =
      match strpbrk (buffer.drop temp) ws with
      | none => ⟨BAD_REQUEST, buffer, cs, []⟩
      | some k =>
        if strcasecmp ((buffer.set (temp + k) 0).drop temp) lit_GET = 0 then
          parse_requestline_version (buffer.set (temp + k) 0)
            (temp + k + 1 + strspn ((buffer.set (temp + k) 0).drop (temp + k + 1)) ws) cs
        else ⟨BAD_REQUEST, buffer.set (temp + k) 0, cs, []⟩ := by
  rfl

theorem takeWhile_notws_spec (a : List Nat) (ha : ∀ b ∈ a, b ≠ 0) :
    ∀ b ∈ a.takeWhile notws, b ≠ 0 ∧ b ∉ ws := by
  intro b hb
  exact ⟨ha b (List.takeWhile_subset notws hb), (notws_iff b).1 (List.mem_takeWhile_imp hb)⟩

theorem takeWhile_isws_spec (a : List Nat) : ∀ b ∈ a.takeWhile isws, b ∈ ws := by
  intro b hb
  exact (isws_iff b).1 (List.mem_takeWhile_imp hb)

theorem dropWhile_notws_head (a t1 : List Nat) (c1 : Nat) (h : a.dropWhile notws = c1 :: t1) :
    c1 ∈ ws := by
  have h2 := List.head_dropWhile_not notws a (by rw [h]; simp)
  simp only [h, List.head_cons] at h2
  by_contra hc
  rw [(notws_iff c1).2 hc] at h2
  exact absurd h2 (by simp)

theorem dropWhile_isws_head (a t : List Nat) (ht : t.headD 0 = 0) :
    (a.dropWhile isws ++ t).headD 0 ∉ ws := by
  cases h : a.dropWhile isws with
  | nil => simp only [List.nil_append, ht]; exact zero_not_ws
  | cons c x =>
    have h2 := List.head_dropWhile_not isws a (by rw [h]; simp)
    simp only [h, List.head_cons] at h2
    simp only [List.cons_append, List.headD_cons]
    intro hc
    rw [(isws_iff c).2 hc] at h2
    exact absurd h2 (by simp)

/-- Lines 122-134 on a buffer that holds the target token `T` at `url`, followed
by NUL. -/
theorem parse_requestline_target_append (X T y : List Nat) (cs : CHECK_STATE)
    (hT : ∀ b ∈ T, b ≠ 0) :
    parse_requestline_target (X ++ (T ++ 0 :: y)) X.length cs
      = match effective_target T with
        | none => ⟨BAD_REQUEST, X ++ (T ++ 0 :: y), cs, [Event.method_get]⟩
        | some u => ⟨NO_REQUEST, X ++ (T ++ 0 :: y), CHECK_STATE_HEADER,
            [Event.method_get, Event.url u]⟩ := by
  have h := url_stage X T y hT
  unfold parse_requestline_target
  simp only []
  cases hu : (if strncasecmp ((X ++ (T ++ 0 :: y)).drop X.length) lit_http 7 = 0 then
              (strchr ((X ++ (T ++ 0 :: y)).drop (X.length + 7)) SLASH).map (X.length + 7 + ·)
            else some X.length) with
  | none =>
    rw [hu] at h
    simp only [] at h
    rw [← h]
  | some u =>
    rw [hu] at h
    simp only [] at h
    rw [← h]
    by_cases hs : (X ++ (T ++ 0 :: y)).getD u 0 = SLASH
    · simp only [hs, ne_eq, not_true_eq_false, if_false]
    · simp only [hs, ne_eq, not_false_eq_true, if_true]
/-- Lines 110-134 on a buffer that holds at `url` the NUL-free bytes `t2`, then
a terminator. -/
theorem parse_requestline_version_append (X t2 t : List Nat) (cs : CHECK_STATE)
    (h2 : ∀ b ∈ t2, b ≠ 0) (ht : t.headD 0 = 0) :
    parse_requestline_version (X ++ (t2 ++ t)) X.length cs
      = ⟨(version_spec t2).1, X ++ ((version_spec t2).2.1 ++ t),
          if (version_spec t2).1 = NO_REQUEST then CHECK_STATE_HEADER else cs,
          (version_spec t2).2.2⟩ := by
  have hsplit := (List.takeWhile_append_dropWhile notws t2).symm
  have hT := takeWhile_notws_spec t2 h2
  unfold parse_requestline_version version_spec
  rw [drop_of_length X (t2 ++ t) X.length rfl]
  cases hd : t2.dropWhile notws with
  | nil =>
    rw [hd, List.append_nil] at hsplit
    have hall : ∀ b ∈ t2, b ∉ ws := by
      intro b hb; rw [hsplit] at hb; exact (hT b hb).2
    rw [strpbrk_none t2 t hall ht]
    simp
  | cons c2 t3 =>
    have hc2 := dropWhile_notws_head t2 t3 c2 hd
    rw [hd] at hsplit
    simp only []
    generalize t2.takeWhile notws = T at hsplit hT
    subst hsplit
    have h3 : ∀ b ∈ t3, b ≠ 0 := fun b hb =>
      h2 b (List.mem_append_right _ (List.mem_cons_of_mem _ hb))
    have e1 : (T ++ c2 :: t3) ++ t = T ++ c2 :: (t3 ++ t) := by simp
    rw [e1, strpbrk_some T _ c2 hT hc2]
    simp only []
    have eset : (X ++ (T ++ c2 :: (t3 ++ t))).set (X.length + T.length) 0
        = X ++ (T ++ 0 :: (t3 ++ t)) := by
      rw [← List.append_assoc, ← List.append_assoc]
      exact set_of_length _ _ _ _ _ (by simp)
    rw [eset]
    have esplit : t3 ++ t = t3.takeWhile isws ++ (t3.dropWhile isws ++ t) := by
      rw [← List.append_assoc, List.takeWhile_append_dropWhile]
    have ed1 : (X ++ (T ++ 0 :: (t3 ++ t))).drop (X.length + T.length + 1) = t3 ++ t := by
      have : X ++ (T ++ 0 :: (t3 ++ t)) = (X ++ (T ++ [0])) ++ (t3 ++ t) := by simp
      rw [this]
      exact drop_of_length _ _ _ (by simp; omega)
    have esp : strspn (t3 ++ t) ws = (t3.takeWhile isws).length := by
      rw [esplit]
      exact strspn_append _ _ (takeWhile_isws_spec t3) (dropWhile_isws_head t3 t ht)
    have ed2 : (X ++ (T ++ 0 :: (t3 ++ t))).drop
        (X.length + T.length + 1 + (t3.takeWhile isws).length) = t3.dropWhile isws ++ t := by
      have : X ++ (T ++ 0 :: (t3 ++ t))
          = (X ++ (T ++ 0 :: t3.takeWhile isws)) ++ (t3.dropWhile isws ++ t) := by
        rw [esplit]
        simp only [List.append_assoc, List.cons_append]
      rw [this]
      exact drop_of_length _ _ _ (by simp; omega)
    have hV : ∀ b ∈ t3.dropWhile isws, b ≠ 0 := fun b hb =>
      h3 b ((List.dropWhile_sublist isws).subset hb)
    have hcmp := strcasecmp_append (t3.dropWhile isws) t lit_HTTP11 hV (by decide) ht
    rw [ed1, esp, ed2]
    have etgt := parse_requestline_target_append X T (t3 ++ t) cs
      (fun b hb => (hT b hb).1)
    rw [etgt]
    by_cases hv : lower (t3.dropWhile isws) = lower lit_HTTP11
    · have hz := hcmp.2 hv
      simp only [hz, hv, ne_eq, not_true_eq_false, if_false]
      cases effective_target T <;> simp
    · have hz : ¬ strcasecmp (t3.dropWhile isws ++ t) lit_HTTP11 = 0 := fun h => hv (hcmp.1 h)
      simp [hz, hv]

/-- The request-line interpreter on a buffer that holds at `temp` the NUL-free
bytes `a`, then a terminator: it computes `reqline_spec a`. -/
theorem parse_requestline_append (pre a t : List Nat) (cs : CHECK_STATE)
    (ha : ∀ b ∈ a, b ≠ 0) (ht : t.headD 0 = 0) :
    parse_requestline (pre ++ (a ++ t)) pre.length cs
      = ⟨(reqline_spec a).1, pre ++ ((reqline_spec a).2.1 ++ t),
          if (reqline_spec a).1 = NO_REQUEST then CHECK_STATE_HEADER else cs,
          (reqline_spec a).2.2⟩ := by
  have hsplit := (List.takeWhile_append_dropWhile notws a).symm
  have hM := takeWhile_notws_spec a ha
  rw [parse_requestline_stages]
  unfold reqline_spec
  rw [drop_of_length pre (a ++ t) pre.length rfl]
  cases hd : a.dropWhile notws with
  | nil =>
    rw [hd, List.append_nil] at hsplit
    have hall : ∀ b ∈ a, b ∉ ws := by
      intro b hb; rw [hsplit] at hb; exact (hM b hb).2
    rw [strpbrk_none a t hall ht]
    simp
  | cons c1 t1 =>
    have hc1 := dropWhile_notws_head a t1 c1 hd
    rw [hd] at hsplit
    simp only []
    generalize a.takeWhile notws = M at hsplit hM
    subst hsplit
    have h1 : ∀ b ∈ t1, b ≠ 0 := fun b hb =>
      ha b (List.mem_append_right _ (List.mem_cons_of_mem _ hb))
    have e1 : (M ++ c1 :: t1) ++ t = M ++ c1 :: (t1 ++ t) := by simp
    rw [e1, strpbrk_some M _ c1 hM hc1]
    simp only []
    have eset : (pre ++ (M ++ c1 :: (t1 ++ t))).set (pre.length + M.length) 0
        = pre ++ (M ++ 0 :: (t1 ++ t)) := by
      rw [← List.append_assoc, ← List.append_assoc]
      exact set_of_length _ _ _ _ _ (by simp)
    rw [eset, drop_of_length pre _ pre.length rfl]
    have hcmp := strcasecmp_append M (0 :: (t1 ++ t)) lit_GET (fun b hb => (hM b hb).1)
      (by decide) rfl
    have esplit : t1 ++ t = t1.takeWhile isws ++ (t1.dropWhile isws ++ t) := by
      rw [← List.append_assoc, List.takeWhile_append_dropWhile]
    have ed1 : (pre ++ (M ++ 0 :: (t1 ++ t))).drop (pre.length + M.length + 1) = t1 ++ t := by
      have : pre ++ (M ++ 0 :: (t1 ++ t)) = (pre ++ (M ++ [0])) ++ (t1 ++ t) := by simp
      rw [this]
      exact drop_of_length _ _ _ (by simp; omega)
    have esp : strspn (t1 ++ t) ws = (t1.takeWhile isws).length := by
      rw [esplit]
      exact strspn_append _ _ (takeWhile_isws_spec t1) (dropWhile_isws_head t1 t ht)
    rw [ed1, esp]
    by_cases hm : lower M = lower lit_GET
    · have hz := hcmp.2 hm
      simp only [hz, hm, ne_eq, not_true_eq_false, if_false, if_true]
      have hv := parse_requestline_version_append (pre ++ (M ++ 0 :: t1.takeWhile isws))
        (t1.dropWhile isws) t cs
        (fun b hb => h1 b ((List.dropWhile_sublist isws).subset hb)) ht
      have eb : pre ++ (M ++ 0 :: (t1 ++ t))
          = (pre ++ (M ++ 0 :: t1.takeWhile isws)) ++ (t1.dropWhile isws ++ t) := by
        rw [esplit]
        simp only [List.append_assoc, List.cons_append]
      have el : (pre ++ (M ++ 0 :: t1.takeWhile isws)).length
          = pre.length + M.length + 1 + (t1.takeWhile isws).length := by
        simp; omega
      rw [eb, ← el, hv]
      simp
    · have hz : ¬ strcasecmp (M ++ 0 :: (t1 ++ t)) lit_GET = 0 := fun h => hm (hcmp.1 h)
      simp [hz, hm]

/-! ## Every outcome of `parse_line` -/

/-- The six ways in which a call of `parse_line` with `c ≤ r` ends, `i` being the
index at which the scan stops. -/
theorem parse_line_spec (b : List Nat) (c r : Nat) (h : c ≤ r) :
    ∃ i, c ≤ i ∧ i ≤ r ∧ NoCRLF b c i ∧
      ((i = r ∧ parse_line b c r = (LINE_OPEN, b, r))
      ∨ (i + 1 = r ∧ b.getD i 0 = CR ∧ parse_line b c r = (LINE_OPEN, b, i))
      ∨ (i + 1 < r ∧ b.getD i 0 = CR ∧ b.getD (i + 1) 0 = LF
          ∧ parse_line b c r = (LINE_OK, (b.set i 0).set (i + 1) 0, i + 2))
      ∨ (i + 1 < r ∧ b.getD i 0 = CR ∧ b.getD (i + 1) 0 ≠ LF
          ∧ parse_line b c r = (LINE_BAD, b, i))
      ∨ (i < r ∧ b.getD i 0 = LF ∧ (i > 1 ∧ b.getD (i - 1) 0 = CR)
          ∧ parse_line b c r = (LINE_OK, (b.set (i - 1) 0).set i 0, i + 1))
      ∨ (i < r ∧ b.getD i 0 = LF ∧ ¬ (i > 1 ∧ b.getD (i - 1) 0 = CR)
          ∧ parse_line b c r = (LINE_BAD, b, i))) := by
  obtain ⟨n, hn⟩ : ∃ n, r - c = n := ⟨_, rfl⟩
  induction n generalizing c with
  | zero =>
    have e : c = r := by omega
    subst e
    exact ⟨c, Nat.le_refl _, Nat.le_refl _, fun j hj hcj => absurd hj (by omega),
      Or.inl ⟨rfl, parse_line_end b c c (Nat.le_refl _)⟩⟩
  | succ n ih =>
    have hlt : c < r := by omega
    have hat := parse_line_at b c r hlt
    have hno : NoCRLF b c c := fun j hj hcj => absurd hj (by omega)
    by_cases hcr : b.getD c 0 = CR
    · rw [if_pos hcr] at hat
      by_cases h1 : r = c + 1
      · rw [if_pos h1] at hat
        exact ⟨c, Nat.le_refl _, h, hno, Or.inr (Or.inl ⟨h1.symm, hcr, hat⟩)⟩
      · rw [if_neg h1] at hat
        by_cases h2 : b.getD (c + 1) 0 = LF
        · rw [if_pos h2] at hat
          exact ⟨c, Nat.le_refl _, h, hno, Or.inr (Or.inr (Or.inl ⟨by omega, hcr, h2, hat⟩))⟩
        · rw [if_neg h2] at hat
          exact ⟨c, Nat.le_refl _, h, hno,
            Or.inr (Or.inr (Or.inr (Or.inl ⟨by omega, hcr, h2, hat⟩)))⟩
    · rw [if_neg hcr] at hat
      by_cases hlf : b.getD c 0 = LF
      · rw [if_pos hlf] at hat
        by_cases h3 : c > 1 ∧ b.getD (c - 1) 0 = CR
        · rw [if_pos h3] at hat
          exact ⟨c, Nat.le_refl _, h, hno,
            Or.inr (Or.inr (Or.inr (Or.inr (Or.inl ⟨hlt, hlf, h3, hat⟩))))⟩
        · rw [if_neg h3] at hat
          exact ⟨c, Nat.le_refl _, h, hno,
            Or.inr (Or.inr (Or.inr (Or.inr (Or.inr ⟨hlt, hlf, h3, hat⟩))))⟩
      · rw [if_neg hlf] at hat
        obtain ⟨i, hci, hir, hnoi, hcases⟩ := ih (c + 1) (by omega) (by omega)
        have hno2 : NoCRLF b c i := by
          intro j hj hcj
          by_cases e : j = c
          · subst e; exact ⟨hcr, hlf⟩
          · exact hnoi j hj (by omega)
        refine ⟨i, by omega, hir, hno2, ?_⟩
        rw [hat]
        exact hcases

/-- A call that returns `LINE_OK` moves `checked_index` forward, within the
received bytes, and leaves a buffer of the same length. -/
theorem parse_line_ok_bounds (b b2 : List Nat) (c r c2 : Nat)
    (hok : parse_line b c r = (LINE_OK, b2, c2)) :
    c < c2 ∧ c2 ≤ r ∧ b2.length = b.length := by
  by_cases h : c ≤ r
  · obtain ⟨i, hci, hir, _, hcases⟩ := parse_line_spec b c r h
    rcases hcases with ⟨_, e⟩ | ⟨_, _, e⟩ | ⟨h1, _, _, e⟩ | ⟨_, _, _, e⟩ | ⟨h1, _, _, e⟩
      | ⟨_, _, _, e⟩ <;> rw [e] at hok <;> simp only [Prod.mk.injEq] at hok
    · exact absurd hok.1 (by decide)
    · exact absurd hok.1 (by decide)
    · obtain ⟨_, hb, hc⟩ := hok
      subst hb; subst hc
      exact ⟨by omega, by omega, by simp⟩
    · exact absurd hok.1 (by decide)
    · obtain ⟨_, hb, hc⟩ := hok
      subst hb; subst hc
      exact ⟨by omega, by omega, by simp⟩
    · exact absurd hok.1 (by decide)
  · rw [parse_line_end b c r (by omega)] at hok
    simp only [Prod.mk.injEq] at hok
    exact absurd hok.1 (by decide)

/-! ## The loop of `parse_content` does not run out of iterations -/

theorem parse_content_loop_succ (fuel : Nat) (s : Session) :
    parse_content_loop (fuel + 1) s = content_body (parse_content_loop fuel) s := by
  rfl

theorem content_body_ok (k : Session → HTTP_CODE × Session) (s : Session) (b : List Nat)
    (c : Nat) (h : parse_line s.buffer s.checked_index s.read_index = (LINE_OK, b, c)) :
    content_body k s = dispatch k s b c := by
  unfold content_body; rw [h]

theorem content_body_open (k : Session → HTTP_CODE × Session) (s : Session) (b : List Nat)
    (c : Nat) (h : parse_line s.buffer s.checked_index s.read_index = (LINE_OPEN, b, c)) :
    content_body k s = (NO_REQUEST, { s with buffer := b, checked_index := c }) := by
  unfold content_body; rw [h]

theorem content_body_bad (k : Session → HTTP_CODE × Session) (s : Session) (b : List Nat)
    (c : Nat) (h : parse_line s.buffer s.checked_index s.read_index = (LINE_BAD, b, c)) :
    content_body k s = (BAD_REQUEST, { s with buffer := b, checked_index := c }) := by
  unfold content_body; rw [h]

/-- The continuation of `dispatch` is applied, if at all, to a session whose
`read_index` is that of `s` and whose `checked_index` is `c`. -/
theorem dispatch_congr (k1 k2 : Session → HTTP_CODE × Session) (s : Session) (b : List Nat)
    (c : Nat)
    (h : ∀ s2 : Session, s2.read_index = s.read_index → s2.checked_index = c → k1 s2 = k2 s2) :
    dispatch k1 s b c = dispatch k2 s b c := by
  unfold dispatch
  simp only []
  cases s.checkstate <;> simp only [] <;> split_ifs <;> first | rfl | exact h _ rfl rfl

/-- Two bounds of at least `read_index - checked_index + 1` iterations give the
same result: the loop ends before either is reached. -/
theorem parse_content_loop_stable (f1 : Nat) :
    ∀ (f2 : Nat) (s : Session), s.read_index - s.checked_index + 1 ≤ f1 →
      s.read_index - s.checked_index + 1 ≤ f2 →
      parse_content_loop f1 s = parse_content_loop f2 s := by
  induction f1 with
  | zero => intro f2 s h; omega
  | succ f ih =>
    intro f2 s h1 h2
    obtain ⟨g, rfl⟩ : ∃ g, f2 = g + 1 := ⟨f2 - 1, by omega⟩
    rw [parse_content_loop_succ, parse_content_loop_succ]
    rcases hpl : parse_line s.buffer s.checked_index s.read_index with ⟨st, b, c⟩
    cases st
    · have hb := parse_line_ok_bounds _ _ _ _ _ hpl
      rw [content_body_ok _ _ _ _ hpl, content_body_ok _ _ _ _ hpl]
      apply dispatch_congr
      intro s2 e1 e2
      exact ih g s2 (by rw [e1, e2]; omega) (by rw [e1, e2]; omega)
    · rw [content_body_bad _ _ _ _ hpl, content_body_bad _ _ _ _ hpl]
    · rw [content_body_open _ _ _ _ hpl, content_body_open _ _ _ _ hpl]

/-- The function `parse_content` is the loop body followed by `parse_content`. -/
theorem parse_content_unfold (s : Session) :
    parse_content s = content_body parse_content s := by
  unfold parse_content
  rw [parse_content_loop_succ]
  rcases hpl : parse_line s.buffer s.checked_index s.read_index with ⟨st, b, c⟩
  cases st
  · have hb := parse_line_ok_bounds _ _ _ _ _ hpl
    rw [content_body_ok _ _ _ _ hpl, content_body_ok _ _ _ _ hpl]
    apply dispatch_congr
    intro s2 e1 e2
    exact parse_content_loop_stable _ _ s2 (by rw [e1, e2]; omega) (Nat.le_refl _)
  · rw [content_body_bad _ _ _ _ hpl, content_body_bad _ _ _ _ hpl]
  · rw [content_body_open _ _ _ _ hpl, content_body_open _ _ _ _ hpl]

/-! ## Receiving into a buffer -/

theorem store_cons (x : Nat) (q : List Nat) (k : Nat) (d : List Nat) :
    store (x :: q) (k + 1) d = x :: store q k d := by
  induction d generalizing q k with
  | nil => rfl
  | cons y d ih =>
    simp only [store, List.set_cons_succ]
    rw [ih]

theorem store_append_add (p q : List Nat) (k : Nat) (d : List Nat) :
    store (p ++ q) (p.length + k) d = p ++ store q k d := by
  induction p with
  | nil => simp
  | cons x p ih =>
    have e : (x :: p).length + k = (p.length + k) + 1 := by simp; omega
    rw [List.cons_append, e, store_cons, ih, List.cons_append]

theorem store_length (b : List Nat) (i : Nat) (d : List Nat) :
    (store b i d).length = b.length := by
  induction d generalizing b i with
  | nil => rfl
  | cons y d ih => simp only [store]; rw [ih]; simp

theorem store_replicate (d : List Nat) (n : Nat) (h : d.length ≤ n) :
    store (List.replicate n 0) 0 d = d ++ List.replicate (n - d.length) 0 := by
  induction d generalizing n with
  | nil => simp [store]
  | cons y d ih =>
    obtain ⟨m, rfl⟩ : ∃ m, n = m + 1 := ⟨n - 1, by simp at h; omega⟩
    simp only [store, List.replicate_succ, List.set_cons_zero, List.length_cons]
    rw [store_cons, ih m (by simpa using h)]
    simp

theorem store_append (b : List Nat) (i : Nat) (d e : List Nat) :
    store b i (d ++ e) = store (store b i d) (i + d.length) e := by
  induction d generalizing b i with
  | nil => simp [store]
  | cons y d ih =>
    rw [List.cons_append]
    simp only [store, List.length_cons]
    rw [ih]
    congr 1
    omega

theorem feed_fresh (cap : Nat) (d : List Nat) (h : d.length ≤ cap) :
    feed (fresh_session cap) d
      = ⟨d ++ List.replicate (cap - d.length) 0, 0, d.length, 0, CHECK_STATE_REQUESTLINE, []⟩ := by
  simp only [feed, fresh_session, store_replicate d cap h, Nat.zero_add]

/-! ## C strings that hold NUL bytes further on -/

theorem cstr_append_nul (l x : List Nat) : cstr (l ++ 0 :: x) = cstr l := by
  induction l with
  | nil => simp [cstr]
  | cons b l ih =>
    rw [List.cons_append]
    by_cases hb : b = 0
    · simp [cstr, hb]
    · simp only [cstr, hb, if_false]
      rw [ih]

theorem cstr_of_ne_zero (l : List Nat) (h : ∀ b ∈ l, b ≠ 0) : cstr l = l := by
  have := cstr_append l [] h rfl
  simpa using this

theorem cstr_append_of_ne_zero (a l : List Nat) (h : ∀ b ∈ a, b ≠ 0) :
    cstr (a ++ l) = a ++ cstr l := by
  induction a with
  | nil => rfl
  | cons b a ih =>
    have hb : b ≠ 0 := h b (List.mem_cons_self _ _)
    rw [List.cons_append]
    simp only [cstr, hb, if_false]
    rw [ih (fun c hc => h c (List.mem_cons_of_mem _ hc))]
    rfl

theorem cstr_append_of_mem (a l : List Nat) (h : 0 ∈ a) : cstr (a ++ l) = cstr a := by
  induction a with
  | nil => simp at h
  | cons b a ih =>
    rw [List.cons_append]
    by_cases hb : b = 0
    · simp [cstr, hb]
    · simp only [cstr, hb, if_false]
      rw [ih (by
        rcases List.mem_cons.1 h with e | e
        · exact absurd e.symm hb
        · exact e)]

theorem cstr_subset (l : List Nat) : ∀ b ∈ cstr l, b ∈ l := by
  induction l with
  | nil => simp [cstr]
  | cons c x ih =>
    by_cases hc : c = 0
    · simp [cstr, hc]
    · simp only [cstr, hc, if_false, List.mem_cons]
      rintro b (rfl | hb)
      · exact Or.inl rfl
      · exact Or.inr (ih b hb)

/-- The request-line interpreter on any buffer: it computes `reqline_spec` of
the C string at `temp`. -/
theorem parse_requestline_mem (pre mem : List Nat) (cs : CHECK_STATE) :
    parse_requestline (pre ++ mem) pre.length cs
      = ⟨(reqline_spec (cstr mem)).1,
          pre ++ ((reqline_spec (cstr mem)).2.1 ++ mem.drop (cstr mem).length),
          if (reqline_spec (cstr mem)).1 = NO_REQUEST then CHECK_STATE_HEADER else cs,
          (reqline_spec (cstr mem)).2.2⟩ := by
  have h := cstr_split mem
  have := parse_requestline_append pre (cstr mem) (mem.drop (cstr mem).length) cs
    (cstr_ne_zero mem) h.2
  rw [← h.1] at this
  exact this

/-! ## `reqline_spec` on lines of a given shape -/

theorem takeWhile_append_cons (p : Nat → Bool) (a x : List Nat) (c : Nat)
    (ha : ∀ b ∈ a, p b = true) (hc : p c = false) :
    (a ++ c :: x).takeWhile p = a ∧ (a ++ c :: x).dropWhile p = c :: x := by
  induction a with
  | nil => simp [List.takeWhile, List.dropWhile, hc]
  | cons b a ih =>
    have hb := ha b (List.mem_cons_self _ _)
    have := ih (fun c hc => ha c (List.mem_cons_of_mem _ hc))
    rw [List.cons_append]
    simp only [List.takeWhile, List.dropWhile, hb]
    exact ⟨by rw [this.1], this.2⟩

theorem takeWhile_all (p : Nat → Bool) (a : List Nat) (ha : ∀ b ∈ a, p b = true) :
    a.takeWhile p = a ∧ a.dropWhile p = [] := by
  induction a with
  | nil => simp
  | cons b a ih =>
    have hb := ha b (List.mem_cons_self _ _)
    have := ih (fun c hc => ha c (List.mem_cons_of_mem _ hc))
    simp only [List.takeWhile, List.dropWhile, hb]
    exact ⟨by rw [this.1], this.2⟩

theorem takeWhile_append_all (p : Nat → Bool) (a l : List Nat) (ha : ∀ b ∈ a, p b = true) :
    (a ++ l).takeWhile p = a ++ l.takeWhile p ∧ (a ++ l).dropWhile p = l.dropWhile p := by
  induction a with
  | nil => simp
  | cons b a ih =>
    have hb := ha b (List.mem_cons_self _ _)
    have := ih (fun c hc => ha c (List.mem_cons_of_mem _ hc))
    rw [List.cons_append]
    simp only [List.takeWhile, List.dropWhile, hb]
    exact ⟨by rw [this.1]; rfl, this.2⟩

theorem notws_of_not_mem (a : List Nat) (h : ∀ b ∈ a, b ∉ ws) : ∀ b ∈ a, notws b = true :=
  fun b hb => (notws_iff b).2 (h b hb)

theorem isws_of_mem (a : List Nat) (h : ∀ b ∈ a, b ∈ ws) : ∀ b ∈ a, isws b = true :=
  fun b hb => (isws_iff b).2 (h b hb)

theorem notws_false (c : Nat) (hc : c ∈ ws) : notws c = false := by
  simp [notws, isws, hc]

theorem isws_false (c : Nat) (hc : c ∉ ws) : isws c = false := by
  simp [isws, hc]

theorem reqline_spec_no_ws (a : List Nat) (h : ∀ b ∈ a, b ∉ ws) :
    reqline_spec a = (BAD_REQUEST, a, []) := by
  unfold reqline_spec
  rw [(takeWhile_all notws a (notws_of_not_mem a h)).2]

theorem reqline_spec_method (M rest : List Nat) (c : Nat) (hM : ∀ b ∈ M, b ∉ ws)
    (hc : c ∈ ws) :
    reqline_spec (M ++ c :: rest) =
      if lower M ≠ lower lit_GET then (BAD_REQUEST, M ++ 0 :: rest, [])
      else ((version_spec (rest.dropWhile isws)).1,
        M ++ 0 :: (rest.takeWhile isws ++ (version_spec (rest.dropWhile isws)).2.1),
        (version_spec (rest.dropWhile isws)).2.2) := by
  have h := takeWhile_append_cons notws M rest c (notws_of_not_mem M hM) (notws_false c hc)
  unfold reqline_spec
  rw [h.1, h.2]

theorem version_spec_no_ws (t2 : List Nat) (h : ∀ b ∈ t2, b ∉ ws) :
    version_spec t2 = (BAD_REQUEST, t2, [Event.method_get]) := by
  unfold version_spec
  rw [(takeWhile_all notws t2 (notws_of_not_mem t2 h)).2]

theorem version_spec_shape (T t3 : List Nat) (c : Nat) (hT : ∀ b ∈ T, b ∉ ws) (hc : c ∈ ws) :
    version_spec (T ++ c :: t3) =
      if lower (t3.dropWhile isws) ≠ lower lit_HTTP11 then
        (BAD_REQUEST, T ++ 0 :: t3, [Event.method_get])
      else
        match effective_target T with
        | none => (BAD_REQUEST, T ++ 0 :: t3, [Event.method_get])
        | some u => (NO_REQUEST, T ++ 0 :: t3, [Event.method_get, Event.url u]) := by
  have h := takeWhile_append_cons notws T t3 c (notws_of_not_mem T hT) (notws_false c hc)
  unfold version_spec
  rw [h.1, h.2]

theorem version_spec_out (t : List Nat) : Event.method_get ∈ (version_spec t).2.2 := by
  unfold version_spec
  cases t.dropWhile notws with
  | nil => simp
  | cons c t3 =>
    simp only []
    split_ifs
    · simp
    · cases effective_target (t.takeWhile notws) <;> simp

/-- Skipping the white space in front of bytes that do not begin with white space. -/
theorem dropWhile_isws_append (w y : List Nat) (hw : ∀ b ∈ w, b ∈ ws) (hy : y.headD 0 ∉ ws) :
    (w ++ y).takeWhile isws = w ∧ (w ++ y).dropWhile isws = y := by
  cases y with
  | nil =>
    rw [List.append_nil]
    exact takeWhile_all isws w (isws_of_mem w hw)
  | cons c x =>
    exact takeWhile_append_cons isws w x c (isws_of_mem w hw) (isws_false c (by simpa using hy))

theorem headD_not_ws_of_forall (y : List Nat) (h : ∀ b ∈ y, b ∉ ws) : y.headD 0 ∉ ws := by
  cases y with
  | nil => exact zero_not_ws
  | cons c x => exact h c (List.mem_cons_self _ _)

/-! ## Byte strings equal to a literal up to case -/

theorem lower_mem (M L : List Nat) (h : lower M = lower L) : ∀ b ∈ M, tolower b ∈ lower L := by
  intro b hb
  rw [← h]
  exact List.mem_map_of_mem _ hb

theorem tolower_ws (b : Nat) (hb : b ∈ ws) : tolower b = b := by
  have : b = 32 ∨ b = 9 := by simpa [ws] using hb
  rcases this with rfl | rfl <;> rfl

theorem lower_GET_spec (M : List Nat) (h : lower M = lower lit_GET) :
    ∀ b ∈ M, b ≠ 0 ∧ b ∉ ws ∧ b ≠ CR ∧ b ≠ LF := by
  intro b hb
  have hm := lower_mem M lit_GET h b hb
  refine ⟨?_, ?_, ?_, ?_⟩
  · rintro rfl; revert hm; decide
  · intro hw
    rw [tolower_ws b hw] at hm
    have : b = 32 ∨ b = 9 := by simpa [ws] using hw
    rcases this with rfl | rfl <;> revert hm <;> decide
  · rintro rfl; revert hm; decide
  · rintro rfl; revert hm; decide

theorem lower_HTTP11_spec (V : List Nat) (h : lower V = lower lit_HTTP11) :
    V ≠ [] ∧ ∀ b ∈ V, b ≠ 0 ∧ b ∉ ws ∧ b ≠ CR ∧ b ≠ LF := by
  refine ⟨?_, ?_⟩
  · rintro rfl; revert h; decide
  · intro b hb
    have hm := lower_mem V lit_HTTP11 h b hb
    refine ⟨?_, ?_, ?_, ?_⟩
    · rintro rfl; revert hm; decide
    · intro hw
      rw [tolower_ws b hw] at hm
      have : b = 32 ∨ b = 9 := by simpa [ws] using hw
      rcases this with rfl | rfl <;> revert hm <;> decide
    · rintro rfl; revert hm; decide
    · rintro rfl; revert hm; decide

theorem lower_http_spec (P : List Nat) (h : lower P = lit_http) :
    P.length = 7 ∧ ∀ b ∈ P, b ≠ 0 ∧ b ∉ ws ∧ b ≠ CR ∧ b ≠ LF := by
  rw [← lower_lit_http] at h
  refine ⟨?_, ?_⟩
  · have := congrArg List.length h
    simpa [lower, lit_http] using this
  · intro b hb
    have hm := lower_mem P lit_http h b hb
    refine ⟨?_, ?_, ?_, ?_⟩
    · rintro rfl; revert hm; decide
    · intro hw
      rw [tolower_ws b hw] at hm
      have : b = 32 ∨ b = 9 := by simpa [ws] using hw
      rcases this with rfl | rfl <;> revert hm <;> decide
    · rintro rfl; revert hm; decide
    · rintro rfl; revert hm; decide

/-! ## The first line of a fresh session -/

theorem dispatch_requestline (k : Session → HTTP_CODE × Session) (s : Session) (b : List Nat)
    (c : Nat) (h : s.checkstate = CHECK_STATE_REQUESTLINE) :
    dispatch k s b c =
      if (parse_requestline b s.start_line CHECK_STATE_REQUESTLINE).code = BAD_REQUEST then
        (BAD_REQUEST, ⟨(parse_requestline b s.start_line CHECK_STATE_REQUESTLINE).buffer, c,
          s.read_index, c, (parse_requestline b s.start_line CHECK_STATE_REQUESTLINE).checkstate,
          s.out ++ (parse_requestline b s.start_line CHECK_STATE_REQUESTLINE).out⟩)
      else
        k ⟨(parse_requestline b s.start_line CHECK_STATE_REQUESTLINE).buffer, c,
          s.read_index, c, (parse_requestline b s.start_line CHECK_STATE_REQUESTLINE).checkstate,
          s.out ++ (parse_requestline b s.start_line CHECK_STATE_REQUESTLINE).out⟩ := by
  unfold dispatch
  simp only [h]

theorem dispatch_header (k : Session → HTTP_CODE × Session) (s : Session) (b : List Nat)
    (c : Nat) (h : s.checkstate = CHECK_STATE_HEADER) :
    dispatch k s b c =
      if (parse_headers b s.start_line).1 = GET_REQUEST then
        (GET_REQUEST, ⟨b, c, s.read_index, c, CHECK_STATE_HEADER,
          s.out ++ (parse_headers b s.start_line).2⟩)
      else
        k ⟨b, c, s.read_index, c, CHECK_STATE_HEADER,
          s.out ++ (parse_headers b s.start_line).2⟩ := by
  unfold dispatch
  simp only [h, parse_headers_ne_bad, if_false]

/-- The first iteration of `parse_content` on a fresh session that has received
`line`, CR, LF and possibly more, `line` holding no CR and no LF. -/
theorem parse_content_first_line (cap : Nat) (line more : List Nat)
    (hl : ∀ b ∈ line, b ≠ CR ∧ b ≠ LF)
    (hlen : (line ++ CR :: LF :: more).length ≤ cap) :
    parse_content (feed (fresh_session cap) (line ++ CR :: LF :: more)) =
      if (reqline_spec (cstr line)).1 = BAD_REQUEST then
        (BAD_REQUEST, ⟨(reqline_spec (cstr line)).2.1
            ++ (line ++ 0 :: 0 :: (more
              ++ List.replicate (cap - (line ++ CR :: LF :: more).length) 0)).drop
                (cstr line).length,
          line.length + 2, (line ++ CR :: LF :: more).length, line.length + 2,
          if (reqline_spec (cstr line)).1 = NO_REQUEST then CHECK_STATE_HEADER
            else CHECK_STATE_REQUESTLINE,
          (reqline_spec (cstr line)).2.2⟩)
      else
        parse_content ⟨(reqline_spec (cstr line)).2.1
            ++ (line ++ 0 :: 0 :: (more
              ++ List.replicate (cap - (line ++ CR :: LF :: more).length) 0)).drop
                (cstr line).length,
          line.length + 2, (line ++ CR :: LF :: more).length, line.length + 2,
          if (reqline_spec (cstr line)).1 = NO_REQUEST then CHECK_STATE_HEADER
            else CHECK_STATE_REQUESTLINE,
          (reqline_spec (cstr line)).2.2⟩ := by
  rw [feed_fresh cap _ hlen, parse_content_unfold]
  generalize List.replicate (cap - (line ++ CR :: LF :: more).length) 0 = zeros
  have hb : (line ++ CR :: LF :: more) ++ zeros = line ++ CR :: LF :: (more ++ zeros) := by simp
  have hno : NoCRLF (line ++ CR :: LF :: (more ++ zeros)) 0 line.length := by
    have := noCRLF_of_forall [] line (CR :: LF :: (more ++ zeros)) 0 (Nat.le_refl _) hl
    simpa using this
  have hpl := parse_line_crlf line (more ++ zeros) 0 (line ++ CR :: LF :: more).length
    (Nat.zero_le _) (by simp) hno
  rw [content_body_ok parse_content _ (line ++ 0 :: 0 :: (more ++ zeros)) (line.length + 2)
    (by simp only [hb]; exact hpl)]
  rw [dispatch_requestline _ _ _ _ rfl]
  have hreq := parse_requestline_mem [] (line ++ 0 :: 0 :: (more ++ zeros))
    CHECK_STATE_REQUESTLINE
  simp only [List.nil_append, List.length_nil, cstr_append_nul] at hreq
  simp only [hreq, List.nil_append]

theorem parse_content_first_line_bad (cap : Nat) (line more : List Nat)
    (hl : ∀ b ∈ line, b ≠ CR ∧ b ≠ LF)
    (hlen : (line ++ CR :: LF :: more).length ≤ cap)
    (hbad : (reqline_spec (cstr line)).1 = BAD_REQUEST) :
    (parse_content (feed (fresh_session cap) (line ++ CR :: LF :: more))).1 = BAD_REQUEST := by
  rw [parse_content_first_line cap line more hl hlen, if_pos hbad]

theorem parse_requestline_line (pre line x : List Nat) (cs : CHECK_STATE) :
    parse_requestline (pre ++ (line ++ 0 :: x)) pre.length cs
      = ⟨(reqline_spec (cstr line)).1,
          pre ++ ((reqline_spec (cstr line)).2.1 ++ (line ++ 0 :: x).drop (cstr line).length),
          if (reqline_spec (cstr line)).1 = NO_REQUEST then CHECK_STATE_HEADER else cs,
          (reqline_spec (cstr line)).2.2⟩ := by
  have := parse_requestline_mem pre (line ++ 0 :: x) cs
  rw [cstr_append_nul] at this
  exact this

/-! ## The effective target -/

theorem effective_target_slash (T : List Nat) : effective_target (SLASH :: T) = some (SLASH :: T) := by
  unfold effective_target
  have h : lower ((SLASH :: T).take 7) ≠ lit_http := by
    simp only [List.take_succ_cons, lower, List.map_cons, lit_http]
    intro e
    have := (List.cons.inj e).1
    revert this
    decide
  rw [if_neg h]
  simp

theorem effective_target_abs (P A S : List Nat) (hP : lower P = lit_http)
    (hA : ∀ b ∈ A, b ≠ SLASH) :
    effective_target (P ++ (A ++ SLASH :: S)) = some (SLASH :: S) := by
  have hlen := (lower_http_spec P hP).1
  unfold effective_target
  have e1 : (P ++ (A ++ SLASH :: S)).take 7 = P := by
    rw [← hlen]; exact List.take_left _ _
  have e2 : (P ++ (A ++ SLASH :: S)).drop 7 = A ++ SLASH :: S := by
    rw [← hlen]; exact List.drop_left _ _
  rw [e1, e2, if_pos hP]
  have h := takeWhile_append_cons notslash A S SLASH
    (fun b hb => by simpa [notslash] using hA b hb) (by simp [notslash])
  rw [h.2]

theorem effective_target_none_a (T : List Nat) (h1 : lower (T.take 7) = lit_http)
    (h2 : ∀ b ∈ T.drop 7, b ≠ SLASH) : effective_target T = none := by
  unfold effective_target
  rw [if_pos h1, (takeWhile_all notslash _ (fun b hb => by simpa [notslash] using h2 b hb)).2]

theorem effective_target_none_b (T : List Nat) (h1 : lower (T.take 7) ≠ lit_http)
    (h2 : T.head? ≠ some SLASH) : effective_target T = none := by
  unfold effective_target
  rw [if_neg h1]
  have : T.headD 0 ≠ SLASH := by
    cases T with
    | nil => decide
    | cons c x => simpa using h2
  rw [if_pos this]

/-! ## Request lines made of a method, a target and a version -/

/-- A line made of a case variant of `GET`, white space, a non-empty token `T`,
white space, and a case variant of `HTTP/1.1`: the outcome is decided by the
effective target of `T`. -/
theorem reqline_spec_accept (M W1 T W2 V : List Nat) (c1 c2 : Nat)
    (hM : lower M = lower lit_GET) (hc1 : c1 ∈ ws) (hW1 : ∀ b ∈ W1, b ∈ ws)
    (hT0 : T ≠ []) (hT : ∀ b ∈ T, b ∉ ws) (hc2 : c2 ∈ ws) (hW2 : ∀ b ∈ W2, b ∈ ws)
    (hV : lower V = lower lit_HTTP11) :
    reqline_spec (M ++ c1 :: (W1 ++ (T ++ c2 :: (W2 ++ V)))) =
      match effective_target T with
      | none => (BAD_REQUEST, M ++ 0 :: (W1 ++ (T ++ 0 :: (W2 ++ V))), [Event.method_get])
      | some u => (NO_REQUEST, M ++ 0 :: (W1 ++ (T ++ 0 :: (W2 ++ V))),
          [Event.method_get, Event.url u]) := by
  have hMw : ∀ b ∈ M, b ∉ ws := fun b hb => (lower_GET_spec M hM b hb).2.1
  have hVw : ∀ b ∈ V, b ∉ ws := fun b hb => ((lower_HTTP11_spec V hV).2 b hb).2.1
  rw [reqline_spec_method M _ c1 hMw hc1, if_neg (fun h => h hM)]
  have hhead : (T ++ c2 :: (W2 ++ V)).headD 0 ∉ ws := by
    cases T with
    | nil => exact absurd rfl hT0
    | cons t T' => exact hT t (List.mem_cons_self _ _)
  have h1 := dropWhile_isws_append W1 (T ++ c2 :: (W2 ++ V)) hW1 hhead
  have h2 := dropWhile_isws_append W2 V hW2 (headD_not_ws_of_forall V hVw)
  rw [h1.1, h1.2, version_spec_shape T _ c2 hT hc2, h2.2, if_neg (fun h => h hV)]
  cases effective_target T <;> rfl

/-- A line whose version, after the white space that follows a non-empty target
token, is not a case variant of `HTTP/1.1`. -/
theorem reqline_spec_bad_version (M W1 T W2 R : List Nat) (c1 c2 : Nat)
    (hM : ∀ b ∈ M, b ∉ ws) (hc1 : c1 ∈ ws) (hW1 : ∀ b ∈ W1, b ∈ ws)
    (hT0 : T ≠ []) (hT : ∀ b ∈ T, b ∉ ws) (hc2 : c2 ∈ ws) (hW2 : ∀ b ∈ W2, b ∈ ws)
    (hR : ∀ b ∈ R, b ≠ 0) (hne : lower (R.dropWhile isws) ≠ lower lit_HTTP11) :
    (reqline_spec (cstr (M ++ c1 :: (W1 ++ (T ++ c2 :: (W2 ++ R)))))).1 = BAD_REQUEST := by
  have hwz : ∀ b, b ∈ ws → b ≠ 0 := fun b hb e => zero_not_ws (e ▸ hb)
  by_cases h0 : 0 ∈ M
  · rw [cstr_append_of_mem M _ h0,
      reqline_spec_no_ws _ (fun b hb => hM b (cstr_subset M b hb))]
  · have hMz : ∀ b ∈ M, b ≠ 0 := fun b hb e => h0 (e ▸ hb)
    rw [cstr_append_of_ne_zero M _ hMz]
    simp only [cstr, hwz c1 hc1, if_false]
    rw [cstr_append_of_ne_zero W1 _ (fun b hb => hwz b (hW1 b hb)),
      reqline_spec_method M _ c1 hM hc1]
    by_cases hm : lower M = lower lit_GET
    · rw [if_neg (fun h => h hm)]
      simp only []
      by_cases hT1 : 0 ∈ T
      · rw [cstr_append_of_mem T _ hT1]
        have hcw : ∀ b ∈ cstr T, b ∉ ws := fun b hb => hT b (cstr_subset T b hb)
        rw [(dropWhile_isws_append W1 (cstr T) hW1 (headD_not_ws_of_forall _ hcw)).2,
          version_spec_no_ws _ hcw]
      · have hTz : ∀ b ∈ T, b ≠ 0 := fun b hb e => hT1 (e ▸ hb)
        rw [cstr_append_of_ne_zero T _ hTz]
        simp only [cstr, hwz c2 hc2, if_false]
        rw [cstr_append_of_ne_zero W2 _ (fun b hb => hwz b (hW2 b hb)), cstr_of_ne_zero R hR]
        have hhead : (T ++ c2 :: (W2 ++ R)).headD 0 ∉ ws := by
          cases T with
          | nil => exact absurd rfl hT0
          | cons t T' => exact hT t (List.mem_cons_self _ _)
        rw [(dropWhile_isws_append W1 _ hW1 hhead).2, version_spec_shape T _ c2 hT hc2,
          (takeWhile_append_all isws W2 R (isws_of_mem W2 hW2)).2, if_pos hne]
    · rw [if_pos hm]

/-- A line with method `GET` and version `HTTP/1.1` whose target token has no
effective target. -/
theorem reqline_spec_bad_target (M W1 T W2 V : List Nat) (c1 c2 : Nat)
    (hM : lower M = lower lit_GET) (hc1 : c1 ∈ ws) (hW1 : ∀ b ∈ W1, b ∈ ws)
    (hT : ∀ b ∈ T, b ∉ ws) (hc2 : c2 ∈ ws) (hW2 : ∀ b ∈ W2, b ∈ ws)
    (hV : lower V = lower lit_HTTP11) (hnone : effective_target T = none) :
    (reqline_spec (cstr (M ++ c1 :: (W1 ++ (T ++ c2 :: (W2 ++ V)))))).1 = BAD_REQUEST := by
  have hwz : ∀ b, b ∈ ws → b ≠ 0 := fun b hb e => zero_not_ws (e ▸ hb)
  have hMs := lower_GET_spec M hM
  have hVs := (lower_HTTP11_spec V hV).2
  have hMw : ∀ b ∈ M, b ∉ ws := fun b hb => (hMs b hb).2.1
  rw [cstr_append_of_ne_zero M _ (fun b hb => (hMs b hb).1)]
  simp only [cstr, hwz c1 hc1, if_false]
  rw [cstr_append_of_ne_zero W1 _ (fun b hb => hwz b (hW1 b hb))]
  by_cases hT1 : 0 ∈ T
  · rw [cstr_append_of_mem T _ hT1, reqline_spec_method M _ c1 hMw hc1,
      if_neg (fun h => h hM)]
    have hcw : ∀ b ∈ cstr T, b ∉ ws := fun b hb => hT b (cstr_subset T b hb)
    simp only []
    rw [(dropWhile_isws_append W1 (cstr T) hW1 (headD_not_ws_of_forall _ hcw)).2,
      version_spec_no_ws _ hcw]
  · have hTz : ∀ b ∈ T, b ≠ 0 := fun b hb e => hT1 (e ▸ hb)
    rw [cstr_append_of_ne_zero T _ hTz]
    simp only [cstr, hwz c2 hc2, if_false]
    rw [cstr_append_of_ne_zero W2 _ (fun b hb => hwz b (hW2 b hb)),
      cstr_of_ne_zero V (fun b hb => (hVs b hb).1)]
    by_cases hT0 : T = []
    · subst hT0
      rw [reqline_spec_method M _ c1 hMw hc1, if_neg (fun h => h hM)]
      simp only [List.nil_append]
      have hVw : ∀ b ∈ V, b ∉ ws := fun b hb => (hVs b hb).2.1
      have hall : ∀ b ∈ W1 ++ c2 :: W2, b ∈ ws := by
        intro b hb
        rcases List.mem_append.1 hb with h | h
        · exact hW1 b h
        · rcases List.mem_cons.1 h with h | h
          · exact h ▸ hc2
          · exact hW2 b h
      have e : W1 ++ c2 :: (W2 ++ V) = (W1 ++ c2 :: W2) ++ V := by simp
      rw [e, (dropWhile_isws_append _ V hall (headD_not_ws_of_forall V hVw)).2,
        version_spec_no_ws V hVw]
    · rw [reqline_spec_accept M W1 T W2 V c1 c2 hM hc1 hW1 hT0 hT hc2 hW2 hV, hnone]

/-- The C string of `a ++ l` reads `l` up to its first NUL only. -/
theorem cstr_append_cstr (a l : List Nat) : cstr (a ++ l) = cstr (a ++ cstr l) := by
  induction a with
  | nil =>
    rw [List.nil_append, List.nil_append, cstr_of_ne_zero (cstr l) (cstr_ne_zero l)]
  | cons b a ih =>
    rw [List.cons_append, List.cons_append]
    by_cases hb : b = 0
    · simp [cstr, hb]
    · simp only [cstr, hb, if_false]
      rw [ih]

/-- A line whose version, read as a C string after the white space that follows
a non-empty target token, is not a case variant of `HTTP/1.1`; the remainder `R`
may hold NUL bytes. -/
theorem reqline_spec_bad_version_cstr (M W1 T W2 R : List Nat) (c1 c2 : Nat)
    (hM : ∀ b ∈ M, b ∉ ws) (hc1 : c1 ∈ ws) (hW1 : ∀ b ∈ W1, b ∈ ws)
    (hT0 : T ≠ []) (hT : ∀ b ∈ T, b ∉ ws) (hc2 : c2 ∈ ws) (hW2 : ∀ b ∈ W2, b ∈ ws)
    (hne : lower ((cstr R).dropWhile isws) ≠ lower lit_HTTP11) :
    (reqline_spec (cstr (M ++ c1 :: (W1 ++ (T ++ c2 :: (W2 ++ R)))))).1 = BAD_REQUEST := by
  have e : ∀ X : List Nat, M ++ c1 :: (W1 ++ (T ++ c2 :: (W2 ++ X)))
      = (M ++ c1 :: (W1 ++ (T ++ c2 :: W2))) ++ X := by
    intro X; simp
  rw [e R, cstr_append_cstr, ← e (cstr R)]
  exact reqline_spec_bad_version M W1 T W2 (cstr R) c1 c2 hM hc1 hW1 hT0 hT hc2 hW2
    (cstr_ne_zero R) hne


/-! ## The header lines of a well-formed request -/

/-- From a session in the header phase whose unread bytes begin with the header
lines `hs`, none empty or holding CR, LF or NUL: `parse_content` consumes them
all and goes on from the byte after them. -/
theorem parse_content_headers (hs : List (List Nat)) (tail : List Nat) (r : Nat)
    (hh : ∀ h ∈ hs, h ≠ [] ∧ ∀ b ∈ h, b ≠ CR ∧ b ≠ LF ∧ b ≠ 0) :
    ∀ (pre : List Nat) (out : List Event), pre.length + (header_block hs).length ≤ r →
      ∃ (pre2 : List Nat) (out2 : List Event),
        pre2.length = pre.length + (header_block hs).length ∧
        parse_content ⟨pre ++ (header_block hs ++ tail), pre.length, r, pre.length,
            CHECK_STATE_HEADER, out⟩
          = parse_content ⟨pre2 ++ tail, pre2.length, r, pre2.length,
              CHECK_STATE_HEADER, out2⟩ := by
  induction hs with
  | nil =>
    intro pre out _
    exact ⟨pre, out, by simp [header_block], by simp [header_block]⟩
  | cons h hs ih =>
    intro pre out hr
    have hh1 := hh h (List.mem_cons_self _ _)
    have hlen : (header_block (h :: hs)).length = h.length + 2 + (header_block hs).length := by
      simp [header_block]; omega
    rw [hlen] at hr
    have hbuf : pre ++ (header_block (h :: hs) ++ tail)
        = (pre ++ h) ++ CR :: LF :: (header_block hs ++ tail) := by
      simp [header_block]
    have hno : NoCRLF ((pre ++ h) ++ CR :: LF :: (header_block hs ++ tail)) pre.length
        (pre ++ h).length :=
      noCRLF_of_forall pre h _ pre.length (Nat.le_refl _)
        (fun b hb => ⟨(hh1.2 b hb).1, (hh1.2 b hb).2.1⟩)
    have hpl := parse_line_crlf (pre ++ h) (header_block hs ++ tail) pre.length r
      (by simp) (by simp; omega) hno
    obtain ⟨pre2, out2, hl2, heq⟩ := ih (fun g hg => hh g (List.mem_cons_of_mem _ hg))
      (pre ++ h ++ [0, 0]) (out ++ (parse_headers ((pre ++ h) ++ 0 :: 0 ::
        (header_block hs ++ tail)) pre.length).2) (by simp; omega)
    refine ⟨pre2, out2, by rw [hl2, hlen]; simp; omega, ?_⟩
    rw [← heq, parse_content_unfold,
      content_body_ok parse_content _ ((pre ++ h) ++ 0 :: 0 :: (header_block hs ++ tail))
        ((pre ++ h).length + 2) (by simp only [hbuf]; exact hpl),
      dispatch_header _ _ _ _ rfl]
    have hne : ¬ (parse_headers ((pre ++ h) ++ 0 :: 0 :: (header_block hs ++ tail))
        pre.length).1 = GET_REQUEST := by
      rw [parse_headers_get_iff, List.append_assoc, getD_of_length pre _ _ rfl]
      obtain ⟨c, h', rfl⟩ := List.exists_cons_of_ne_nil hh1.1
      simpa using (hh1.2 c (List.mem_cons_self _ _)).2.2
    simp only [hne, if_false]
    congr 2
    · simp
    · simp; omega
    · simp; omega

/-- A well-formed request line is accepted by `reqline_spec`. -/
theorem reqline_spec_wellformed (W1 T W2 : List Nat)
    (hW1 : W1 ≠ [] ∧ ∀ b ∈ W1, b ∈ ws)
    (hT : T.head? = some SLASH ∧ ∀ b ∈ T, b ∉ ws ∧ b ≠ CR ∧ b ≠ LF ∧ b ≠ 0)
    (hW2 : W2 ≠ [] ∧ ∀ b ∈ W2, b ∈ ws) :
    (∀ b ∈ lit_GET ++ W1 ++ T ++ W2 ++ lit_HTTP11, b ≠ 0 ∧ b ≠ CR ∧ b ≠ LF)
      ∧ ∃ line2 : List Nat, line2.length = (lit_GET ++ W1 ++ T ++ W2 ++ lit_HTTP11).length
        ∧ reqline_spec (lit_GET ++ W1 ++ T ++ W2 ++ lit_HTTP11)
          = (NO_REQUEST, line2, [Event.method_get, Event.url T]) := by
  have hws : ∀ b, b ∈ ws → b ≠ 0 ∧ b ≠ CR ∧ b ≠ LF := by decide
  have hg : ∀ b ∈ lit_GET, b ≠ 0 ∧ b ≠ CR ∧ b ≠ LF := by decide
  have hv : ∀ b ∈ lit_HTTP11, b ≠ 0 ∧ b ≠ CR ∧ b ≠ LF := by decide
  constructor
  · intro b hb
    simp only [List.mem_append] at hb
    rcases hb with (((h | h) | h) | h) | h
    · exact hg b h
    · exact hws b (hW1.2 b h)
    · exact ⟨(hT.2 b h).2.2.2, (hT.2 b h).2.1, (hT.2 b h).2.2.1⟩
    · exact hws b (hW2.2 b h)
    · exact hv b h
  · obtain ⟨c1, W1', rfl⟩ := List.exists_cons_of_ne_nil hW1.1
    obtain ⟨c2, W2', rfl⟩ := List.exists_cons_of_ne_nil hW2.1
    obtain ⟨T', rfl⟩ : ∃ T', T = SLASH :: T' := by
      cases T with
      | nil => simp at hT
      | cons c T' => exact ⟨T', by simpa using hT.1⟩
    have e : lit_GET ++ c1 :: W1' ++ SLASH :: T' ++ c2 :: W2' ++ lit_HTTP11
        = lit_GET ++ c1 :: (W1' ++ (SLASH :: T' ++ c2 :: (W2' ++ lit_HTTP11))) := by simp
    have hspec := reqline_spec_accept lit_GET W1' (SLASH :: T') W2' lit_HTTP11 c1 c2 rfl
      (hW1.2 c1 (List.mem_cons_self _ _)) (fun b hb => hW1.2 b (List.mem_cons_of_mem _ hb))
      (by simp) (fun b hb => (hT.2 b hb).1) (hW2.2 c2 (List.mem_cons_self _ _))
      (fun b hb => hW2.2 b (List.mem_cons_of_mem _ hb)) rfl
    rw [effective_target_slash] at hspec
    rw [e, hspec]
    exact ⟨_, by simp, rfl⟩

/-! ## Receiving more bytes does not disturb the bytes already received -/

theorem getD_store_lt (b : List Nat) (r : Nat) (d : List Nat) (j : Nat) (h : j < r) :
    (store b r d).getD j 0 = b.getD j 0 := by
  induction d generalizing b r with
  | nil => rfl
  | cons y d ih =>
    simp only [store]
    rw [ih (b.set r y) (r + 1) (by omega), getD_set_ne _ _ _ _ (by omega)]

theorem set_store_comm (b : List Nat) (r : Nat) (d : List Nat) (i v : Nat) (h : i < r) :
    (store b r d).set i v = store (b.set i v) r d := by
  induction d generalizing b r with
  | nil => rfl
  | cons y d ih =>
    simp only [store]
    rw [ih (b.set r y) (r + 1) (by omega), List.set_comm _ _ _ (by omega : r ≠ i)]

theorem noCRLF_store (b : List Nat) (r : Nat) (d : List Nat) (c i : Nat) (hi : i ≤ r)
    (h : NoCRLF b c i) : NoCRLF (store b r d) c i := by
  intro j hj hcj
  rw [getD_store_lt b r d j (by omega)]
  exact h j hj hcj

/-- A line that is complete stays the same line when more bytes are received. -/
theorem parse_line_store_ok (b b2 : List Nat) (c r c2 : Nat) (d : List Nat)
    (hok : parse_line b c r = (LINE_OK, b2, c2)) :
    parse_line (store b r d) c (r + d.length) = (LINE_OK, store b2 r d, c2) := by
  by_cases h : c ≤ r
  · obtain ⟨i, hci, hir, hno, hcases⟩ := parse_line_spec b c r h
    have hno2 := noCRLF_store b r d c i hir hno
    rcases hcases with ⟨_, e⟩ | ⟨_, _, e⟩ | ⟨h1, h2, h3, e⟩ | ⟨_, _, _, e⟩ | ⟨h1, h2, h3, e⟩
      | ⟨_, _, _, e⟩ <;> rw [e] at hok <;> simp only [Prod.mk.injEq] at hok
    · exact absurd hok.1 (by decide)
    · exact absurd hok.1 (by decide)
    · obtain ⟨_, hb, hc⟩ := hok
      subst hb; subst hc
      rw [parse_line_skip _ c i _ hci (by omega) hno2, parse_line_at _ _ _ (by omega),
        getD_store_lt b r d i (by omega), getD_store_lt b r d (i + 1) (by omega),
        if_pos h2, if_neg (by omega), if_pos h3,
        set_store_comm _ _ _ _ _ (by omega), set_store_comm _ _ _ _ _ (by omega)]
    · exact absurd hok.1 (by decide)
    · obtain ⟨_, hb, hc⟩ := hok
      subst hb; subst hc
      have hcr : ¬ (b.getD i 0 = CR) := by rw [h2]; decide
      rw [parse_line_skip _ c i _ hci (by omega) hno2, parse_line_at _ _ _ (by omega),
        getD_store_lt b r d i (by omega), getD_store_lt b r d (i - 1) (by omega),
        if_neg hcr, if_pos h2, if_pos h3,
        set_store_comm _ _ _ _ _ (by omega), set_store_comm _ _ _ _ _ (by omega)]
    · exact absurd hok.1 (by decide)
  · rw [parse_line_end b c r (by omega)] at hok
    simp only [Prod.mk.injEq] at hok
    exact absurd hok.1 (by decide)

/-- A malformed line stays malformed when more bytes are received. -/
theorem parse_line_store_bad (b b2 : List Nat) (c r c2 : Nat) (d : List Nat)
    (hbad : parse_line b c r = (LINE_BAD, b2, c2)) :
    b2 = b ∧ parse_line (store b r d) c (r + d.length) = (LINE_BAD, store b r d, c2) := by
  by_cases h : c ≤ r
  · obtain ⟨i, hci, hir, hno, hcases⟩ := parse_line_spec b c r h
    have hno2 := noCRLF_store b r d c i hir hno
    rcases hcases with ⟨_, e⟩ | ⟨_, _, e⟩ | ⟨_, _, _, e⟩ | ⟨h1, h2, h3, e⟩ | ⟨_, _, _, e⟩
      | ⟨h1, h2, h3, e⟩ <;> rw [e] at hbad <;> simp only [Prod.mk.injEq] at hbad
    · exact absurd hbad.1 (by decide)
    · exact absurd hbad.1 (by decide)
    · exact absurd hbad.1 (by decide)
    · obtain ⟨_, hb, hc⟩ := hbad
      subst hb; subst hc
      refine ⟨rfl, ?_⟩
      rw [parse_line_skip _ c i _ hci (by omega) hno2, parse_line_at _ _ _ (by omega),
        getD_store_lt b r d i (by omega), getD_store_lt b r d (i + 1) (by omega),
        if_pos h2, if_neg (by omega), if_neg h3]
    · exact absurd hbad.1 (by decide)
    · obtain ⟨_, hb, hc⟩ := hbad
      subst hb; subst hc
      refine ⟨rfl, ?_⟩
      have hcr : ¬ (b.getD i 0 = CR) := by rw [h2]; decide
      have h3' : ¬ (i > 1 ∧ (store b r d).getD (i - 1) 0 = CR) := by
        rw [getD_store_lt b r d (i - 1) (by omega)]; exact h3
      rw [parse_line_skip _ c i _ hci (by omega) hno2, parse_line_at _ _ _ (by omega),
        getD_store_lt b r d i (by omega), if_neg hcr, if_pos h2, if_neg h3']
  · rw [parse_line_end b c r (by omega)] at hbad
    simp only [Prod.mk.injEq] at hbad
    exact absurd hbad.1 (by decide)

/-- An incomplete line: once more bytes are received, the scan may resume from
where the call stopped. -/
theorem parse_line_store_open (b b2 : List Nat) (c r c2 : Nat) (d : List Nat) (hcr : c ≤ r)
    (hopen : parse_line b c r = (LINE_OPEN, b2, c2)) :
    b2 = b ∧ c ≤ c2 ∧ c2 ≤ r
      ∧ parse_line (store b r d) c (r + d.length) = parse_line (store b r d) c2 (r + d.length) := by
  obtain ⟨i, hci, hir, hno, hcases⟩ := parse_line_spec b c r hcr
  have hno2 := noCRLF_store b r d c i hir hno
  rcases hcases with ⟨h1, e⟩ | ⟨h1, _, e⟩ | ⟨_, _, _, e⟩ | ⟨_, _, _, e⟩ | ⟨_, _, _, e⟩
    | ⟨_, _, _, e⟩ <;> rw [e] at hopen <;> simp only [Prod.mk.injEq] at hopen
  · obtain ⟨_, hb, hc⟩ := hopen
    subst hb; subst hc; subst h1
    exact ⟨rfl, hci, Nat.le_refl _, parse_line_skip _ c i _ hci (by omega) hno2⟩
  · obtain ⟨_, hb, hc⟩ := hopen
    subst hb; subst hc
    exact ⟨rfl, hci, by omega, parse_line_skip _ c i _ hci (by omega) hno2⟩
  · exact absurd hopen.1 (by decide)
  · exact absurd hopen.1 (by decide)
  · exact absurd hopen.1 (by decide)
  · exact absurd hopen.1 (by decide)

/-- After `LINE_OK` the byte before `checked_index` is the NUL that the call
wrote, and it lies within the buffer. -/
theorem parse_line_ok_nul (b b2 : List Nat) (c r c2 : Nat) (hr : r ≤ b.length)
    (hok : parse_line b c r = (LINE_OK, b2, c2)) :
    b2.getD (c2 - 1) 0 = 0 ∧ c < c2 ∧ c2 ≤ r ∧ b2.length = b.length := by
  have hb := parse_line_ok_bounds b b2 c r c2 hok
  refine ⟨?_, hb.1, hb.2.1, hb.2.2⟩
  obtain ⟨i, hci, hir, hno, hcases⟩ := parse_line_spec b c r (by omega)
  rcases hcases with ⟨_, e⟩ | ⟨_, _, e⟩ | ⟨h1, h2, h3, e⟩ | ⟨_, _, _, e⟩ | ⟨h1, h2, h3, e⟩
    | ⟨_, _, _, e⟩ <;> rw [e] at hok <;> simp only [Prod.mk.injEq] at hok
  · exact absurd hok.1 (by decide)
  · exact absurd hok.1 (by decide)
  · obtain ⟨_, hb, hc⟩ := hok
    subst hb; subst hc
    rw [getD_set_eq]
    simp only [List.length_set]
    have : i + 1 < b.length := by omega
    simp [this]
  · exact absurd hok.1 (by decide)
  · obtain ⟨_, hb, hc⟩ := hok
    subst hb; subst hc
    rw [getD_set_eq]
    simp only [List.length_set]
    have : i < b.length := by omega
    simp [this]
  · exact absurd hok.1 (by decide)

/-! ## The interpreters read no further than the end of the line -/

/-- The header interpreter on a buffer that holds at `temp` the NUL-free bytes
`a`, then a terminator: it computes `header_spec a`. -/
theorem parse_headers_append (pre a t : List Nat) (ha : ∀ b ∈ a, b ≠ 0) (ht : t.headD 0 = 0) :
    parse_headers (pre ++ (a ++ t)) pre.length = header_spec a := by
  unfold parse_headers header_spec
  rw [getD_of_length pre _ _ rfl, drop_of_length pre _ _ rfl]
  cases a with
  | nil => rw [List.nil_append, if_pos ht, if_pos rfl]
  | cons c a' =>
    have hc : c ≠ 0 := ha c (List.mem_cons_self _ _)
    have h0 : ¬ ((c :: a' ++ t).headD 0 = 0) := by simpa using hc
    have h1 : ¬ (c :: a' = []) := by simp
    rw [if_neg h0, if_neg h1]
    have hcmp := strncasecmp_append 5 (c :: a') t lit_Host ha (by decide) rfl ht
    by_cases h5 : lower ((c :: a').take 5) = lower lit_Host
    · rw [if_pos (hcmp.2 h5), if_pos h5]
      have hlen : 5 ≤ (c :: a').length := by
        have := congrArg List.length h5
        rw [lower_length, lower_length, List.length_take] at this
        have e : lit_Host.length = 5 := rfl
        omega
      have hz : ∀ b ∈ (c :: a').drop 5, b ≠ 0 := fun b hb => ha b (List.mem_of_mem_drop hb)
      have e1 : (pre ++ (c :: a' ++ t)).drop (pre.length + 5) = (c :: a').drop 5 ++ t := by
        have : pre ++ (c :: a' ++ t) = (pre ++ (c :: a').take 5) ++ ((c :: a').drop 5 ++ t) := by
          rw [List.append_assoc, ← List.append_assoc ((c :: a').take 5), List.take_append_drop]
        rw [this]
        exact drop_of_length _ _ _ (by rw [List.length_append, List.length_take]; omega)
      have esplit : (c :: a').drop 5 ++ t = ((c :: a').drop 5).takeWhile isws
          ++ (((c :: a').drop 5).dropWhile isws ++ t) := by
        rw [← List.append_assoc, List.takeWhile_append_dropWhile]
      have esp : strspn ((c :: a').drop 5 ++ t) ws = (((c :: a').drop 5).takeWhile isws).length := by
        rw [esplit]
        exact strspn_append _ _ (takeWhile_isws_spec _) (dropWhile_isws_head _ t ht)
      have e2 : (pre ++ (c :: a' ++ t)).drop
          (pre.length + 5 + (((c :: a').drop 5).takeWhile isws).length)
            = ((c :: a').drop 5).dropWhile isws ++ t := by
        have : pre ++ (c :: a' ++ t) = (pre ++ ((c :: a').take 5
            ++ ((c :: a').drop 5).takeWhile isws)) ++ (((c :: a').drop 5).dropWhile isws ++ t) := by
          have e3 : c :: a' ++ t = (c :: a').take 5 ++ ((c :: a').drop 5 ++ t) := by
            rw [← List.append_assoc, List.take_append_drop]
          rw [e3, esplit]
          simp only [List.append_assoc]
        rw [this]
        exact drop_of_length _ _ _ (by
          simp only [List.length_append, List.length_take]; omega)
      simp only []
      rw [e1, esp, e2, cstr_append _ _
        (fun b hb => hz b ((List.dropWhile_sublist isws).subset hb)) ht]
    · rw [if_neg (fun h => h5 (hcmp.1 h)), if_neg h5, cstr_append _ _ ha ht]

theorem version_spec_length (t2 : List Nat) : (version_spec t2).2.1.length = t2.length := by
  have hsplit := List.takeWhile_append_dropWhile notws t2
  unfold version_spec
  cases hd : t2.dropWhile notws with
  | nil => rfl
  | cons c t3 =>
    rw [hd] at hsplit
    have hl : (t2.takeWhile notws ++ 0 :: t3).length = t2.length := by
      conv_rhs => rw [← hsplit]
      simp
    simp only []
    split_ifs
    · exact hl
    · cases effective_target (t2.takeWhile notws) <;> exact hl

theorem reqline_spec_length (a : List Nat) : (reqline_spec a).2.1.length = a.length := by
  have hsplit := List.takeWhile_append_dropWhile notws a
  unfold reqline_spec
  cases hd : a.dropWhile notws with
  | nil => rfl
  | cons c t1 =>
    rw [hd] at hsplit
    have hl1 := congrArg List.length hsplit
    have hl2 := congrArg List.length (List.takeWhile_append_dropWhile isws t1)
    simp only [List.length_append, List.length_cons] at hl1 hl2
    simp only []
    split_ifs
    · simp only [List.length_append, List.length_cons]; omega
    · simp only [List.length_append, List.length_cons, version_spec_length]; omega

theorem cstr_length_le (m : List Nat) (k : Nat) (hk : k < m.length) (h0 : m.getD k 0 = 0) :
    (cstr m).length ≤ k := by
  induction m generalizing k with
  | nil => simp at hk
  | cons c x ih =>
    by_cases hc : c = 0
    · simp [cstr, hc]
    · cases k with
      | zero => simp at h0; exact absurd h0 hc
      | succ k =>
        simp only [cstr, hc, if_false, List.length_cons]
        have := ih k (by simpa using hk) (by simpa using h0)
        omega

theorem headD_store_succ (t : List Nat) (k : Nat) (d : List Nat) :
    (store t (k + 1) d).headD 0 = t.headD 0 := by
  cases t with
  | nil =>
    have : (store [] (k + 1) d).length = 0 := by rw [store_length]; rfl
    rw [List.length_eq_zero.1 this]
  | cons c x => rw [store_cons]; rfl

/-- A buffer with a NUL byte at `z`, where `start ≤ z < r` and `r` is within the
buffer, splits at `start` into a C string, its terminator and the rest, and
receiving at `r` changes the rest only. -/
theorem split_at_line (b : List Nat) (start z r : Nat) (d : List Nat)
    (h1 : start ≤ z) (h2 : z < r) (h3 : r ≤ b.length) (h0 : b.getD z 0 = 0) :
    ∃ (pre a t : List Nat) (k : Nat), b = pre ++ (a ++ t) ∧ pre.length = start
      ∧ (∀ x ∈ a, x ≠ 0) ∧ t.headD 0 = 0 ∧ (store t (k + 1) d).headD 0 = 0
      ∧ r = pre.length + (a.length + (k + 1))
      ∧ store b r d = pre ++ (a ++ store t (k + 1) d) := by
  have hsplit := cstr_split (b.drop start)
  have hpre : (b.take start).length = start := by rw [List.length_take]; omega
  have hz : (b.drop start).getD (z - start) 0 = 0 := by
    have := getD_append_add (b.take start) (b.drop start) (z - start)
    rw [List.take_append_drop, hpre] at this
    rw [← this, Nat.add_sub_cancel' h1]
    exact h0
  have hle := cstr_length_le (b.drop start) (z - start) (by rw [List.length_drop]; omega) hz
  obtain ⟨k, hk⟩ : ∃ k, r = start + ((cstr (b.drop start)).length + (k + 1)) :=
    ⟨r - start - (cstr (b.drop start)).length - 1, by omega⟩
  have hb : b = b.take start ++ (cstr (b.drop start)
      ++ (b.drop start).drop (cstr (b.drop start)).length) := by
    rw [← hsplit.1, List.take_append_drop]
  refine ⟨b.take start, cstr (b.drop start), (b.drop start).drop (cstr (b.drop start)).length,
    k, hb, hpre, cstr_ne_zero _, hsplit.2, ?_, by rw [hpre]; exact hk, ?_⟩
  · rw [headD_store_succ]; exact hsplit.2
  · conv_lhs => rw [hb, hk]
    have := store_append_add (b.take start) (cstr (b.drop start)
      ++ (b.drop start).drop (cstr (b.drop start)).length)
      ((cstr (b.drop start)).length + (k + 1)) d
    rw [hpre] at this
    rw [this, store_append_add]

/-- The request-line interpreter on a line that ends before `r`: receiving at
`r` changes neither the code, the phase nor the output, and the buffers left
differ by the bytes received. -/
theorem parse_requestline_store (b : List Nat) (start z r : Nat) (d : List Nat)
    (cs : CHECK_STATE)
    (h1 : start ≤ z) (h2 : z < r) (h3 : r ≤ b.length) (h0 : b.getD z 0 = 0) :
    parse_requestline (store b r d) start cs
      = ⟨(parse_requestline b start cs).code, store (parse_requestline b start cs).buffer r d,
          (parse_requestline b start cs).checkstate, (parse_requestline b start cs).out⟩
      ∧ (parse_requestline b start cs).buffer.length = b.length := by
  obtain ⟨pre, a, t, k, hb, hpre, ha, ht, ht2, hr, hst⟩ := split_at_line b start z r d h1 h2 h3 h0
  rw [hst, hb, ← hpre, parse_requestline_append pre a t cs ha ht,
    parse_requestline_append pre a _ cs ha ht2]
  have hl := reqline_spec_length a
  constructor
  · simp only []
    congr 1
    rw [hr, store_append_add, ← hl, store_append_add]
  · simp [hl]

/-- The header interpreter on a line that ends before `r`: receiving at `r`
changes nothing to its result. -/
theorem parse_headers_store (b : List Nat) (start z r : Nat) (d : List Nat)
    (h1 : start ≤ z) (h2 : z < r) (h3 : r ≤ b.length) (h0 : b.getD z 0 = 0) :
    parse_headers (store b r d) start = parse_headers b start := by
  obtain ⟨pre, a, t, k, hb, hpre, ha, ht, ht2, hr, hst⟩ := split_at_line b start z r d h1 h2 h3 h0
  rw [hst, hb, ← hpre, parse_headers_append pre a t ha ht, parse_headers_append pre a _ ha ht2]

/-! ## Parsing before or after more bytes are received -/

theorem feed_feed (s : Session) (d e : List Nat) : feed (feed s d) e = feed s (d ++ e) := by
  simp only [feed, store_append, List.length_append, Nat.add_assoc]

theorem inv_feed (s : Session) (d : List Nat) (h : Inv s)
    (hroom : s.read_index + d.length ≤ s.buffer.length) : Inv (feed s d) := by
  obtain ⟨h1, h2, h3⟩ := h
  refine ⟨h1, ?_, ?_⟩
  · show s.checked_index ≤ s.read_index + d.length
    omega
  · show s.read_index + d.length ≤ (store s.buffer s.read_index d).length
    rw [store_length]; exact hroom

/-- The loop body looks at `checked_index` through `parse_line` only. -/
theorem content_body_checked (k : Session → HTTP_CODE × Session) (s : Session) (c2 : Nat)
    (h : parse_line s.buffer s.checked_index s.read_index
      = parse_line s.buffer c2 s.read_index) :
    content_body k s = content_body k { s with checked_index := c2 } := by
  unfold content_body
  simp only []
  rw [h]
  rcases parse_line s.buffer c2 s.read_index with ⟨st, b, c⟩
  cases st <;> rfl

/-- Receiving `d` before `parse_content` or after it: when the call without `d`
returns `NO_REQUEST`, parsing with `d` is parsing from the state that call
left; when it returns another code, parsing with `d` returns the same code and
leaves the same state, but for the bytes received. -/
theorem parse_content_feed (n : Nat) :
    ∀ (t : Session) (d : List Nat), t.read_index - t.checked_index ≤ n → Inv t →
      ((parse_content t).1 = NO_REQUEST →
          parse_content (feed t d) = parse_content (feed (parse_content t).2 d))
        ∧ ((parse_content t).1 ≠ NO_REQUEST →
          parse_content (feed t d) = ((parse_content t).1, feed (parse_content t).2 d)) := by
  induction n with
  | zero =>
    intro t d hn hinv
    obtain ⟨h1, h2, h3⟩ := hinv
    have hpl := parse_line_end t.buffer t.checked_index t.read_index (by omega)
    have hp := parse_content_of_open t _ _ hpl
    have hopen := parse_line_store_open _ _ _ _ _ d h2 hpl
    rw [hp]
    exact ⟨fun _ => rfl, fun h => absurd rfl h⟩
  | succ n ih =>
    intro t d hn hinv
    obtain ⟨h1, h2, h3⟩ := hinv
    rcases hpl : parse_line t.buffer t.checked_index t.read_index with ⟨st, b2, c2⟩
    cases st
    · -- LINE_OK
      obtain ⟨hz, hc1, hc2, hlen⟩ := parse_line_ok_nul _ _ _ _ _ h3 hpl
      have hfed := parse_line_store_ok _ _ _ _ _ d hpl
      have e1 : parse_content t = dispatch parse_content t b2 c2 := by
        rw [parse_content_unfold, content_body_ok _ _ _ _ hpl]
      have e2 : parse_content (feed t d)
          = dispatch parse_content (feed t d) (store b2 t.read_index d) c2 := by
        rw [parse_content_unfold, content_body_ok _ _ _ _ hfed]
      rw [e1, e2]
      cases hcs : t.checkstate
      · -- request line
        have hcs2 : (feed t d).checkstate = CHECK_STATE_REQUESTLINE := hcs
        rw [dispatch_requestline _ _ _ _ hcs, dispatch_requestline _ _ _ _ hcs2]
        obtain ⟨hrq, hrl⟩ := parse_requestline_store b2 t.start_line (c2 - 1) t.read_index d
          CHECK_STATE_REQUESTLINE (by omega) (by omega) (by omega) hz
        have hst : (feed t d).start_line = t.start_line := rfl
        rw [hst, hrq]
        simp only []
        by_cases hbad : (parse_requestline b2 t.start_line CHECK_STATE_REQUESTLINE).code
            = BAD_REQUEST
        · rw [if_pos hbad, if_pos hbad]
          exact ⟨fun h => (by cases h), fun _ => rfl⟩
        · rw [if_neg hbad, if_neg hbad]
          exact ih _ d (by show t.read_index - c2 ≤ n; omega)
            ⟨Nat.le_refl _, hc2, by
              show t.read_index
                ≤ (parse_requestline b2 t.start_line CHECK_STATE_REQUESTLINE).buffer.length
              rw [hrl, hlen]; exact h3⟩
      · -- header
        have hcs2 : (feed t d).checkstate = CHECK_STATE_HEADER := hcs
        rw [dispatch_header _ _ _ _ hcs, dispatch_header _ _ _ _ hcs2]
        have hh := parse_headers_store b2 t.start_line (c2 - 1) t.read_index d
          (by omega) (by omega) (by omega) hz
        have hst : (feed t d).start_line = t.start_line := rfl
        rw [hst, hh]
        by_cases hget : (parse_headers b2 t.start_line).1 = GET_REQUEST
        · rw [if_pos hget, if_pos hget]
          exact ⟨fun h => (by cases h), fun _ => rfl⟩
        · rw [if_neg hget, if_neg hget]
          exact ih _ d (by show t.read_index - c2 ≤ n; omega)
            ⟨Nat.le_refl _, hc2, by show t.read_index ≤ b2.length; rw [hlen]; exact h3⟩
    · -- LINE_BAD
      obtain ⟨hb, hfed⟩ := parse_line_store_bad _ _ _ _ _ d hpl
      subst hb
      rw [parse_content_of_bad t _ _ hpl, parse_content_of_bad (feed t d) _ _ hfed]
      exact ⟨fun h => (by cases h), fun _ => rfl⟩
    · -- LINE_OPEN
      obtain ⟨hb, hc1, hc2, hfed⟩ := parse_line_store_open _ _ _ _ _ d h2 hpl
      subst hb
      rw [parse_content_of_open t _ _ hpl]
      refine ⟨fun _ => ?_, fun h => absurd rfl h⟩
      rw [parse_content_unfold (feed t d), parse_content_unfold (feed _ d)]
      exact content_body_checked parse_content (feed t d) c2 hfed

/-! ## Merging two successive results of `recv` -/

theorem recv_loop_cons (s : Session) (a : List Nat) (rest : List (List Nat)) (ha : a ≠ []) :
    recv_loop s (a :: rest)
      = if (parse_content (feed s a)).1 = NO_REQUEST then
          recv_loop (parse_content (feed s a)).2 rest
        else parse_content (feed s a) := by
  have h : ¬ a.length = 0 := fun e => ha (List.length_eq_zero.1 e)
  rw [recv_loop, if_neg h]

/-- Two chunks received one after the other, or as one chunk: the same is
observed at the end of the receive loop. -/
theorem recv_loop_merge (s : Session) (a b : List Nat) (rest : List (List Nat))
    (hinv : Inv s) (hroom : s.read_index + a.length ≤ s.buffer.length)
    (ha : a ≠ []) (hb : b ≠ []) :
    observe (recv_loop s (a :: b :: rest)) = observe (recv_loop s ((a ++ b) :: rest)) := by
  have hab : a ++ b ≠ [] := by simp [ha]
  have hA := parse_content_feed ((feed s a).read_index - (feed s a).checked_index) (feed s a) b
    (Nat.le_refl _) (inv_feed s a hinv hroom)
  rw [recv_loop_cons s a _ ha, recv_loop_cons s (a ++ b) _ hab, ← feed_feed]
  by_cases hr : (parse_content (feed s a)).1 = NO_REQUEST
  · rw [if_pos hr, recv_loop_cons _ b _ hb, hA.1 hr]
  · rw [if_neg hr, hA.2 hr, if_neg hr]
    rfl

/-- Any number of non-empty chunks, or their concatenation as one chunk: the
same is observed at the end of the receive loop. -/
theorem recv_loop_chunks (s : Session) (hinv : Inv s) :
    ∀ (cs : List (List Nat)) (c : List Nat),
      s.read_index + (c ++ cs.flatten).length ≤ s.buffer.length → c ≠ [] →
      (∀ x ∈ cs, x ≠ []) →
      observe (recv_loop s (c :: cs)) = observe (recv_loop s [c ++ cs.flatten]) := by
  intro cs
  induction cs with
  | nil => intro c _ _ _; simp
  | cons d ds ih =>
    intro c hroom hc hne
    have hd : d ≠ [] := hne d (List.mem_cons_self _ _)
    have hroom2 : s.read_index + c.length ≤ s.buffer.length := by
      simp only [List.length_append] at hroom; omega
    rw [recv_loop_merge s c d ds hinv hroom2 hc hd,
      ih (c ++ d) (by simpa [List.append_assoc] using hroom) (by simp [hc])
        (fun x hx => hne x (List.mem_cons_of_mem _ hx))]
    simp [List.append_assoc]

/-! ## What every call of `parse_requestline` does -/

theorem parse_requestline_target_facts (b : List Nat) (url : Nat) (cs : CHECK_STATE) :
    ((parse_requestline_target b url cs).code = BAD_REQUEST
        ∧ (parse_requestline_target b url cs).checkstate = cs
      ∨ (parse_requestline_target b url cs).code = NO_REQUEST
        ∧ (parse_requestline_target b url cs).checkstate = CHECK_STATE_HEADER)
      ∧ (parse_requestline_target b url cs).buffer = b := by
  unfold parse_requestline_target
  simp only []
  split
  · exact ⟨Or.inl ⟨rfl, rfl⟩, rfl⟩
  · split_ifs
    · exact ⟨Or.inl ⟨rfl, rfl⟩, rfl⟩
    · exact ⟨Or.inr ⟨rfl, rfl⟩, rfl⟩

theorem parse_requestline_version_facts (b : List Nat) (url : Nat) (cs : CHECK_STATE) :
    ((parse_requestline_version b url cs).code = BAD_REQUEST
        ∧ (parse_requestline_version b url cs).checkstate = cs
      ∨ (parse_requestline_version b url cs).code = NO_REQUEST
        ∧ (parse_requestline_version b url cs).checkstate = CHECK_STATE_HEADER)
      ∧ ((parse_requestline_version b url cs).buffer = b
        ∨ ∃ i, (parse_requestline_version b url cs).buffer = b.set i 0) := by
  unfold parse_requestline_version
  split
  · exact ⟨Or.inl ⟨rfl, rfl⟩, Or.inl rfl⟩
  · rename_i j hj
    simp only []
    split_ifs
    · exact ⟨Or.inl ⟨rfl, rfl⟩, Or.inr ⟨_, rfl⟩⟩
    · have h := parse_requestline_target_facts (b.set (url + j) 0) url cs
      exact ⟨h.1, Or.inr ⟨_, h.2⟩⟩

/-- The request-line interpreter returns `BAD_REQUEST` with the phase as it was,
or `NO_REQUEST` with the phase `CHECK_STATE_HEADER`; the buffer it leaves is
the one it was given with at most two bytes set to NUL. -/
theorem parse_requestline_facts (b : List Nat) (temp : Nat) (cs : CHECK_STATE) :
    ((parse_requestline b temp cs).code = BAD_REQUEST
        ∧ (parse_requestline b temp cs).checkstate = cs
      ∨ (parse_requestline b temp cs).code = NO_REQUEST
        ∧ (parse_requestline b temp cs).checkstate = CHECK_STATE_HEADER)
      ∧ ((parse_requestline b temp cs).buffer = b
        ∨ (∃ i, (parse_requestline b temp cs).buffer = b.set i 0)
        ∨ ∃ i j, (parse_requestline b temp cs).buffer = (b.set i 0).set j 0) := by
  rw [parse_requestline_stages]
  split
  · exact ⟨Or.inl ⟨rfl, rfl⟩, Or.inl rfl⟩
  · rename_i k hk
    split_ifs
    · have h := parse_requestline_version_facts (b.set (temp + k) 0)
        (temp + k + 1 + strspn ((b.set (temp + k) 0).drop (temp + k + 1)) ws) cs
      refine ⟨h.1, ?_⟩
      rcases h.2 with h2 | ⟨j, h2⟩
      · exact Or.inr (Or.inl ⟨_, h2⟩)
      · exact Or.inr (Or.inr ⟨_, j, h2⟩)
    · exact ⟨Or.inl ⟨rfl, rfl⟩, Or.inr (Or.inl ⟨_, rfl⟩)⟩

theorem getD_set_zero (b : List Nat) (i j : Nat) :
    (b.set i 0).getD j 0 = b.getD j 0 ∨ (b.set i 0).getD j 0 = 0 := by
  rw [getD_set_eq]
  split_ifs
  · exact Or.inr rfl
  · exact Or.inl rfl

/-- Every byte that `parse_requestline` leaves is the byte it found or NUL, and
the length of the buffer is the same. -/
theorem parse_requestline_bytes (b : List Nat) (temp : Nat) (cs : CHECK_STATE) (j : Nat) :
    ((parse_requestline b temp cs).buffer.getD j 0 = b.getD j 0
        ∨ (parse_requestline b temp cs).buffer.getD j 0 = 0)
      ∧ (parse_requestline b temp cs).buffer.length = b.length := by
  rcases (parse_requestline_facts b temp cs).2 with h | ⟨i, h⟩ | ⟨i, k, h⟩ <;> rw [h]
  · exact ⟨Or.inl rfl, rfl⟩
  · exact ⟨getD_set_zero b i j, by simp⟩
  · refine ⟨?_, by simp⟩
    rcases getD_set_zero (b.set i 0) k j with h1 | h1
    · rw [h1]; exact getD_set_zero b i j
    · exact Or.inr h1

/-! ## The loop body in terms of `interpret` -/

theorem interpret_fields (s : Session) (b : List Nat) (c : Nat) :
    (interpret s b c).2.checked_index = c ∧ (interpret s b c).2.start_line = c
      ∧ (interpret s b c).2.read_index = s.read_index := by
  unfold interpret
  cases s.checkstate <;> exact ⟨rfl, rfl, rfl⟩

/-- The interpreter of the request-line phase returns `BAD_REQUEST` or
`NO_REQUEST`, that of the header phase `GET_REQUEST` or `NO_REQUEST`. -/
theorem interpret_code (s : Session) (b : List Nat) (c : Nat) :
    (interpret s b c).1 = NO_REQUEST ∨ (interpret s b c).1 = BAD_REQUEST
      ∨ (interpret s b c).1 = GET_REQUEST := by
  unfold interpret
  cases hcs : s.checkstate <;> simp only []
  · rcases (parse_requestline_facts b s.start_line CHECK_STATE_REQUESTLINE).1 with h | h
    · exact Or.inr (Or.inl h.1)
    · exact Or.inl h.1
  · by_cases h : b.getD s.start_line 0 = 0
    · exact Or.inr (Or.inr ((parse_headers_get_iff _ _).2 h))
    · exact Or.inl ((parse_headers_no_iff _ _).2 h)

/-- Lines 183-197: the loop body returns the code of the interpreter unless it
is `NO_REQUEST`, in which case the loop goes on. -/
theorem dispatch_interpret (k : Session → HTTP_CODE × Session) (s : Session) (b : List Nat)
    (c : Nat) :
    dispatch k s b c =
      if (interpret s b c).1 = NO_REQUEST then k (interpret s b c).2
      else interpret s b c := by
  have hcode := interpret_code s b c
  revert hcode
  unfold dispatch interpret
  cases hcs : s.checkstate <;> simp only []
  · intro hcode
    rcases (parse_requestline_facts b s.start_line CHECK_STATE_REQUESTLINE).1 with h | h
    · simp [h.1]
    · simp [h.1]
  · intro hcode
    have hb := parse_headers_ne_bad b s.start_line
    rcases hcode with h | h | h
    · simp [h]
    · exact absurd h hb
    · simp [h]

/-- One evaluation of the loop condition of `parse_content` and what follows. -/
theorem parse_content_step (s : Session) :
    parse_content s =
      match parse_line s.buffer s.checked_index s.read_index with
      | (LINE_OK, b, c) =>
        if (interpret s b c).1 = NO_REQUEST then parse_content (interpret s b c).2
        else interpret s b c
      | (LINE_OPEN, b, c) => (NO_REQUEST, { s with buffer := b, checked_index := c })
      | (LINE_BAD, b, c) => (BAD_REQUEST, { s with buffer := b, checked_index := c }) := by
  rw [parse_content_unfold]
  unfold content_body
  rcases parse_line s.buffer s.checked_index s.read_index with ⟨st, b, c⟩
  cases st <;> simp only []
  exact dispatch_interpret _ _ _ _

/-- A rule for the loop of `parse_content`: `P` holds at every evaluation of the
loop condition and `Q` of the result, if `P` holds at entry, each executed
line keeps `P` or ends with `Q`, and the two exits after the loop give `Q`. -/
theorem parse_content_rule (P : Session → Prop) (Q : HTTP_CODE × Session → Prop)
    (hok : ∀ (s : Session) (b : List Nat) (c : Nat), P s →
      parse_line s.buffer s.checked_index s.read_index = (LINE_OK, b, c) →
      ((interpret s b c).1 = NO_REQUEST → P (interpret s b c).2)
        ∧ ((interpret s b c).1 ≠ NO_REQUEST → Q (interpret s b c)))
    (hopen : ∀ (s : Session) (b : List Nat) (c : Nat), P s →
      parse_line s.buffer s.checked_index s.read_index = (LINE_OPEN, b, c) →
      Q (NO_REQUEST, { s with buffer := b, checked_index := c }))
    (hbad : ∀ (s : Session) (b : List Nat) (c : Nat), P s →
      parse_line s.buffer s.checked_index s.read_index = (LINE_BAD, b, c) →
      Q (BAD_REQUEST, { s with buffer := b, checked_index := c })) :
    ∀ s : Session, P s → Q (parse_content s) := by
  intro s
  obtain ⟨n, hn⟩ : ∃ n, s.read_index - s.checked_index = n := ⟨_, rfl⟩
  induction n using Nat.strong_induction_on generalizing s with
  | _ n ih =>
    intro hP
    rw [parse_content_step]
    rcases hpl : parse_line s.buffer s.checked_index s.read_index with ⟨st, b, c⟩
    cases st <;> simp only []
    · have hb := parse_line_ok_bounds _ _ _ _ _ hpl
      have hf := interpret_fields s b c
      have h := hok s b c hP hpl
      by_cases hno : (interpret s b c).1 = NO_REQUEST
      · rw [if_pos hno]
        exact ih (s.read_index - c) (by omega) _ (by rw [hf.1, hf.2.2]) (h.1 hno)
      · rw [if_neg hno]
        exact h.2 hno
    · exact hbad s b c hP hpl
    · exact hopen s b c hP hpl

/-! ## The instrumented copies compute what the plain programs compute -/

/-- The instrumented `parse_line` returns what `parse_line` returns. -/
theorem parse_line_loop_log_fst (fuel : Nat) (b : List Nat) (r : Nat) :
    ∀ c : Nat, (parse_line_loop_log fuel b c r).1 = parse_line_loop fuel b c r := by
  induction fuel with
  | zero => intro c; rfl
  | succ f ih =>
    intro c
    rw [parse_line_loop_log, parse_line_loop]
    by_cases h1 : c < r
    · simp only [h1, if_true]
      by_cases h2 : b.getD c 0 = CR
      · simp only [h2, if_true]
        split_ifs <;> rfl
      · simp only [h2, if_false]
        by_cases h3 : b.getD c 0 = LF
        · simp only [h3, if_true]
          by_cases h4 : c > 1
          · by_cases h5 : b.getD (c - 1) 0 = CR
            · simp only [h4, h5, if_true, and_self]
            · simp only [h4, h5, if_true, if_false, and_false]
          · simp only [h4, if_false, false_and]
        · simp only [h3, if_false]
          exact ih (c + 1)
    · simp only [h1, if_false]

theorem parse_line_log_fst (b : List Nat) (c r : Nat) :
    (parse_line_log b c r).1 = parse_line b c r :=
  parse_line_loop_log_fst _ b r c

theorem parse_content_loop_log_succ (fuel : Nat) (s : Session) :
    parse_content_loop_log (fuel + 1) s =
      match parse_line s.buffer s.checked_index s.read_index with
      | (LINE_OK, b, c) =>
        if (interpret s b c).1 = NO_REQUEST then
          (parse_content_loop_log fuel (interpret s b c).2).after s
        else ⟨interpret s b c, [s], 1⟩
      | (LINE_OPEN, b, c) => ⟨(NO_REQUEST, { s with buffer := b, checked_index := c }), [s], 0⟩
      | (LINE_BAD, b, c) => ⟨(BAD_REQUEST, { s with buffer := b, checked_index := c }), [s], 0⟩ := by
  rw [parse_content_loop_log]
  rcases parse_line s.buffer s.checked_index s.read_index with ⟨st, b, c⟩
  cases st <;> simp only []
  have hcode := interpret_code s b c
  revert hcode
  unfold interpret
  cases hcs : s.checkstate <;> simp only []
  · intro hcode
    rcases (parse_requestline_facts b s.start_line CHECK_STATE_REQUESTLINE).1 with h | h
    · simp [h.1]
    · simp [h.1]
  · intro hcode
    have hb := parse_headers_ne_bad b s.start_line
    rcases hcode with h | h | h
    · simp [h]
    · exact absurd h hb
    · simp [h]

theorem parse_content_loop_log_stable (f1 : Nat) :
    ∀ (f2 : Nat) (s : Session), s.read_index - s.checked_index + 1 ≤ f1 →
      s.read_index - s.checked_index + 1 ≤ f2 →
      parse_content_loop_log f1 s = parse_content_loop_log f2 s := by
  induction f1 with
  | zero => intro f2 s h; omega
  | succ f ih =>
    intro f2 s h1 h2
    obtain ⟨g, rfl⟩ : ∃ g, f2 = g + 1 := ⟨f2 - 1, by omega⟩
    rw [parse_content_loop_log_succ, parse_content_loop_log_succ]
    rcases hpl : parse_line s.buffer s.checked_index s.read_index with ⟨st, b, c⟩
    cases st <;> simp only []
    have hb := parse_line_ok_bounds _ _ _ _ _ hpl
    have hf := interpret_fields s b c
    rw [ih g (interpret s b c).2 (by rw [hf.1, hf.2.2]; omega) (by rw [hf.1, hf.2.2]; omega)]

/-- One evaluation of the loop condition in the instrumented `parse_content`. -/
theorem parse_content_log_step (s : Session) :
    parse_content_log s =
      match parse_line s.buffer s.checked_index s.read_index with
      | (LINE_OK, b, c) =>
        if (interpret s b c).1 = NO_REQUEST then
          (parse_content_log (interpret s b c).2).after s
        else ⟨interpret s b c, [s], 1⟩
      | (LINE_OPEN, b, c) => ⟨(NO_REQUEST, { s with buffer := b, checked_index := c }), [s], 0⟩
      | (LINE_BAD, b, c) => ⟨(BAD_REQUEST, { s with buffer := b, checked_index := c }), [s], 0⟩ := by
  unfold parse_content_log
  rw [parse_content_loop_log_succ]
  rcases hpl : parse_line s.buffer s.checked_index s.read_index with ⟨st, b, c⟩
  cases st <;> simp only []
  have hb := parse_line_ok_bounds _ _ _ _ _ hpl
  have hf := interpret_fields s b c
  rw [parse_content_loop_log_stable _ ((interpret s b c).2.read_index
    - (interpret s b c).2.checked_index + 1) (interpret s b c).2
    (by rw [hf.1, hf.2.2]; omega) (Nat.le_refl _)]

/-- A rule for the instrumented loop: a relation `R` between a session and a
record holds between `s` and the record of `parse_content` from `s`, if it
holds of the records of the two exits after the loop and of a return from the
loop body, and one more execution of the body keeps it. -/
theorem parse_content_log_rule (R : Session → ContentLog → Prop)
    (hgo : ∀ (s : Session) (b : List Nat) (c : Nat) (l : ContentLog),
      parse_line s.buffer s.checked_index s.read_index = (LINE_OK, b, c) →
      (interpret s b c).1 = NO_REQUEST → R (interpret s b c).2 l → R s (l.after s))
    (hstop : ∀ (s : Session) (b : List Nat) (c : Nat),
      parse_line s.buffer s.checked_index s.read_index = (LINE_OK, b, c) →
      (interpret s b c).1 ≠ NO_REQUEST → R s ⟨interpret s b c, [s], 1⟩)
    (hopen : ∀ (s : Session) (b : List Nat) (c : Nat),
      parse_line s.buffer s.checked_index s.read_index = (LINE_OPEN, b, c) →
      R s ⟨(NO_REQUEST, { s with buffer := b, checked_index := c }), [s], 0⟩)
    (hbad : ∀ (s : Session) (b : List Nat) (c : Nat),
      parse_line s.buffer s.checked_index s.read_index = (LINE_BAD, b, c) →
      R s ⟨(BAD_REQUEST, { s with buffer := b, checked_index := c }), [s], 0⟩) :
    ∀ s : Session, R s (parse_content_log s) := by
  intro s
  obtain ⟨n, hn⟩ : ∃ n, s.read_index - s.checked_index = n := ⟨_, rfl⟩
  induction n using Nat.strong_induction_on generalizing s with
  | _ n ih =>
    rw [parse_content_log_step]
    rcases hpl : parse_line s.buffer s.checked_index s.read_index with ⟨st, b, c⟩
    cases st <;> simp only []
    · have hb := parse_line_ok_bounds _ _ _ _ _ hpl
      have hf := interpret_fields s b c
      by_cases hno : (interpret s b c).1 = NO_REQUEST
      · rw [if_pos hno]
        exact hgo s b c _ hpl hno
          (ih (s.read_index - c) (by omega) _ (by rw [hf.1, hf.2.2]))
      · rw [if_neg hno]
        exact hstop s b c hpl hno
    · exact hbad s b c hpl
    · exact hopen s b c hpl

/-- The instrumented `parse_content` returns what `parse_content` returns. -/
theorem parse_content_log_result (s : Session) :
    (parse_content_log s).result = parse_content s := by
  refine parse_content_log_rule (fun s l => l.result = parse_content s) ?_ ?_ ?_ ?_ s
  · intro s b c l hpl hno h
    rw [parse_content_step, hpl]
    simp only [if_pos hno]
    exact h
  · intro s b c hpl hno
    rw [parse_content_step, hpl]
    simp only [if_neg hno]
  · intro s b c hpl
    rw [parse_content_step, hpl]
  · intro s b c hpl
    rw [parse_content_step, hpl]

/-- A property that every executed line keeps holds at every evaluation of the
loop condition. -/
theorem parse_content_log_heads (P : Session → Prop)
    (hok : ∀ (s : Session) (b : List Nat) (c : Nat), P s →
      parse_line s.buffer s.checked_index s.read_index = (LINE_OK, b, c) →
      (interpret s b c).1 = NO_REQUEST → P (interpret s b c).2)
    (s : Session) (hP : P s) : ∀ h ∈ (parse_content_log s).heads, P h := by
  refine parse_content_log_rule (fun s l => P s → ∀ h ∈ l.heads, P h) ?_ ?_ ?_ ?_ s hP
  · intro s b c l hpl hno ih hP h hh
    rcases List.mem_cons.1 hh with e | e
    · exact e ▸ hP
    · exact ih (hok s b c hP hpl hno) h e
  · intro s b c _ _ hP h hh
    rw [List.mem_singleton.1 hh]; exact hP
  · intro s b c _ hP h hh
    rw [List.mem_singleton.1 hh]; exact hP
  · intro s b c _ hP h hh
    rw [List.mem_singleton.1 hh]; exact hP

/-! ## Where `parse_line` leaves `checked_index` -/

/-- A call with `checked_index ≤ read_index` leaves `checked_index` between its
value at entry and `read_index`; after `LINE_OK` the byte before it was the LF
of the terminator. -/
theorem parse_line_bounds (b : List Nat) (c r : Nat) (h : c ≤ r) :
    c ≤ (parse_line b c r).2.2 ∧ (parse_line b c r).2.2 ≤ r
      ∧ ((parse_line b c r).1 = LINE_OK →
          c < (parse_line b c r).2.2 ∧ b.getD ((parse_line b c r).2.2 - 1) 0 = LF) := by
  obtain ⟨i, hci, hir, _, hcases⟩ := parse_line_spec b c r h
  rcases hcases with ⟨h1, e⟩ | ⟨h1, _, e⟩ | ⟨h1, h2, h3, e⟩ | ⟨h1, _, _, e⟩ | ⟨h1, h2, h3, e⟩
    | ⟨h1, _, _, e⟩ <;> rw [e] <;> simp only []
  · exact ⟨by omega, by omega, fun h => by cases h⟩
  · exact ⟨by omega, by omega, fun h => by cases h⟩
  · exact ⟨by omega, by omega, fun _ => ⟨by omega, by simpa using h3⟩⟩
  · exact ⟨by omega, by omega, fun h => by cases h⟩
  · exact ⟨by omega, by omega, fun _ => ⟨by omega, by simpa using h2⟩⟩
  · exact ⟨by omega, by omega, fun h => by cases h⟩

/-- Function `parse_content` preserves the order of the cursors. -/
theorem parse_content_cursors (s : Session) (h : CursorInv s) :
    CursorInv (parse_content s).2 := by
  refine parse_content_rule CursorInv (fun x => CursorInv x.2) ?_ ?_ ?_ s h
  · intro s b c hP hpl
    have hb := parse_line_ok_bounds _ _ _ _ _ hpl
    have hf := interpret_fields s b c
    have : CursorInv (interpret s b c).2 :=
      ⟨Nat.zero_le _, by rw [hf.1, hf.2.1], by rw [hf.1, hf.2.2]; exact hb.2.1⟩
    exact ⟨fun _ => this, fun _ => this⟩
  · intro s b c hP hpl
    have hb := parse_line_bounds s.buffer s.checked_index s.read_index hP.2.2
    rw [hpl] at hb
    exact ⟨Nat.zero_le _, Nat.le_trans hP.2.1 hb.1, hb.2.1⟩
  · intro s b c hP hpl
    have hb := parse_line_bounds s.buffer s.checked_index s.read_index hP.2.2
    rw [hpl] at hb
    exact ⟨Nat.zero_le _, Nat.le_trans hP.2.1 hb.1, hb.2.1⟩

/-- From the second evaluation of the loop condition on, `start_line` equals
`checked_index`: the loop body has just set it, after a line. -/
theorem parse_content_log_later_heads (s : Session) :
    ∀ h ∈ (parse_content_log s).heads.tail, h.start_line = h.checked_index := by
  rw [parse_content_log_step]
  rcases hpl : parse_line s.buffer s.checked_index s.read_index with ⟨st, b, c⟩
  cases st <;> simp only []
  · have hf := interpret_fields s b c
    by_cases hno : (interpret s b c).1 = NO_REQUEST
    · rw [if_pos hno]
      show ∀ h ∈ (parse_content_log (interpret s b c).2).heads, _
      refine parse_content_log_heads (fun h => h.start_line = h.checked_index) ?_ _
        (by show (interpret s b c).2.start_line = (interpret s b c).2.checked_index
            rw [hf.1, hf.2.1])
      intro s2 b2 c2 _ _ _
      have hf2 := interpret_fields s2 b2 c2
      show (interpret s2 b2 c2).2.start_line = (interpret s2 b2 c2).2.checked_index
      rw [hf2.1, hf2.2.1]
    · rw [if_neg hno]
      intro h hh
      simp at hh
  · intro h hh; simp at hh
  · intro h hh; simp at hh

/-- The interpreter of a line leaves the header phase as it is, and changes the
phase only when `parse_requestline` returns `NO_REQUEST`. -/
theorem interpret_phase (s : Session) (b : List Nat) (c : Nat) :
    (s.checkstate = CHECK_STATE_HEADER → (interpret s b c).2.checkstate = CHECK_STATE_HEADER)
      ∧ ((interpret s b c).2.checkstate ≠ s.checkstate →
          s.checkstate = CHECK_STATE_REQUESTLINE
            ∧ (parse_requestline b s.start_line s.checkstate).code = NO_REQUEST) := by
  unfold interpret
  cases hcs : s.checkstate
  · refine ⟨fun h => (by cases h), fun hne => ⟨rfl, ?_⟩⟩
    rcases (parse_requestline_facts b s.start_line CHECK_STATE_REQUESTLINE).1 with h | h
    · exact absurd h.2 hne
    · exact h.1
  · exact ⟨fun _ => rfl, fun hne => absurd rfl hne⟩

/-- Function `parse_content` entered in the header phase returns in it. -/
theorem parse_content_header_phase (s : Session) (h : s.checkstate = CHECK_STATE_HEADER) :
    (parse_content s).2.checkstate = CHECK_STATE_HEADER := by
  refine parse_content_rule (fun s => s.checkstate = CHECK_STATE_HEADER)
    (fun x => x.2.checkstate = CHECK_STATE_HEADER) ?_ ?_ ?_ s h
  · intro s b c hP _
    have := (interpret_phase s b c).1 hP
    exact ⟨fun _ => this, fun _ => this⟩
  · intro s b c hP _; exact hP
  · intro s b c hP _; exact hP

/-- A sequence of calls that begins in the header phase ends in it. -/
theorem parse_calls_header_phase (chunks : List (List Nat)) :
    ∀ s : Session, s.checkstate = CHECK_STATE_HEADER →
      (parse_calls s chunks).checkstate = CHECK_STATE_HEADER := by
  induction chunks with
  | nil => intro s h; exact h
  | cons d ds ih =>
    intro s h
    rw [parse_calls]
    exact ih _ (parse_content_header_phase (feed s d) h)

/-- A sequence of calls, cut in two. -/
theorem parse_calls_append (xs ys : List (List Nat)) :
    ∀ s : Session, parse_calls s (xs ++ ys) = parse_calls (parse_calls s xs) ys := by
  induction xs with
  | nil => intro s; rfl
  | cons d ds ih => intro s; rw [List.cons_append, parse_calls, parse_calls, ih]

/-- A change of phase during `parse_content` comes from a call of
`parse_requestline`, made in the request-line phase, that returned
`NO_REQUEST`. -/
theorem parse_content_phase_change (s : Session) :
    (parse_content_log s).result.2.checkstate ≠ s.checkstate →
      ∃ h ∈ (parse_content_log s).heads, ∃ (b : List Nat) (c : Nat),
        parse_line h.buffer h.checked_index h.read_index = (LINE_OK, b, c)
          ∧ h.checkstate = CHECK_STATE_REQUESTLINE
          ∧ (parse_requestline b h.start_line h.checkstate).code = NO_REQUEST := by
  refine parse_content_log_rule (fun s l => l.result.2.checkstate ≠ s.checkstate →
      ∃ h ∈ l.heads, ∃ (b : List Nat) (c : Nat),
        parse_line h.buffer h.checked_index h.read_index = (LINE_OK, b, c)
          ∧ h.checkstate = CHECK_STATE_REQUESTLINE
          ∧ (parse_requestline b h.start_line h.checkstate).code = NO_REQUEST) ?_ ?_ ?_ ?_ s
  · intro s b c l hpl hno ih hne
    by_cases hch : (interpret s b c).2.checkstate = s.checkstate
    · obtain ⟨h, hh, rest⟩ := ih (by rw [hch]; exact hne)
      exact ⟨h, List.mem_cons_of_mem _ hh, rest⟩
    · have := (interpret_phase s b c).2 hch
      exact ⟨s, List.mem_cons_self _ _, b, c, hpl, this.1, this.2⟩
  · intro s b c hpl hno hne
    have := (interpret_phase s b c).2 hne
    exact ⟨s, List.mem_singleton.2 rfl, b, c, hpl, this.1, this.2⟩
  · intro s b c _ hne; exact absurd rfl hne
  · intro s b c _ hne; exact absurd rfl hne


/-! ## The exact condition of acceptance of a request line -/

/-- A target token with an effective target begins with a slash, or with
`http://` followed by a string that holds a slash. -/
theorem effective_target_some (T u : List Nat) (h : effective_target T = some u) :
    T ≠ [] ∧ (T.head? = some SLASH ∨ (lower (T.take 7) = lit_http ∧ SLASH ∈ T.drop 7)) := by
  unfold effective_target at h
  by_cases h7 : lower (T.take 7) = lit_http
  · rw [if_pos h7] at h
    have hne : T ≠ [] := by
      rintro rfl
      revert h7; decide
    refine ⟨hne, Or.inr ⟨h7, ?_⟩⟩
    cases hd : (T.drop 7).dropWhile notslash with
    | nil => rw [hd] at h; cases h
    | cons c x =>
      have hc := List.head_dropWhile_not notslash (T.drop 7) (by rw [hd]; simp)
      simp only [hd, List.head_cons] at hc
      have hcs : c = SLASH := by simpa [notslash] using hc
      have hmem : c ∈ (T.drop 7).dropWhile notslash := by rw [hd]; exact List.mem_cons_self _ _
      rw [← hcs]
      exact (List.dropWhile_sublist notslash).subset hmem
  · rw [if_neg h7] at h
    by_cases hs : T.headD 0 = SLASH
    · cases T with
      | nil => revert hs; decide
      | cons c T' =>
        refine ⟨by simp, Or.inl ?_⟩
        simpa using hs
    · rw [if_pos hs] at h; cases h

/-- A token that begins with `http://` followed by a string that holds a slash
has an effective target. -/
theorem effective_target_of_prefix (T : List Nat) (h7 : lower (T.take 7) = lit_http)
    (hs : SLASH ∈ T.drop 7) : ∃ u, effective_target T = some u := by
  unfold effective_target
  rw [if_pos h7]
  cases hd : (T.drop 7).dropWhile notslash with
  | nil =>
    have hsplit := List.takeWhile_append_dropWhile notslash (T.drop 7)
    rw [hd, List.append_nil] at hsplit
    rw [← hsplit] at hs
    have := List.mem_takeWhile_imp hs
    simp [notslash] at this
  | cons c x => exact ⟨_, rfl⟩

/-- Function `reqline_spec` returns `NO_REQUEST` for the lines of the form
`WellFormedLine`, and for them only. -/
theorem reqline_spec_no_iff (a : List Nat) :
    (reqline_spec a).1 = NO_REQUEST ↔ WellFormedLine a := by
  constructor
  · intro h
    have hs1 := List.takeWhile_append_dropWhile notws a
    unfold reqline_spec at h
    cases hd : a.dropWhile notws with
    | nil => rw [hd] at h; cases h
    | cons c1 t1 =>
      rw [hd] at h hs1
      simp only [] at h
      by_cases hm : lower (a.takeWhile notws) = lower lit_GET
      · rw [if_neg (fun hh => hh hm)] at h
        simp only [] at h
        have hs2 := List.takeWhile_append_dropWhile isws t1
        have hs3 := List.takeWhile_append_dropWhile notws (t1.dropWhile isws)
        unfold version_spec at h
        cases hd2 : (t1.dropWhile isws).dropWhile notws with
        | nil => rw [hd2] at h; cases h
        | cons c2 t3 =>
          rw [hd2] at h hs3
          simp only [] at h
          by_cases hv : lower (t3.dropWhile isws) = lower lit_HTTP11
          · rw [if_neg (fun hh => hh hv)] at h
            cases het : effective_target ((t1.dropWhile isws).takeWhile notws) with
            | none => rw [het] at h; cases h
            | some u =>
              have hT := effective_target_some _ _ het
              refine ⟨a.takeWhile notws, c1 :: t1.takeWhile isws,
                (t1.dropWhile isws).takeWhile notws, c2 :: t3.takeWhile isws,
                t3.dropWhile isws, ?_, hm, ⟨by simp, ?_⟩, ⟨hT.1, ?_, hT.2⟩, ⟨by simp, ?_⟩, hv⟩
              · have hs4 := List.takeWhile_append_dropWhile isws t3
                conv_lhs => rw [← hs1, ← hs2, ← hs3, ← hs4]
                simp only [List.append_assoc, List.cons_append]
              · intro b hb
                rcases List.mem_cons.1 hb with e | e
                · rw [e]; exact dropWhile_notws_head a t1 c1 hd
                · exact takeWhile_isws_spec t1 b e
              · intro b hb
                exact (notws_iff b).1 (List.mem_takeWhile_imp hb)
              · intro b hb
                rcases List.mem_cons.1 hb with e | e
                · rw [e]; exact dropWhile_notws_head _ t3 c2 hd2
                · exact takeWhile_isws_spec t3 b e
          · rw [if_pos hv] at h; cases h
      · rw [if_pos hm] at h; cases h
  · rintro ⟨M, W1, T, W2, V, hline, hM, hW1, hT, hW2, hV⟩
    obtain ⟨c1, W1', rfl⟩ := List.exists_cons_of_ne_nil hW1.1
    obtain ⟨c2, W2', rfl⟩ := List.exists_cons_of_ne_nil hW2.1
    have e : M ++ c1 :: W1' ++ T ++ c2 :: W2' ++ V
        = M ++ c1 :: (W1' ++ (T ++ c2 :: (W2' ++ V))) := by simp
    have hspec := reqline_spec_accept M W1' T W2' V c1 c2 hM
      (hW1.2 c1 (List.mem_cons_self _ _)) (fun b hb => hW1.2 b (List.mem_cons_of_mem _ hb))
      hT.1 hT.2.1 (hW2.2 c2 (List.mem_cons_self _ _))
      (fun b hb => hW2.2 b (List.mem_cons_of_mem _ hb)) hV
    have hu : ∃ u, effective_target T = some u := by
      rcases hT.2.2 with h | h
      · cases T with
        | nil => simp at h
        | cons c T' =>
          have hc : c = SLASH := by simpa using h
          subst hc
          exact ⟨_, effective_target_slash T'⟩
      · exact effective_target_of_prefix T h.1 h.2
    obtain ⟨u, hu⟩ := hu
    rw [hline, e, hspec, hu]


/-! ## A second call without new data -/

/-- Where `parse_line` returned `LINE_OPEN`, a second call from the index it
left returns `LINE_OPEN` at once; the buffer is the one given. -/
theorem parse_line_open_again (b b2 : List Nat) (c r c2 : Nat)
    (h : parse_line b c r = (LINE_OPEN, b2, c2)) :
    b2 = b ∧ parse_line b c2 r = (LINE_OPEN, b, c2) := by
  by_cases hcr : c ≤ r
  · obtain ⟨i, hci, hir, _, hcases⟩ := parse_line_spec b c r hcr
    rcases hcases with ⟨h1, e⟩ | ⟨h1, h2, e⟩ | ⟨_, _, _, e⟩ | ⟨_, _, _, e⟩ | ⟨_, _, _, e⟩
      | ⟨_, _, _, e⟩ <;> rw [e] at h <;> simp only [Prod.mk.injEq] at h
    · obtain ⟨_, hb, hc⟩ := h
      subst hb; subst hc
      exact ⟨rfl, parse_line_end _ _ _ (Nat.le_refl _)⟩
    · obtain ⟨_, hb, hc⟩ := h
      subst hb; subst hc
      refine ⟨rfl, ?_⟩
      rw [parse_line_at _ _ _ (by omega), if_pos h2, if_pos h1.symm]
    · exact absurd h.1 (by decide)
    · exact absurd h.1 (by decide)
    · exact absurd h.1 (by decide)
    · exact absurd h.1 (by decide)
  · have e := parse_line_end b c r (by omega)
    rw [e] at h
    simp only [Prod.mk.injEq] at h
    obtain ⟨_, hb, hc⟩ := h
    subst hb; subst hc
    exact ⟨rfl, e⟩

/-- Where `parse_content` returns `NO_REQUEST`, `parse_line` called on the
session it leaves returns `LINE_OPEN` and changes nothing. -/
theorem parse_content_no_request_open (s : Session) :
    (parse_content s).1 = NO_REQUEST →
      parse_line (parse_content s).2.buffer (parse_content s).2.checked_index
          (parse_content s).2.read_index
        = (LINE_OPEN, (parse_content s).2.buffer, (parse_content s).2.checked_index) := by
  refine parse_content_rule (fun _ => True)
    (fun x => x.1 = NO_REQUEST →
      parse_line x.2.buffer x.2.checked_index x.2.read_index
        = (LINE_OPEN, x.2.buffer, x.2.checked_index)) ?_ ?_ ?_ s trivial
  · intro s b c _ _
    exact ⟨fun _ => trivial, fun hne hno => absurd hno hne⟩
  · intro s b c _ hpl _
    have h := parse_line_open_again _ _ _ _ _ hpl
    show parse_line b c s.read_index = (LINE_OPEN, b, c)
    rw [h.1]; exact h.2
  · intro s b c _ _ hno
    cases hno

/-! ## The number of iterations -/

/-- The loop body of `parse_content` is executed at most
`read_index - checked_index` times, and `checked_index` does not decrease. -/
theorem parse_content_log_iterations (s : Session) :
    (parse_content_log s).iterations ≤ s.read_index - s.checked_index
      ∧ (s.checked_index ≤ s.read_index →
          s.checked_index ≤ (parse_content_log s).result.2.checked_index) := by
  refine parse_content_log_rule (fun s l => l.iterations ≤ s.read_index - s.checked_index
      ∧ (s.checked_index ≤ s.read_index → s.checked_index ≤ l.result.2.checked_index))
    ?_ ?_ ?_ ?_ s
  · intro s b c l hpl _ ih
    have hb := parse_line_ok_bounds _ _ _ _ _ hpl
    have hf := interpret_fields s b c
    rw [hf.1, hf.2.2] at ih
    refine ⟨?_, fun _ => ?_⟩
    · show l.iterations + 1 ≤ _
      omega
    · show s.checked_index ≤ l.result.2.checked_index
      have := ih.2 hb.2.1
      omega
  · intro s b c hpl _
    have hb := parse_line_ok_bounds _ _ _ _ _ hpl
    have hf := interpret_fields s b c
    refine ⟨?_, fun _ => ?_⟩
    · show 1 ≤ _
      omega
    · show s.checked_index ≤ (interpret s b c).2.checked_index
      rw [hf.1]; omega
  · intro s b c hpl
    refine ⟨Nat.zero_le _, fun hle => ?_⟩
    have hb := parse_line_bounds s.buffer s.checked_index s.read_index hle
    rw [hpl] at hb
    exact hb.1
  · intro s b c hpl
    refine ⟨Nat.zero_le _, fun hle => ?_⟩
    have hb := parse_line_bounds s.buffer s.checked_index s.read_index hle
    rw [hpl] at hb
    exact hb.1

/-- The result of `parse_content` is one of the codes of its `return`
statements: the loop of the model never runs out of iterations. -/
theorem parse_content_returns (s : Session) : (parse_content s).1 ≠ INTERNAL_ERROR := by
  refine parse_content_rule (fun _ => True) (fun x => x.1 ≠ INTERNAL_ERROR) ?_ ?_ ?_ s trivial
  · intro s b c _ _
    refine ⟨fun _ => trivial, fun _ => ?_⟩
    rcases interpret_code s b c with h | h | h <;> rw [h] <;> decide
  · intro s b c _ _; exact fun h => (by cases h)
  · intro s b c _ _; exact fun h => (by cases h)

/-! ## The buffer accesses of `parse_line` -/

/-- Every access of the loop of `parse_line` is at an index of `[0, r)`; every
read is at `c` or after it, but for the look-back of line 75 when the byte at
`c` is a line feed and `c > 1`. -/
theorem parse_line_loop_log_accesses (b : List Nat) (r : Nat) :
    ∀ (fuel c : Nat), ∀ a ∈ (parse_line_loop_log fuel b c r).2,
      (0 ≤ a.index ∧ a.index < r)
        ∧ ((c : Int) ≤ a.index
            ∨ (a = Access.read ((c : Int) - 1) ∧ 1 < c ∧ c < r ∧ b.getD c 0 = LF)
            ∨ (a = Access.write ((c : Int) - 1) ∧ 1 < c ∧ c < r ∧ b.getD c 0 = LF)) := by
  intro fuel
  induction fuel with
  | zero => intro c a ha; simp [parse_line_loop_log] at ha
  | succ f ih =>
    intro c a ha
    rw [parse_line_loop_log] at ha
    by_cases hlt : c < r
    · rw [if_pos hlt] at ha
      simp only [] at ha
      by_cases hcr : b.getD c 0 = CR
      · rw [if_pos hcr] at ha
        by_cases h1 : r = c + 1
        · rw [if_pos h1] at ha
          simp only [List.mem_singleton] at ha
          subst ha
          simp only [Access.index]
          omega
        · rw [if_neg h1] at ha
          by_cases hlf : b.getD (c + 1) 0 = LF
          · rw [if_pos hlf] at ha
            simp only [List.mem_cons, List.mem_singleton, List.not_mem_nil, or_false] at ha
            rcases ha with e | e | e | e <;> subst e <;> simp only [Access.index] <;> omega
          · rw [if_neg hlf] at ha
            simp only [List.mem_cons, List.mem_singleton, List.not_mem_nil, or_false] at ha
            rcases ha with e | e <;> subst e <;> simp only [Access.index] <;> omega
      · rw [if_neg hcr] at ha
        by_cases hlf : b.getD c 0 = LF
        · rw [if_pos hlf] at ha
          by_cases hc1 : c > 1
          · rw [if_pos hc1] at ha
            by_cases hp : b.getD (c - 1) 0 = CR
            · rw [if_pos hp] at ha
              simp only [List.mem_cons, List.mem_singleton, List.not_mem_nil, or_false] at ha
              rcases ha with e | e | e | e <;> subst e <;> simp only [Access.index]
              · omega
              · exact ⟨by omega, Or.inr (Or.inl ⟨trivial, hc1, hlt, hlf⟩)⟩
              · exact ⟨by omega, Or.inr (Or.inr ⟨trivial, hc1, hlt, hlf⟩)⟩
              · omega
            · rw [if_neg hp] at ha
              simp only [List.mem_cons, List.mem_singleton, List.not_mem_nil, or_false] at ha
              rcases ha with e | e <;> subst e <;> simp only [Access.index]
              · omega
              · exact ⟨by omega, Or.inr (Or.inl ⟨trivial, hc1, hlt, hlf⟩)⟩
          · rw [if_neg hc1] at ha
            simp only [List.mem_singleton] at ha
            subst ha
            simp only [Access.index]
            omega
        · rw [if_neg hlf] at ha
          simp only [List.mem_cons] at ha
          rcases ha with e | e
          · subst e
            simp only [Access.index]
            omega
          · have h := ih (c + 1) a e
            refine ⟨h.1, Or.inl ?_⟩
            rcases h.2 with h2 | ⟨e2, _⟩ | ⟨e2, _⟩
            · omega
            · subst e2; simp only [Access.index]; push_cast; omega
            · subst e2; simp only [Access.index]; push_cast; omega
    · rw [if_neg hlt] at ha
      simp at ha


/-! ## The byte before `checked_index` -/

/-- Function `store` leaves the bytes before index `i`. -/
theorem store_getD_lt (d : List Nat) :
    ∀ (b : List Nat) (i j : Nat), j < i → (store b i d).getD j 0 = b.getD j 0 := by
  induction d with
  | nil => intro b i j _; rfl
  | cons x xs ih =>
    intro b i j h
    rw [store, ih _ _ _ (by omega), getD_set_ne _ _ _ _ (by omega)]

/-- Storing a byte and reading it back gives the byte or, outside the list, 0. -/
theorem getD_set_self_zero (b : List Nat) (i : Nat) : (b.set i 0).getD i 0 = 0 := by
  rw [getD_set_eq]
  split_ifs with h
  · rfl
  · have : b.length ≤ i := by
      by_contra hlt
      exact h ⟨rfl, by omega⟩
    simp [List.getD_eq_getElem?_getD, List.getElem?_eq_none this]

/-- Where the scan of `parse_line` meets a line feed at `i`, not preceded by an
unconsumed carriage return at the entry position, the result is `LINE_BAD`. -/
theorem parse_line_lf_bad (b : List Nat) (c r i : Nat)
    (hpre : 1 ≤ c → b.getD (c - 1) 0 ≠ CR) (hci : c ≤ i) (hir : i < r)
    (hno : NoCRLF b c i) (hlf : b.getD i 0 = LF) :
    parse_line b c r = (LINE_BAD, b, i) := by
  rw [parse_line_skip b c i r hci (by omega) hno, parse_line_at _ _ _ hir]
  have h1 : ¬ (b.getD i 0 = CR) := by rw [hlf]; decide
  have h2 : ¬ (i > 1 ∧ b.getD (i - 1) 0 = CR) := by
    rintro ⟨hi, hcr⟩
    by_cases e : i = c
    · subst e; exact hpre (by omega) hcr
    · exact (hno (i - 1) (by omega) (by omega)).1 hcr
  rw [if_neg h1, if_pos hlf, if_neg h2]

/-- Under the same condition every `LINE_OK` comes from the CR branch: the scan
stopped at a carriage return at `i`, followed by a line feed. -/
theorem parse_line_ok_cr (b b2 : List Nat) (c r c2 : Nat) (hle : c ≤ r)
    (hpre : 1 ≤ c → b.getD (c - 1) 0 ≠ CR)
    (hok : parse_line b c r = (LINE_OK, b2, c2)) :
    ∃ i, c ≤ i ∧ i + 1 < r ∧ NoCRLF b c i ∧ b.getD i 0 = CR ∧ b.getD (i + 1) 0 = LF
      ∧ b2 = (b.set i 0).set (i + 1) 0 ∧ c2 = i + 2 := by
  obtain ⟨i, hci, hir, hno, hcases⟩ := parse_line_spec b c r hle
  rcases hcases with ⟨_, e⟩ | ⟨_, _, e⟩ | ⟨h1, h2, h3, e⟩ | ⟨_, _, _, e⟩ | ⟨h1, h2, h3, e⟩
    | ⟨_, _, _, e⟩
  · rw [e] at hok; cases hok
  · rw [e] at hok; cases hok
  · rw [e] at hok
    simp only [Prod.mk.injEq] at hok
    exact ⟨i, hci, h1, hno, h2, h3, hok.2.1.symm, hok.2.2.symm⟩
  · rw [e] at hok; cases hok
  · have := parse_line_lf_bad b c r i hpre hci h1 hno h2
    rw [this] at e
    cases e
  · rw [e] at hok; cases hok

/-- Function `parse_line` does not leave `checked_index` just after a carriage
return, if it was not given it so. -/
theorem parse_line_not_after_cr (b : List Nat) (c r : Nat) (hle : c ≤ r)
    (hpre : 1 ≤ c → b.getD (c - 1) 0 ≠ CR) :
    ((parse_line b c r).1 = LINE_OK →
        (parse_line b c r).2.1.getD ((parse_line b c r).2.2 - 1) 0 = 0)
      ∧ ((parse_line b c r).1 ≠ LINE_OK → 1 ≤ (parse_line b c r).2.2 →
        (parse_line b c r).2.1.getD ((parse_line b c r).2.2 - 1) 0 ≠ CR) := by
  have stay : ∀ i, c ≤ i → NoCRLF b c i → 1 ≤ i → b.getD (i - 1) 0 ≠ CR := by
    intro i hci hno hi
    by_cases e : i = c
    · subst e; exact hpre hi
    · exact (hno (i - 1) (by omega) (by omega)).1
  obtain ⟨i, hci, hir, hno, hcases⟩ := parse_line_spec b c r hle
  rcases hcases with ⟨h1, e⟩ | ⟨_, _, e⟩ | ⟨h1, h2, h3, e⟩ | ⟨_, _, _, e⟩ | ⟨h1, h2, h3, e⟩
    | ⟨_, _, _, e⟩ <;> rw [e] <;> simp only []
  · subst h1
    exact ⟨fun h => (by cases h), fun _ => stay i hci hno⟩
  · exact ⟨fun h => (by cases h), fun _ => stay i hci hno⟩
  · refine ⟨fun _ => ?_, fun h => absurd rfl h⟩
    show ((b.set i 0).set (i + 1) 0).getD (i + 2 - 1) 0 = 0
    exact getD_set_self_zero _ _
  · exact ⟨fun h => (by cases h), fun _ => stay i hci hno⟩
  · refine ⟨fun _ => ?_, fun h => absurd rfl h⟩
    show ((b.set (i - 1) 0).set i 0).getD (i + 1 - 1) 0 = 0
    exact getD_set_self_zero _ _
  · exact ⟨fun h => (by cases h), fun _ => stay i hci hno⟩

/-- After the interpreter of a line, the byte before `checked_index` is the one
`parse_line` left there, or NUL. -/
theorem interpret_byte (s : Session) (b : List Nat) (c j : Nat) :
    (interpret s b c).2.buffer.getD j 0 = b.getD j 0
      ∨ (interpret s b c).2.buffer.getD j 0 = 0 := by
  unfold interpret
  cases s.checkstate
  · exact (parse_requestline_bytes b s.start_line CHECK_STATE_REQUESTLINE j).1
  · exact Or.inl rfl

/-- The condition kept by the loop of `parse_content` and by `recv`. -/
theorem interpret_not_after_cr (s : Session) (b : List Nat) (c : Nat)
    (h : NotAfterCR s ∧ s.checked_index ≤ s.read_index)
    (hpl : parse_line s.buffer s.checked_index s.read_index = (LINE_OK, b, c)) :
    NotAfterCR (interpret s b c).2
      ∧ (interpret s b c).2.checked_index ≤ (interpret s b c).2.read_index := by
  have hf := interpret_fields s b c
  have hb := parse_line_ok_bounds _ _ _ _ _ hpl
  have hz := (parse_line_not_after_cr s.buffer s.checked_index s.read_index h.2 h.1).1
    (by rw [hpl])
  rw [hpl] at hz
  simp only [] at hz
  refine ⟨fun _ => ?_, by rw [hf.1, hf.2.2]; exact hb.2.1⟩
  rw [hf.1]
  rcases interpret_byte s b c (c - 1) with e | e <;> rw [e]
  · rw [hz]; decide
  · decide

/-- Function `parse_content` keeps the condition. -/
theorem parse_content_not_after_cr (s : Session)
    (h : NotAfterCR s ∧ s.checked_index ≤ s.read_index) :
    NotAfterCR (parse_content s).2
      ∧ (parse_content s).2.checked_index ≤ (parse_content s).2.read_index := by
  refine parse_content_rule (fun s => NotAfterCR s ∧ s.checked_index ≤ s.read_index)
    (fun x => NotAfterCR x.2 ∧ x.2.checked_index ≤ x.2.read_index) ?_ ?_ ?_ s h
  · intro s b c hP hpl
    have := interpret_not_after_cr s b c hP hpl
    exact ⟨fun _ => this, fun _ => this⟩
  · intro s b c hP hpl
    have hn := (parse_line_not_after_cr s.buffer s.checked_index s.read_index hP.2 hP.1).2
    have hb := parse_line_bounds s.buffer s.checked_index s.read_index hP.2
    rw [hpl] at hn hb
    exact ⟨fun h1 => hn (fun h => (by cases h)) h1, hb.2.1⟩
  · intro s b c hP hpl
    have hn := (parse_line_not_after_cr s.buffer s.checked_index s.read_index hP.2 hP.1).2
    have hb := parse_line_bounds s.buffer s.checked_index s.read_index hP.2
    rw [hpl] at hn hb
    exact ⟨fun h1 => hn (fun h => (by cases h)) h1, hb.2.1⟩

/-- Receiving bytes keeps the condition: they are stored from `read_index` on. -/
theorem feed_not_after_cr (s : Session) (d : List Nat)
    (h : NotAfterCR s ∧ s.checked_index ≤ s.read_index) :
    NotAfterCR (feed s d) ∧ (feed s d).checked_index ≤ (feed s d).read_index := by
  refine ⟨fun h1 => ?_, ?_⟩
  · show (store s.buffer s.read_index d).getD (s.checked_index - 1) 0 ≠ CR
    have h1 : 1 ≤ s.checked_index := h1
    rw [store_getD_lt d _ _ _ (by omega)]
    exact h.1 h1
  · show s.checked_index ≤ s.read_index + d.length
    omega

/-- The condition holds in every session that the receive loop reaches. -/
theorem reachable_inv (st : Stage) (s : Session) (h : Reachable st s) :
    NotAfterCR s ∧ s.checked_index ≤ s.read_index := by
  induction h with
  | fresh => exact ⟨fun h => absurd h (by decide), Nat.le_refl _⟩
  | more s d _ _ _ ih => exact parse_content_not_after_cr _ (feed_not_after_cr s d ih)
  | done s d _ _ _ ih => exact parse_content_not_after_cr _ (feed_not_after_cr s d ih)


/-! ## Claims on the line extractor -/

/-- Claim C3 (CRLF split across reads).  When the bytes of
`[checked_index, read_index - 1)` hold no CR and no LF and the last received
byte is CR, `parse_line` returns `LINE_OPEN`, leaves `checked_index` at that CR
and leaves the buffer as it is, and `parse_content` returns `NO_REQUEST`.  When
there is room for one more byte and LF is then received, the next `parse_line`
returns `LINE_OK`, moves `checked_index` to the new `read_index`, and the
buffer it leaves has 0 at the places of the CR and of the LF and every other
byte as before. -/
theorem crlf_split_across_reads (s : Session)
    (hlt : s.checked_index < s.read_index)
    (hno : NoCRLF s.buffer s.checked_index (s.read_index - 1))
    (hcr : s.buffer.getD (s.read_index - 1) 0 = CR) :
    parse_line s.buffer s.checked_index s.read_index
        = (LINE_OPEN, s.buffer, s.read_index - 1)
      ∧ parse_content s = (NO_REQUEST, { s with checked_index := s.read_index - 1 })
      ∧ (s.read_index < s.buffer.length →
          let s2 := feed (parse_content s).2 [LF]
          let r := parse_line s2.buffer s2.checked_index s2.read_index
          s2.read_index = s.read_index + 1
            ∧ r.1 = LINE_OK
            ∧ r.2.2 = s2.read_index
            ∧ r.2.1.length = s2.buffer.length
            ∧ ∀ j, r.2.1.getD j 0
                = if j = s.read_index - 1 ∨ j = s.read_index then 0 else s2.buffer.getD j 0) := by
  have hopen : parse_line s.buffer s.checked_index s.read_index
      = (LINE_OPEN, s.buffer, s.read_index - 1) := by
    rw [parse_line_skip s.buffer s.checked_index (s.read_index - 1) s.read_index
      (by omega) (by omega) hno, parse_line_at _ _ _ (by omega)]
    have e : s.read_index = s.read_index - 1 + 1 := by omega
    simp only [hcr, if_true]
    rw [if_pos e]
  have hpc := parse_content_of_open s _ _ hopen
  refine ⟨hopen, hpc, ?_⟩
  intro hroom
  simp only [hpc, feed, store_one, List.length_singleton]
  have h1 : (s.buffer.set s.read_index LF).getD (s.read_index - 1) 0 = CR := by
    rw [getD_set_ne _ _ _ _ (by omega)]; exact hcr
  have h2 : (s.buffer.set s.read_index LF).getD (s.read_index - 1 + 1) 0 = LF := by
    rw [getD_set_eq]
    have e : s.read_index = s.read_index - 1 + 1 := by omega
    simp [← e, hroom]
  rw [parse_line_at _ _ _ (by omega)]
  simp only [h1, h2, if_true]
  rw [if_neg (by omega)]
  refine ⟨trivial, rfl, by show s.read_index - 1 + 2 = s.read_index + 1; omega, by simp, ?_⟩
  intro j
  show (((s.buffer.set s.read_index LF).set (s.read_index - 1) 0).set
      (s.read_index - 1 + 1) 0).getD j 0 = _
  have e : s.read_index - 1 + 1 = s.read_index := by omega
  rw [e]
  simp only [getD_set_eq, List.length_set]
  by_cases hj1 : j = s.read_index - 1
  · subst hj1
    have : s.read_index - 1 < s.buffer.length := by omega
    have hne : ¬ s.read_index = s.read_index - 1 := by omega
    simp [this, hne]
  · by_cases hj2 : j = s.read_index
    · subst hj2; simp [hroom]
    · have a1 : ¬ s.read_index = j := fun h => hj2 h.symm
      have a2 : ¬ s.read_index - 1 = j := fun h => hj1 h.symm
      simp [a1, a2, hj1, hj2]

/-- Claim C4 (bare LF is rejected).  When the first CR-or-LF byte of
`[checked_index, read_index)` is an LF at index `i`, and `i = 0` or the byte
before it is not CR, `parse_line` returns `LINE_BAD` and `parse_content` returns
`BAD_REQUEST`, whatever the phase. -/
theorem bare_lf_rejected (s : Session) (i : Nat)
    (hci : s.checked_index ≤ i) (hir : i < s.read_index)
    (hno : NoCRLF s.buffer s.checked_index i)
    (hlf : s.buffer.getD i 0 = LF)
    (hprev : i = 0 ∨ s.buffer.getD (i - 1) 0 ≠ CR) :
    parse_line s.buffer s.checked_index s.read_index = (LINE_BAD, s.buffer, i)
      ∧ parse_content s = (BAD_REQUEST, { s with checked_index := i }) := by
  have hbad : parse_line s.buffer s.checked_index s.read_index = (LINE_BAD, s.buffer, i) := by
    rw [parse_line_skip s.buffer s.checked_index i s.read_index hci (by omega) hno,
      parse_line_at _ _ _ hir]
    have h1 : ¬ (s.buffer.getD i 0 = CR) := by rw [hlf]; decide
    have h2 : ¬ (i > 1 ∧ s.buffer.getD (i - 1) 0 = CR) := by
      rcases hprev with h | h
      · omega
      · exact fun hh => h hh.2
    rw [if_neg h1, if_pos hlf, if_neg h2]
  exact ⟨hbad, parse_content_of_bad s _ _ hbad⟩

/-- Claim C10 (CR not followed by LF).  When the first CR-or-LF byte of
`[checked_index, read_index)` is a CR at index `i`, a further byte has been
received and it is not LF, `parse_line` returns `LINE_BAD` with the buffer as it
was, and `parse_content` returns `BAD_REQUEST`. -/
theorem cr_without_lf_malformed (s : Session) (i : Nat)
    (hci : s.checked_index ≤ i) (hir : i + 1 < s.read_index)
    (hno : NoCRLF s.buffer s.checked_index i)
    (hcr : s.buffer.getD i 0 = CR)
    (hnext : s.buffer.getD (i + 1) 0 ≠ LF) :
    parse_line s.buffer s.checked_index s.read_index = (LINE_BAD, s.buffer, i)
      ∧ parse_content s = (BAD_REQUEST, { s with checked_index := i }) := by
  have hbad : parse_line s.buffer s.checked_index s.read_index = (LINE_BAD, s.buffer, i) := by
    rw [parse_line_skip s.buffer s.checked_index i s.read_index hci (by omega) hno,
      parse_line_at _ _ _ (by omega)]
    simp only [hcr, hnext, if_true, if_false]
    rw [if_neg (by omega)]
  exact ⟨hbad, parse_content_of_bad s _ _ hbad⟩

/-- Instance of C3: `GET` followed by CR has been received, then LF arrives. -/
theorem crlf_split_across_reads_witness :
    parse_line ex_split.buffer 0 4 = (LINE_OPEN, ex_split.buffer, 3)
      ∧ parse_content ex_split = (NO_REQUEST, { ex_split with checked_index := 3 })
      ∧ (parse_line (feed (parse_content ex_split).2 [LF]).buffer 3 5).1 = LINE_OK :=
  have h := crlf_split_across_reads ex_split (by decide) (by decide) (by decide)
  ⟨h.1, h.2.1, (h.2.2 (by decide)).2.1⟩

/-- Instance of C4: a line feed that follows `GE` directly. -/
theorem bare_lf_rejected_witness :
    parse_line ex_bare_lf.buffer 0 4 = (LINE_BAD, ex_bare_lf.buffer, 2)
      ∧ (parse_content ex_bare_lf).1 = BAD_REQUEST :=
  have h := bare_lf_rejected ex_bare_lf 2 (by decide) (by decide) (by decide) (by decide)
    (Or.inr (by decide))
  ⟨h.1, by rw [h.2]⟩

/-- Instance of C10: a carriage return followed by `X`. -/
theorem cr_without_lf_malformed_witness :
    parse_line ex_bare_cr.buffer 0 4 = (LINE_BAD, ex_bare_cr.buffer, 2)
      ∧ (parse_content ex_bare_cr).1 = BAD_REQUEST :=
  have h := cr_without_lf_malformed ex_bare_cr 2 (by decide) (by decide) (by decide)
    (by decide) (by decide)
  ⟨h.1, by rw [h.2]⟩

/-! ## Claims on the header interpreter -/

/-- Claim C9, amended (header interpreter result).  For a header line `l` of
bytes other than CR and LF that lies between `start_line` and its CRLF
terminator, `parse_line` returns `LINE_OK` and `parse_headers`, called as
`parse_content` calls it, returns `GET_REQUEST` if and only if the line is empty
or begins with a NUL byte, `NO_REQUEST` for every other line whether or not it
is a `Host:` header, and never `BAD_REQUEST`. -/
theorem header_interpreter_result (s : Session) (pre l rest : List Nat)
    (hbuf : s.buffer = pre ++ l ++ CR :: LF :: rest)
    (hstart : s.start_line = pre.length)
    (hc1 : s.start_line ≤ s.checked_index)
    (hc2 : s.checked_index ≤ s.start_line + l.length)
    (hr : s.start_line + l.length + 2 ≤ s.read_index)
    (hl : ∀ b ∈ l, b ≠ CR ∧ b ≠ LF) :
    (parse_line s.buffer s.checked_index s.read_index).1 = LINE_OK
      ∧ ((parse_headers (parse_line s.buffer s.checked_index s.read_index).2.1
            s.start_line).1 = GET_REQUEST ↔ (l = [] ∨ l.head? = some 0))
      ∧ ((parse_headers (parse_line s.buffer s.checked_index s.read_index).2.1
            s.start_line).1 = NO_REQUEST ↔ ¬ (l = [] ∨ l.head? = some 0))
      ∧ (parse_headers (parse_line s.buffer s.checked_index s.read_index).2.1
            s.start_line).1 ≠ BAD_REQUEST := by
  have hpl := parse_line_crlf (pre ++ l) rest s.checked_index s.read_index
    (by rw [List.length_append]; omega) (by rw [List.length_append]; omega)
    (noCRLF_of_forall pre l _ s.checked_index (by omega) hl)
  rw [← hbuf] at hpl
  rw [hpl]
  have hhead : (pre ++ l ++ 0 :: 0 :: rest).getD s.start_line 0 = 0
      ↔ (l = [] ∨ l.head? = some 0) := by
    rw [hstart, List.append_assoc]
    have := getD_append_add pre (l ++ 0 :: 0 :: rest) 0
    rw [Nat.add_zero] at this
    rw [this]
    cases l with
    | nil => simp
    | cons b t => simp
  refine ⟨rfl, ?_, ?_, parse_headers_ne_bad _ _⟩
  · rw [parse_headers_get_iff]; exact hhead
  · rw [parse_headers_no_iff, ← hhead]

/-- Claim C9 as stated fails: the header line made of the two bytes NUL and `A`
has non-zero length, yet the header interpreter returns `GET_REQUEST` for it and
`parse_content` accepts the request. -/
theorem header_nul_line_counterexample :
    ex_nul_header.buffer = [] ++ [0, 65] ++ CR :: LF :: [0, 0, 0, 0]
      ∧ ([0, 65] : List Nat).length ≠ 0
      ∧ parse_line ex_nul_header.buffer 0 4 = (LINE_OK, [0, 65, 0, 0, 0, 0, 0, 0], 4)
      ∧ (parse_headers [0, 65, 0, 0, 0, 0, 0, 0] 0).1 = GET_REQUEST
      ∧ (parse_content ex_nul_header).1 = GET_REQUEST := by
  decide

/-- Instance of the amended C9: the header line `Host: a`. -/
theorem header_interpreter_result_witness :
    (parse_headers (parse_line ex_host_header.buffer 0 19).2.1 0).1 = NO_REQUEST :=
  ((header_interpreter_result ex_host_header [] [72, 111, 115, 116, 58, 32, 97] [0]
    (by decide) (by decide) (by decide) (by decide) (by decide) (by decide)).2.2.1).2 (by decide)

/-! ## Claims on the request-line interpreter -/

/-- Claim C5, amended (unsupported version).  For a request line made of a
method `M`, a white-space run `W1`, a target `T`, a white-space run `W2` and a
remainder `R` of any bytes: if the C string of `R` (its bytes before the first
NUL, all of them if there is none), after its leading spaces and tabs, is not
`HTTP/1.1` up to ASCII case, `parse_requestline` returns `BAD_REQUEST`, and
`parse_content` on a fresh session whose first complete line is that line
returns `BAD_REQUEST`. -/
theorem unsupported_version_rejected (M W1 T W2 R : List Nat)
    (hM : ∀ b ∈ M, b ∉ ws)
    (hW1 : W1 ≠ [] ∧ ∀ b ∈ W1, b ∈ ws)
    (hT : T ≠ [] ∧ ∀ b ∈ T, b ∉ ws)
    (hW2 : W2 ≠ [] ∧ ∀ b ∈ W2, b ∈ ws)
    (hne : lower ((cstr R).dropWhile isws) ≠ lower lit_HTTP11) :
    (∀ (pre x : List Nat) (cs : CHECK_STATE),
        (parse_requestline (pre ++ ((M ++ W1 ++ T ++ W2 ++ R) ++ 0 :: x)) pre.length cs).code
          = BAD_REQUEST)
      ∧ (∀ more : List Nat, (∀ b ∈ M ++ W1 ++ T ++ W2 ++ R, b ≠ CR ∧ b ≠ LF) →
          ((M ++ W1 ++ T ++ W2 ++ R) ++ CR :: LF :: more).length ≤ BUFFER_SIZE →
          (parse_content (feed begin_session
            ((M ++ W1 ++ T ++ W2 ++ R) ++ CR :: LF :: more))).1 = BAD_REQUEST) := by
  obtain ⟨c1, W1', rfl⟩ := List.exists_cons_of_ne_nil hW1.1
  obtain ⟨c2, W2', rfl⟩ := List.exists_cons_of_ne_nil hW2.1
  have e : M ++ c1 :: W1' ++ T ++ c2 :: W2' ++ R
      = M ++ c1 :: (W1' ++ (T ++ c2 :: (W2' ++ R))) := by simp
  have hcode := reqline_spec_bad_version_cstr M W1' T W2' R c1 c2 hM
    (hW1.2 c1 (List.mem_cons_self _ _)) (fun b hb => hW1.2 b (List.mem_cons_of_mem _ hb))
    hT.1 hT.2 (hW2.2 c2 (List.mem_cons_self _ _))
    (fun b hb => hW2.2 b (List.mem_cons_of_mem _ hb)) hne
  rw [← e] at hcode
  refine ⟨fun pre x cs => ?_, fun more hl hlen => ?_⟩
  · rw [parse_requestline_line]
    exact hcode
  · exact parse_content_first_line_bad BUFFER_SIZE _ more hl hlen hcode

/-- Instances of C5: the request line `GET /index.html HTTP/1.0`, and the line
`GET / HTTP/1.0`, NUL, `x`, whose remainder holds a NUL. -/
theorem unsupported_version_rejected_witness :
    (parse_requestline (ex_http10 ++ [0]) 0 CHECK_STATE_REQUESTLINE).code = BAD_REQUEST
      ∧ (parse_content (feed begin_session (ex_http10 ++ [CR, LF]))).1 = BAD_REQUEST
      ∧ (parse_requestline
          ((lit_GET ++ [SP] ++ [SLASH] ++ [SP] ++ [72, 84, 84, 80, 47, 49, 46, 48, 0, 120])
            ++ [0]) 0 CHECK_STATE_REQUESTLINE).code = BAD_REQUEST :=
  have h := unsupported_version_rejected lit_GET [SP]
    [47, 105, 110, 100, 101, 120, 46, 104, 116, 109, 108] [SP] [72, 84, 84, 80, 47, 49, 46, 48]
    (by decide) (by decide) (by decide) (by decide) (by decide)
  have h2 := unsupported_version_rejected lit_GET [SP] [SLASH] [SP]
    [72, 84, 84, 80, 47, 49, 46, 48, 0, 120]
    (by decide) (by decide) (by decide) (by decide) (by decide)
  ⟨h.1 [] [] CHECK_STATE_REQUESTLINE, h.2 [] (by decide) (by decide),
    h2.1 [] [] CHECK_STATE_REQUESTLINE⟩

set_option maxRecDepth 100000 in
/-- Claim C5 as stated fails: the line `GET / HTTP/1.1`, NUL, `x` splits into
`GET`, a space, `/`, a space and a remainder of 10 bytes which is not `HTTP/1.1`
up to case, yet `parse_requestline` returns `NO_REQUEST` for it and so does
`parse_content` on a fresh session that received the line and CR LF. -/
theorem unsupported_version_counterexample :
    ex_nul_version = lit_GET ++ [SP] ++ [SLASH] ++ [SP] ++ (lit_HTTP11 ++ [0, 120])
      ∧ lower ((lit_HTTP11 ++ [0, 120]).dropWhile isws) ≠ lower lit_HTTP11
      ∧ (parse_requestline (ex_nul_version ++ [0]) 0 CHECK_STATE_REQUESTLINE).code = NO_REQUEST
      ∧ (parse_content (feed begin_session (ex_nul_version ++ [CR, LF]))).1 = NO_REQUEST := by
  decide

/-- Claim C6 (unsupported method).  For a request line that holds a space or a
tab, `M` being the token before the first one: if `M` is not `GET` up to ASCII
case, `parse_requestline` returns `BAD_REQUEST` whatever the rest of the line
(before the `printf` of line 103), and `parse_content` on a fresh session whose
first complete line is that line returns `BAD_REQUEST`; if `M` is `GET` up to
case, the method check passes: line 103 prints. -/
theorem unsupported_method_rejected (M rest : List Nat) (c : Nat)
    (hM : ∀ b ∈ M, b ∉ ws) (hc : c ∈ ws) :
    (lower M ≠ lower lit_GET →
        (∀ (pre x : List Nat) (cs : CHECK_STATE),
          (parse_requestline (pre ++ ((M ++ c :: rest) ++ 0 :: x)) pre.length cs).code
              = BAD_REQUEST
            ∧ (parse_requestline (pre ++ ((M ++ c :: rest) ++ 0 :: x)) pre.length cs).out = [])
        ∧ (∀ more : List Nat, (∀ b ∈ M ++ c :: rest, b ≠ CR ∧ b ≠ LF) →
            ((M ++ c :: rest) ++ CR :: LF :: more).length ≤ BUFFER_SIZE →
            (parse_content (feed begin_session ((M ++ c :: rest) ++ CR :: LF :: more))).1
              = BAD_REQUEST))
      ∧ (lower M = lower lit_GET →
          ∀ (pre x : List Nat) (cs : CHECK_STATE), Event.method_get ∈
            (parse_requestline (pre ++ ((M ++ c :: rest) ++ 0 :: x)) pre.length cs).out) := by
  constructor
  · intro hne
    have hspec : reqline_spec (cstr (M ++ c :: rest)) = (BAD_REQUEST, cstr (M ++ c :: rest), [])
        ∨ reqline_spec (cstr (M ++ c :: rest)) = (BAD_REQUEST, M ++ 0 :: cstr rest, []) := by
      by_cases h0 : 0 ∈ M
      · left
        rw [cstr_append_of_mem M _ h0]
        exact reqline_spec_no_ws _ (fun b hb => hM b (cstr_subset M b hb))
      · right
        have hMz : ∀ b ∈ M, b ≠ 0 := fun b hb e => h0 (e ▸ hb)
        have hcz : c ≠ 0 := fun e => zero_not_ws (e ▸ hc)
        rw [cstr_append_of_ne_zero M _ hMz]
        simp only [cstr, hcz, if_false]
        rw [reqline_spec_method M _ c hM hc, if_pos hne]
    have hcode : (reqline_spec (cstr (M ++ c :: rest))).1 = BAD_REQUEST := by
      rcases hspec with h | h <;> rw [h]
    have hout : (reqline_spec (cstr (M ++ c :: rest))).2.2 = [] := by
      rcases hspec with h | h <;> rw [h]
    refine ⟨fun pre x cs => ?_, fun more hl hlen => ?_⟩
    · rw [parse_requestline_line]
      exact ⟨hcode, hout⟩
    · exact parse_content_first_line_bad BUFFER_SIZE _ more hl hlen hcode
  · intro heq pre x cs
    have hMz : ∀ b ∈ M, b ≠ 0 := fun b hb => (lower_GET_spec M heq b hb).1
    have hcz : c ≠ 0 := fun e => zero_not_ws (e ▸ hc)
    rw [parse_requestline_line, cstr_append_of_ne_zero M _ hMz]
    simp only [cstr, hcz, if_false]
    rw [reqline_spec_method M _ c hM hc, if_neg (fun h => h heq)]
    exact version_spec_out _

/-- Instance of C6: the request line `POST / HTTP/1.1`. -/
theorem unsupported_method_rejected_witness :
    (parse_requestline (ex_post ++ [0]) 0 CHECK_STATE_REQUESTLINE).code = BAD_REQUEST
      ∧ (parse_content (feed begin_session (ex_post ++ [CR, LF]))).1 = BAD_REQUEST
      ∧ Event.method_get ∈
          (parse_requestline (([103, 101, 116] ++ SP :: [47]) ++ [0]) 0
            CHECK_STATE_REQUESTLINE).out :=
  have h := (unsupported_method_rejected [80, 79, 83, 84] [47, 32, 72, 84, 84, 80, 47, 49, 46, 49]
    SP (by decide) (by decide)).1 (by decide)
  ⟨(h.1 [] [] CHECK_STATE_REQUESTLINE).1, h.2 [] (by decide) (by decide),
    (unsupported_method_rejected [103, 101, 116] [47] SP (by decide) (by decide)).2 (by decide)
      [] [] CHECK_STATE_REQUESTLINE⟩

/-- Claim C7 (absolute-form target).  For a target `P A S` where `P` is `http://`
up to case, `A` holds no slash, space, tab or NUL, and `S` begins with a slash
and holds no space, tab or NUL, `parse_requestline` on `GET`, a space, the
target, a space, `HTTP/1.1` returns `NO_REQUEST`, sets the phase to
`CHECK_STATE_HEADER`, and the string printed at line 130 is `S`. -/
theorem absolute_form_target (P A S : List Nat)
    (hP : lower P = lit_http)
    (hA : ∀ b ∈ A, b ≠ SLASH ∧ b ∉ ws ∧ b ≠ 0)
    (hS : S.head? = some SLASH ∧ ∀ b ∈ S, b ∉ ws ∧ b ≠ 0)
    (pre x : List Nat) (cs : CHECK_STATE) :
    parse_requestline
        (pre ++ ((lit_GET ++ SP :: (P ++ A ++ S) ++ SP :: lit_HTTP11) ++ 0 :: x)) pre.length cs
      = ⟨NO_REQUEST,
          pre ++ ((lit_GET ++ 0 :: (P ++ A ++ S) ++ 0 :: lit_HTTP11) ++ 0 :: x),
          CHECK_STATE_HEADER, [Event.method_get, Event.url S]⟩ := by
  obtain ⟨S', rfl⟩ : ∃ S', S = SLASH :: S' := by
    cases S with
    | nil => simp at hS
    | cons c S' => exact ⟨S', by simpa using hS.1⟩
  have hPs := (lower_http_spec P hP).2
  have hTw : ∀ b ∈ P ++ (A ++ SLASH :: S'), b ∉ ws := by
    intro b hb
    rcases List.mem_append.1 hb with h | h
    · exact (hPs b h).2.1
    · rcases List.mem_append.1 h with h | h
      · exact (hA b h).2.1
      · exact (hS.2 b h).1
  have hTz : ∀ b ∈ P ++ (A ++ SLASH :: S'), b ≠ 0 := by
    intro b hb
    rcases List.mem_append.1 hb with h | h
    · exact (hPs b h).1
    · rcases List.mem_append.1 h with h | h
      · exact (hA b h).2.2
      · exact (hS.2 b h).2
  have hT0 : P ++ (A ++ SLASH :: S') ≠ [] := by simp
  have hspec := reqline_spec_accept lit_GET [] (P ++ (A ++ SLASH :: S')) [] lit_HTTP11 SP SP rfl
    (by decide) (by simp) hT0 hTw (by decide) (by simp) rfl
  rw [effective_target_abs P A S' hP (fun b hb => (hA b hb).1)] at hspec
  simp only [List.nil_append] at hspec
  have hline : lit_GET ++ SP :: (P ++ A ++ SLASH :: S') ++ SP :: lit_HTTP11
      = lit_GET ++ SP :: (P ++ (A ++ SLASH :: S') ++ SP :: lit_HTTP11) := by simp
  have hz : ∀ b ∈ lit_GET ++ SP :: (P ++ (A ++ SLASH :: S') ++ SP :: lit_HTTP11), b ≠ 0 := by
    intro b hb
    have h1 : ∀ b ∈ lit_GET, b ≠ 0 := by decide
    have h2 : ∀ b ∈ SP :: lit_HTTP11, b ≠ 0 := by decide
    rcases List.mem_append.1 hb with h | h
    · exact h1 b h
    · rcases List.mem_cons.1 h with h | h
      · rw [h]; decide
      · rcases List.mem_append.1 h with h | h
        · exact hTz b h
        · exact h2 b h
  have hd : ∀ (l : List Nat), (l ++ 0 :: x).drop l.length = 0 :: x := fun l => List.drop_left _ _
  rw [hline, parse_requestline_line, cstr_of_ne_zero _ hz, hspec, hd]
  simp only [if_true, List.append_assoc, List.cons_append]

/-- Instance of C7: `GET http://host.example/path HTTP/1.1` prints `/path`. -/
theorem absolute_form_target_witness :
    (parse_requestline (ex_absolute ++ [0]) 0 CHECK_STATE_REQUESTLINE).code = NO_REQUEST
      ∧ (parse_requestline (ex_absolute ++ [0]) 0 CHECK_STATE_REQUESTLINE).checkstate
          = CHECK_STATE_HEADER
      ∧ (parse_requestline (ex_absolute ++ [0]) 0 CHECK_STATE_REQUESTLINE).out
          = [Event.method_get, Event.url [47, 112, 97, 116, 104]] :=
  have h := absolute_form_target [104, 116, 116, 112, 58, 47, 47]
    [104, 111, 115, 116, 46, 101, 120, 97, 109, 112, 108, 101] [47, 112, 97, 116, 104]
    (by decide) (by decide) (by decide) [] [] CHECK_STATE_REQUESTLINE
  ⟨congrArg ReqLine.code h, congrArg ReqLine.checkstate h, congrArg ReqLine.out h⟩

/-- Claim C8 (invalid target).  For a request line made of a case variant `M` of
`GET`, white space, a target token `T`, white space and a case variant `V` of
`HTTP/1.1`: if `T` begins with `http://` up to case and holds no slash after
these 7 bytes, or does not begin with that prefix and does not begin with a
slash, `parse_requestline` returns `BAD_REQUEST` and leaves the phase as it
was. -/
theorem invalid_target_rejected (M W1 T W2 V : List Nat)
    (hM : lower M = lower lit_GET)
    (hW1 : W1 ≠ [] ∧ ∀ b ∈ W1, b ∈ ws)
    (hT : ∀ b ∈ T, b ∉ ws)
    (hW2 : W2 ≠ [] ∧ ∀ b ∈ W2, b ∈ ws)
    (hV : lower V = lower lit_HTTP11)
    (hbad : (lower (T.take 7) = lit_http ∧ ∀ b ∈ T.drop 7, b ≠ SLASH)
      ∨ (lower (T.take 7) ≠ lit_http ∧ T.head? ≠ some SLASH))
    (pre x : List Nat) (cs : CHECK_STATE) :
    (parse_requestline (pre ++ ((M ++ W1 ++ T ++ W2 ++ V) ++ 0 :: x)) pre.length cs).code
        = BAD_REQUEST
      ∧ (parse_requestline (pre ++ ((M ++ W1 ++ T ++ W2 ++ V) ++ 0 :: x)) pre.length cs).checkstate
        = cs := by
  obtain ⟨c1, W1', rfl⟩ := List.exists_cons_of_ne_nil hW1.1
  obtain ⟨c2, W2', rfl⟩ := List.exists_cons_of_ne_nil hW2.1
  have e : M ++ c1 :: W1' ++ T ++ c2 :: W2' ++ V
      = M ++ c1 :: (W1' ++ (T ++ c2 :: (W2' ++ V))) := by simp
  have hnone : effective_target T = none := by
    rcases hbad with h | h
    · exact effective_target_none_a T h.1 h.2
    · exact effective_target_none_b T h.1 h.2
  have hcode := reqline_spec_bad_target M W1' T W2' V c1 c2 hM
    (hW1.2 c1 (List.mem_cons_self _ _)) (fun b hb => hW1.2 b (List.mem_cons_of_mem _ hb))
    hT (hW2.2 c2 (List.mem_cons_self _ _))
    (fun b hb => hW2.2 b (List.mem_cons_of_mem _ hb)) hV hnone
  rw [← e] at hcode
  rw [parse_requestline_line]
  refine ⟨hcode, ?_⟩
  simp only [hcode]
  rfl

/-- Instance of C8: the request line `GET index.html HTTP/1.1`. -/
theorem invalid_target_rejected_witness :
    (parse_requestline (ex_relative ++ [0]) 0 CHECK_STATE_REQUESTLINE).code = BAD_REQUEST
      ∧ (parse_requestline (ex_relative ++ [0]) 0 CHECK_STATE_REQUESTLINE).checkstate
        = CHECK_STATE_REQUESTLINE :=
  invalid_target_rejected lit_GET [SP] [105, 110, 100, 101, 120, 46, 104, 116, 109, 108] [SP]
    lit_HTTP11 (by decide) (by decide) (by decide) (by decide) (by decide)
    (Or.inr (by decide)) [] [] CHECK_STATE_REQUESTLINE

/-! ## Claims on whole requests -/

/-- Claim C1 (chunk-size independence).  For every byte sequence of length at
most `BUFFER_SIZE` and every way of splitting it into non-empty chunks, the
receive loop started from the fresh session and fed the chunks one by one
(`parse_content` after each, stopping at the first result other than
`NO_REQUEST`) ends with the same `HTTP_CODE`, the same phase and the same lines
printed, the effective target of line 130 among them, as when the whole
sequence is received as one chunk. -/
theorem chunk_size_independence (bytes : List Nat) (chunks : List (List Nat))
    (hlen : bytes.length ≤ BUFFER_SIZE)
    (hne : ∀ c ∈ chunks, c ≠ [])
    (hsplit : chunks.flatten = bytes) :
    (recv_loop begin_session chunks).1 = (recv_loop begin_session [bytes]).1
      ∧ (recv_loop begin_session chunks).2.checkstate
          = (recv_loop begin_session [bytes]).2.checkstate
      ∧ (recv_loop begin_session chunks).2.out = (recv_loop begin_session [bytes]).2.out := by
  subst hsplit
  cases chunks with
  | nil => exact ⟨rfl, rfl, rfl⟩
  | cons c cs =>
    have hinv : Inv begin_session := by
      refine ⟨Nat.le_refl _, Nat.le_refl _, ?_⟩
      show 0 ≤ _
      exact Nat.zero_le _
    have hbl : begin_session.buffer.length = BUFFER_SIZE := by
      simp [begin_session, fresh_session]
    have h := recv_loop_chunks begin_session hinv cs c
      (by
        rw [hbl]
        show 0 + (c ++ cs.flatten).length ≤ BUFFER_SIZE
        rw [Nat.zero_add, ← List.flatten_cons]
        exact hlen) (hne c (List.mem_cons_self _ _))
      (fun x hx => hne x (List.mem_cons_of_mem _ hx))
    rw [List.flatten_cons]
    simp only [observe, Prod.mk.injEq] at h
    exact ⟨h.1, h.2.1, h.2.2.1⟩

set_option maxRecDepth 100000 in
/-- Instance of C1: the 18 bytes of `GET / HTTP/1.1`, CR LF, CR LF received one
byte at a time or all at once; both ways the request is accepted. -/
theorem chunk_size_independence_witness :
    (recv_loop begin_session ex_request_bytewise).1 = (recv_loop begin_session [ex_request]).1
      ∧ (recv_loop begin_session ex_request_bytewise).2.checkstate
          = (recv_loop begin_session [ex_request]).2.checkstate
      ∧ (recv_loop begin_session ex_request_bytewise).2.out
          = (recv_loop begin_session [ex_request]).2.out
      ∧ (recv_loop begin_session [ex_request]).1 = GET_REQUEST :=
  have h := chunk_size_independence ex_request ex_request_bytewise
    (by decide) (by decide) (by decide)
  ⟨h.1, h.2.1, h.2.2, by decide⟩

/-- Claim C2 (a well-formed request is accepted exactly at its blank line).  For
a request line made of `GET`, a white-space run, a target that begins with a
slash and holds no space, tab, CR, LF or NUL, a white-space run and `HTTP/1.1`,
followed by CR LF, by header lines (none empty, none holding CR, LF or NUL)
each followed by CR LF, and by a final CR LF, the whole fitting in the buffer:
`parse_content` on a fresh session that holds this input returns `GET_REQUEST`
with `checked_index` equal to the length of the input; on the input without the
final CR LF it returns `NO_REQUEST`. -/
theorem wellformed_request_accepted (W1 T W2 : List Nat) (hs : List (List Nat))
    (hW1 : W1 ≠ [] ∧ ∀ b ∈ W1, b ∈ ws)
    (hT : T.head? = some SLASH ∧ ∀ b ∈ T, b ∉ ws ∧ b ≠ CR ∧ b ≠ LF ∧ b ≠ 0)
    (hW2 : W2 ≠ [] ∧ ∀ b ∈ W2, b ∈ ws)
    (hh : ∀ h ∈ hs, h ≠ [] ∧ ∀ b ∈ h, b ≠ CR ∧ b ≠ LF ∧ b ≠ 0)
    (hlen : ((lit_GET ++ W1 ++ T ++ W2 ++ lit_HTTP11) ++ CR :: LF ::
      (header_block hs ++ [CR, LF])).length ≤ BUFFER_SIZE) :
    (parse_content (feed begin_session ((lit_GET ++ W1 ++ T ++ W2 ++ lit_HTTP11) ++ CR :: LF ::
        (header_block hs ++ [CR, LF])))).1 = GET_REQUEST
      ∧ (parse_content (feed begin_session ((lit_GET ++ W1 ++ T ++ W2 ++ lit_HTTP11)
          ++ CR :: LF :: (header_block hs ++ [CR, LF])))).2.checked_index
        = ((lit_GET ++ W1 ++ T ++ W2 ++ lit_HTTP11) ++ CR :: LF ::
            (header_block hs ++ [CR, LF])).length
      ∧ (parse_content (feed begin_session ((lit_GET ++ W1 ++ T ++ W2 ++ lit_HTTP11)
          ++ CR :: LF :: header_block hs))).1 = NO_REQUEST := by
  obtain ⟨hR, line2, hl2, hspec⟩ := reqline_spec_wellformed W1 T W2 hW1 hT hW2
  generalize lit_GET ++ W1 ++ T ++ W2 ++ lit_HTTP11 = R at hR hl2 hspec hlen ⊢
  have hRl : ∀ b ∈ R, b ≠ CR ∧ b ≠ LF := fun b hb => (hR b hb).2
  have hcR : cstr R = R := cstr_of_ne_zero R (fun b hb => (hR b hb).1)
  have hcode : ¬ (reqline_spec R).1 = BAD_REQUEST := by
    rw [hspec]; exact fun h => by cases h
  have key : ∀ (more zeros : List Nat) (r : Nat),
      R.length + 2 + (header_block hs).length ≤ r →
      ∃ (pre2 : List Nat) (out2 : List Event),
        pre2.length = R.length + 2 + (header_block hs).length ∧
        parse_content ⟨(reqline_spec R).2.1
            ++ (R ++ 0 :: 0 :: ((header_block hs ++ more) ++ zeros)).drop R.length,
          R.length + 2, r, R.length + 2,
          if (reqline_spec R).1 = NO_REQUEST then CHECK_STATE_HEADER
            else CHECK_STATE_REQUESTLINE,
          (reqline_spec R).2.2⟩
        = parse_content ⟨pre2 ++ (more ++ zeros), pre2.length, r, pre2.length,
            CHECK_STATE_HEADER, out2⟩ := by
    intro more zeros r hr
    obtain ⟨pre2, out2, hp2, heq⟩ := parse_content_headers hs (more ++ zeros) r hh
      (line2 ++ [0, 0]) [Event.method_get, Event.url T] (by simp; omega)
    refine ⟨pre2, out2, by rw [hp2]; simp; omega, ?_⟩
    rw [← heq, hspec, List.drop_left]
    simp only [if_true]
    congr 2
    · simp
    · simp; omega
    · simp; omega
  have full : ∃ s2 : Session,
      parse_content (feed begin_session (R ++ CR :: LF :: (header_block hs ++ [CR, LF])))
        = (GET_REQUEST, s2)
      ∧ s2.checked_index = (R ++ CR :: LF :: (header_block hs ++ [CR, LF])).length := by
    unfold begin_session
    rw [parse_content_first_line BUFFER_SIZE R _ hRl hlen, hcR, if_neg hcode]
    generalize List.replicate
      (BUFFER_SIZE - (R ++ CR :: LF :: (header_block hs ++ [CR, LF])).length) 0 = zeros
    obtain ⟨pre2, out2, hp2, heq⟩ := key [CR, LF] zeros
      (R ++ CR :: LF :: (header_block hs ++ [CR, LF])).length (by simp; omega)
    rw [heq, parse_content_unfold]
    have hpl := parse_line_crlf pre2 zeros
      pre2.length (R ++ CR :: LF :: (header_block hs ++ [CR, LF])).length (Nat.le_refl _)
      (by rw [hp2]; simp; omega) (fun j hj hcj => absurd hj (by omega))
    rw [content_body_ok parse_content _ _ _ (by simpa using hpl), dispatch_header _ _ _ _ rfl]
    have hget : (parse_headers (pre2 ++ 0 :: 0 :: zeros) pre2.length).1 = GET_REQUEST := by
      rw [parse_headers_get_iff, getD_of_length pre2 _ _ rfl]
      rfl
    rw [if_pos hget]
    exact ⟨_, rfl, by simp only []; rw [hp2]; simp; omega⟩
  obtain ⟨s2, hfull, hchk⟩ := full
  refine ⟨by rw [hfull], by rw [hfull]; exact hchk, ?_⟩
  · have hlen2 : (R ++ CR :: LF :: header_block hs).length ≤ BUFFER_SIZE := by
      simp at hlen ⊢; omega
    unfold begin_session
    rw [parse_content_first_line BUFFER_SIZE R _ hRl hlen2, hcR, if_neg hcode]
    obtain ⟨pre2, out2, hp2, heq⟩ := key []
      (List.replicate (BUFFER_SIZE - (R ++ CR :: LF :: header_block hs).length) 0)
      (R ++ CR :: LF :: header_block hs).length (by simp; omega)
    simp only [List.append_nil, List.nil_append] at heq
    rw [heq, parse_content_of_open _ _ _ (parse_line_end _ _ _ (by rw [hp2]; simp; omega))]

set_option maxRecDepth 100000 in
/-- Instance of C2: the request `GET / HTTP/1.1`, `Host: example.com`, blank
line, of 37 bytes, is accepted at byte 37, after its three lines (the request
line printed the method and the target, the header line printed the host); the
same bytes without the blank line are not accepted yet. -/
theorem wellformed_request_accepted_witness :
    (parse_content (feed begin_session ((lit_GET ++ [SP] ++ [SLASH] ++ [SP] ++ lit_HTTP11)
        ++ CR :: LF :: (header_block [ex_host] ++ [CR, LF])))).1 = GET_REQUEST
      ∧ (parse_content (feed begin_session ((lit_GET ++ [SP] ++ [SLASH] ++ [SP] ++ lit_HTTP11)
          ++ CR :: LF :: (header_block [ex_host] ++ [CR, LF])))).2.checked_index = 37
      ∧ (parse_content (feed begin_session ((lit_GET ++ [SP] ++ [SLASH] ++ [SP] ++ lit_HTTP11)
          ++ CR :: LF :: header_block [ex_host]))).1 = NO_REQUEST
      ∧ (parse_content (feed begin_session ((lit_GET ++ [SP] ++ [SLASH] ++ [SP] ++ lit_HTTP11)
          ++ CR :: LF :: (header_block [ex_host] ++ [CR, LF])))).2.out
        = [Event.method_get, Event.url [47],
            Event.host [101, 120, 97, 109, 112, 108, 101, 46, 99, 111, 109]] :=
  have h := wellformed_request_accepted [SP] [SLASH] [SP] [ex_host]
    (by decide) (by decide) (by decide) (by decide) (by decide)
  ⟨h.1, h.2.1, h.2.2, by decide⟩

/-! ## Claims on the cursors, the phase and the request line -/

/-- Claim C11 (no terminator yet).  For every session with
`checked_index ≤ read_index` in which no byte of `[checked_index, read_index)`
is CR or LF, `parse_line` returns `LINE_OPEN`, leaves `checked_index` at
`read_index` and the buffer as it was; `parse_content` then returns
`NO_REQUEST`, and leaves `start_line` and the phase (and everything but
`checked_index`) unchanged. -/
theorem no_terminator_yet (s : Session)
    (hle : s.checked_index ≤ s.read_index)
    (hno : NoCRLF s.buffer s.checked_index s.read_index) :
    parse_line s.buffer s.checked_index s.read_index = (LINE_OPEN, s.buffer, s.read_index)
      ∧ parse_content s = (NO_REQUEST, { s with checked_index := s.read_index })
      ∧ (parse_content s).2.start_line = s.start_line
      ∧ (parse_content s).2.checkstate = s.checkstate := by
  have hopen : parse_line s.buffer s.checked_index s.read_index
      = (LINE_OPEN, s.buffer, s.read_index) := by
    rw [parse_line_skip s.buffer s.checked_index s.read_index s.read_index hle (Nat.le_refl _) hno,
      parse_line_end _ _ _ (Nat.le_refl _)]
  have hpc := parse_content_of_open s _ _ hopen
  exact ⟨hopen, hpc, by rw [hpc], by rw [hpc]⟩

/-- Instance of C11: the session `ex_no_terminator`, where `abc` has been
received. -/
theorem no_terminator_yet_witness :
    parse_line ex_no_terminator.buffer 0 3 = (LINE_OPEN, ex_no_terminator.buffer, 3)
      ∧ parse_content ex_no_terminator = (NO_REQUEST, { ex_no_terminator with checked_index := 3 }) :=
  have h := no_terminator_yet ex_no_terminator (by decide) (by decide)
  ⟨h.1, h.2.1⟩

/-- Claim C13 (cursor invariant).  The predicate
`0 ≤ start_line ≤ checked_index ≤ read_index` holds after `parse_line`
(which changes the buffer and `checked_index` only) and after `parse_content`
whenever it holds on entry, whatever the result.  After a line that
`parse_line` reports `LINE_OK` inside `parse_content`, the byte before the new
`checked_index` was the LF of the terminator, and the session that the
interpreter of the line leaves, from which the loop goes on or which
`parse_content` returns, has `start_line` equal to that `checked_index`; at
every evaluation of the loop condition but the first, `start_line` equals
`checked_index`. -/
theorem cursor_invariant (s : Session) (h : CursorInv s) :
    CursorInv { s with
        buffer := (parse_line s.buffer s.checked_index s.read_index).2.1,
        checked_index := (parse_line s.buffer s.checked_index s.read_index).2.2 }
      ∧ CursorInv (parse_content s).2
      ∧ (∀ (b : List Nat) (c : Nat),
          parse_line s.buffer s.checked_index s.read_index = (LINE_OK, b, c) →
          s.buffer.getD (c - 1) 0 = LF
            ∧ (interpret s b c).2.start_line = c ∧ (interpret s b c).2.checked_index = c
            ∧ parse_content s
                = if (interpret s b c).1 = NO_REQUEST then parse_content (interpret s b c).2
                  else interpret s b c)
      ∧ (∀ h ∈ (parse_content_log s).heads.tail, h.start_line = h.checked_index) := by
  have hb := parse_line_bounds s.buffer s.checked_index s.read_index h.2.2
  refine ⟨⟨Nat.zero_le _, Nat.le_trans h.2.1 hb.1, hb.2.1⟩, parse_content_cursors s h, ?_,
    parse_content_log_later_heads s⟩
  intro b c hpl
  have hlf := hb.2.2 (by rw [hpl])
  rw [hpl] at hlf
  have hf := interpret_fields s b c
  refine ⟨hlf.2, hf.2.1, hf.1, ?_⟩
  rw [parse_content_step, hpl]

/-- Instance of C13: the session `ex_lf_at_three`. -/
theorem cursor_invariant_witness :
    CursorInv (parse_content ex_lf_at_three).2
      ∧ (parse_content ex_lf_at_three).2.start_line = 4
      ∧ (parse_content ex_lf_at_three).2.checked_index = 4 :=
  ⟨(cursor_invariant ex_lf_at_three (by decide)).2.1, by decide, by decide⟩

/-- Claim C15 (the phase never regresses).  A call of `parse_content` entered
in `CHECK_STATE_HEADER` returns in `CHECK_STATE_HEADER`; if the phase on return
differs from the phase on entry, it went from `CHECK_STATE_REQUESTLINE` to
`CHECK_STATE_HEADER` and some iteration of the loop called `parse_requestline`
in the request-line phase with result `NO_REQUEST`.  The same holds of
`parse_requestline` alone.  In a sequence of calls of `parse_content`, once the
phase is `CHECK_STATE_HEADER` it stays so after any further calls: the
transition happens at most once. -/
theorem phase_never_regresses (s : Session) :
    (s.checkstate = CHECK_STATE_HEADER → (parse_content s).2.checkstate = CHECK_STATE_HEADER)
      ∧ ((parse_content s).2.checkstate ≠ s.checkstate →
          s.checkstate = CHECK_STATE_REQUESTLINE
            ∧ (parse_content s).2.checkstate = CHECK_STATE_HEADER
            ∧ ∃ h ∈ (parse_content_log s).heads, ∃ (b : List Nat) (c : Nat),
                parse_line h.buffer h.checked_index h.read_index = (LINE_OK, b, c)
                  ∧ h.checkstate = CHECK_STATE_REQUESTLINE
                  ∧ (parse_requestline b h.start_line h.checkstate).code = NO_REQUEST)
      ∧ (∀ (b : List Nat) (temp : Nat) (cs : CHECK_STATE),
          (cs = CHECK_STATE_HEADER →
              (parse_requestline b temp cs).checkstate = CHECK_STATE_HEADER)
            ∧ ((parse_requestline b temp cs).checkstate ≠ cs →
                cs = CHECK_STATE_REQUESTLINE
                  ∧ (parse_requestline b temp cs).checkstate = CHECK_STATE_HEADER
                  ∧ (parse_requestline b temp cs).code = NO_REQUEST))
      ∧ (∀ xs ys : List (List Nat),
          (parse_calls s xs).checkstate = CHECK_STATE_HEADER →
            (parse_calls s (xs ++ ys)).checkstate = CHECK_STATE_HEADER) := by
  refine ⟨parse_content_header_phase s, ?_, ?_, ?_⟩
  · intro hne
    have hlog := parse_content_phase_change s (by rw [parse_content_log_result]; exact hne)
    have h1 : s.checkstate = CHECK_STATE_REQUESTLINE := by
      cases hcs : s.checkstate
      · rfl
      · exact absurd (parse_content_header_phase s hcs) (by rw [hcs] at hne; exact hne)
    refine ⟨h1, ?_, hlog⟩
    rw [h1] at hne
    cases hcs : (parse_content s).2.checkstate
    · exact absurd hcs hne
    · rfl
  · intro b temp cs
    rcases (parse_requestline_facts b temp cs).1 with h | h
    · exact ⟨fun hc => by rw [h.2]; exact hc, fun hne => absurd h.2 hne⟩
    · refine ⟨fun _ => h.2, fun hne => ⟨?_, h.2, h.1⟩⟩
      cases cs
      · rfl
      · exact absurd h.2 hne
  · intro xs ys h
    rw [parse_calls_append]
    exact parse_calls_header_phase ys _ h

/-- Instance of C15: the session `ex_host_header`, in the header phase. -/
theorem phase_never_regresses_witness :
    (parse_content ex_host_header).2.checkstate = CHECK_STATE_HEADER :=
  (phase_never_regresses ex_host_header).1 (by decide)

/-- Claim C17 (exact acceptance condition of the request line).  For a line
without NUL (CR and LF need not be excluded), stored at any place of the buffer
and followed by the NUL that `parse_line` writes, `parse_requestline` returns
`NO_REQUEST` and sets the phase to `CHECK_STATE_HEADER` if and only if the line
has the form `WellFormedLine`; for every other line it returns `BAD_REQUEST`
and leaves the phase unchanged; it never returns `GET_REQUEST`. -/
theorem requestline_acceptance (line pre x : List Nat) (cs : CHECK_STATE)
    (hline : ∀ b ∈ line, b ≠ 0) :
    (((parse_requestline (pre ++ (line ++ 0 :: x)) pre.length cs).code = NO_REQUEST
          ∧ (parse_requestline (pre ++ (line ++ 0 :: x)) pre.length cs).checkstate
              = CHECK_STATE_HEADER)
        ↔ WellFormedLine line)
      ∧ (¬ WellFormedLine line →
          (parse_requestline (pre ++ (line ++ 0 :: x)) pre.length cs).code = BAD_REQUEST
            ∧ (parse_requestline (pre ++ (line ++ 0 :: x)) pre.length cs).checkstate = cs)
      ∧ (parse_requestline (pre ++ (line ++ 0 :: x)) pre.length cs).code ≠ GET_REQUEST := by
  have hcode : (parse_requestline (pre ++ (line ++ 0 :: x)) pre.length cs).code
      = (reqline_spec line).1 := by
    rw [parse_requestline_line, cstr_of_ne_zero line hline]
  have hiff := reqline_spec_no_iff line
  have hfacts := (parse_requestline_facts (pre ++ (line ++ 0 :: x)) pre.length cs).1
  refine ⟨⟨fun h => hiff.1 (by rw [← hcode]; exact h.1), fun h => ?_⟩, fun h => ?_, ?_⟩
  · have hno := hiff.2 h
    rw [← hcode] at hno
    rcases hfacts with h1 | h1
    · rw [h1.1] at hno; cases hno
    · exact h1
  · rcases hfacts with h1 | h1
    · exact h1
    · exact absurd (hiff.1 (by rw [← hcode]; exact h1.1)) h
  · rcases hfacts with h1 | h1 <;> rw [h1.1] <;> exact fun hh => (by cases hh)

/-- Instance of C17: the line `GET / HTTP/1.1`. -/
theorem requestline_acceptance_witness :
    (parse_requestline (ex_get_root ++ 0 :: []) 0 CHECK_STATE_REQUESTLINE).code = NO_REQUEST
      ∧ (parse_requestline (ex_get_root ++ 0 :: []) 0 CHECK_STATE_REQUESTLINE).checkstate
          = CHECK_STATE_HEADER :=
  (requestline_acceptance ex_get_root [] [] CHECK_STATE_REQUESTLINE (by decide)).1.2
    ⟨lit_GET, [SP], [SLASH], [SP], lit_HTTP11, by decide, by decide, by decide, by decide,
      by decide, by decide⟩


/-! ## Claims on the buffer accesses, the progress of the loop and the reachable sessions -/

/-- Claim C14 (buffer accesses stay inside the received region).  Every buffer
index that a call of `parse_line` reads or writes lies in `[0, read_index)`,
whatever `checked_index` and `read_index` are (the instrumented `parse_line_log`
returns what `parse_line` returns).  In particular an access to the index
`i + 1` happens only when `i + 1 < read_index`, and an access to the index
`i - 1` only when `i ≥ 1`. -/
theorem accesses_in_received_region (b : List Nat) (c r : Nat) :
    (parse_line_log b c r).1 = parse_line b c r
      ∧ (∀ a ∈ (parse_line_log b c r).2, 0 ≤ a.index ∧ a.index < r)
      ∧ (∀ a ∈ (parse_line_log b c r).2, ∀ i : Nat,
          (a.index = (i : Int) + 1 → i + 1 < r) ∧ (a.index = (i : Int) - 1 → 1 ≤ i)) := by
  refine ⟨parse_line_log_fst b c r, fun a ha => ?_, fun a ha i => ?_⟩
  · exact (parse_line_loop_log_accesses b r _ c a ha).1
  · have h := (parse_line_loop_log_accesses b r _ c a ha).1
    exact ⟨fun e => by omega, fun e => by omega⟩

set_option maxRecDepth 100000 in
/-- Claim C16 (no re-examination of already-checked bytes), an instance where it
fails.  In the session `ex_lookback` the bytes `ab` were checked by an earlier
call (`checked_index = 2`) and a line feed has arrived since; `parse_line`
reads `buffer[1]`, an index below `checked_index`.  The same happens in the
session that the receive loop reaches from the fresh session by receiving `ab`,
calling `parse_content`, and receiving a line feed. -/
theorem reread_counterexample :
    ex_lookback.checked_index = 2
      ∧ Access.read 1 ∈ (parse_line_log ex_lookback.buffer ex_lookback.checked_index
          ex_lookback.read_index).2
      ∧ ¬ (∀ a ∈ (parse_line_log ex_lookback.buffer ex_lookback.checked_index
            ex_lookback.read_index).2,
          a.isRead = true → (ex_lookback.checked_index : Int) ≤ a.index)
      ∧ (parse_content (feed begin_session [97, 98])).1 = NO_REQUEST
      ∧ (feed (parse_content (feed begin_session [97, 98])).2 [10]).checked_index = 2
      ∧ Access.read 1 ∈ (parse_line_log
          (feed (parse_content (feed begin_session [97, 98])).2 [10]).buffer
          (feed (parse_content (feed begin_session [97, 98])).2 [10]).checked_index
          (feed (parse_content (feed begin_session [97, 98])).2 [10]).read_index).2 := by
  decide

/-- Claim C16, amended.  Every buffer index that a call of `parse_line` reads is
greater than or equal to the value `checked_index` had when the call began,
with one exception: when the byte at that position is a line feed and
`checked_index > 1`, line 75 reads `buffer[checked_index - 1]`.  Hence no index
below `checked_index - 1` is read, and none below `checked_index` when the byte
at `checked_index` is not a line feed. -/
theorem reads_from_checked_index (b : List Nat) (c r : Nat) :
    (parse_line_log b c r).1 = parse_line b c r
      ∧ (∀ a ∈ (parse_line_log b c r).2, a.isRead = true →
          (c : Int) ≤ a.index
            ∨ (a.index = (c : Int) - 1 ∧ 1 < c ∧ c < r ∧ b.getD c 0 = LF))
      ∧ (b.getD c 0 ≠ LF →
          ∀ a ∈ (parse_line_log b c r).2, a.isRead = true → (c : Int) ≤ a.index) := by
  have key : ∀ a ∈ (parse_line_log b c r).2, a.isRead = true →
      (c : Int) ≤ a.index
        ∨ (a.index = (c : Int) - 1 ∧ 1 < c ∧ c < r ∧ b.getD c 0 = LF) := by
    intro a ha hr
    rcases (parse_line_loop_log_accesses b r _ c a ha).2 with h | ⟨e, h⟩ | ⟨e, _⟩
    · exact Or.inl h
    · subst e; exact Or.inr ⟨rfl, h⟩
    · subst e; cases hr
  refine ⟨parse_line_log_fst b c r, key, fun hlf a ha hr => ?_⟩
  rcases key a ha hr with h | h
  · exact h
  · exact absurd h.2.2.2 hlf

/-- Claim C18 (`checked_index` only moves forward, and the loop terminates).
For a session with `checked_index ≤ read_index`: `parse_line` returns a
`checked_index` that is at least the one given, and greater after `LINE_OK`;
the `while` loop of `parse_content` executes its body at most
`read_index - checked_index` times (the instrumented `parse_content_log`
returns what `parse_content` returns), so that `parse_content` returns one of
the codes of its `return` statements, with that many iterations and with any
greater number allowed; and `checked_index` on return from `parse_content` is at
least its value on entry. -/
theorem checked_index_forward (s : Session) (hle : s.checked_index ≤ s.read_index) :
    s.checked_index ≤ (parse_line s.buffer s.checked_index s.read_index).2.2
      ∧ ((parse_line s.buffer s.checked_index s.read_index).1 = LINE_OK →
          s.checked_index < (parse_line s.buffer s.checked_index s.read_index).2.2)
      ∧ (parse_content_log s).result = parse_content s
      ∧ (parse_content_log s).iterations ≤ s.read_index - s.checked_index
      ∧ (parse_content s).1 ≠ INTERNAL_ERROR
      ∧ (∀ fuel, s.read_index - s.checked_index + 1 ≤ fuel →
          parse_content_loop fuel s = parse_content s)
      ∧ s.checked_index ≤ (parse_content s).2.checked_index := by
  have hb := parse_line_bounds s.buffer s.checked_index s.read_index hle
  have hi := parse_content_log_iterations s
  have hr := parse_content_log_result s
  refine ⟨hb.1, fun h => (hb.2.2 h).1, hr, hi.1, parse_content_returns s, ?_, ?_⟩
  · intro fuel hf
    unfold parse_content
    exact parse_content_loop_stable fuel _ s hf (Nat.le_refl _)
  · rw [← hr]; exact hi.2 hle

/-- Instance of C18: the session `ex_host_header`, with 9 bytes to check. -/
theorem checked_index_forward_witness :
    (parse_content_log ex_host_header).iterations ≤ 9
      ∧ 0 ≤ (parse_content ex_host_header).2.checked_index :=
  have h := checked_index_forward ex_host_header (by decide)
  ⟨h.2.2.2.1, h.2.2.2.2.2.2⟩

/-- Claim C20 (re-invocation without new data is a no-op).  If `parse_content`
returns `NO_REQUEST`, calling it again on the session it left, with the same
`read_index` and no new bytes, returns `NO_REQUEST` again and leaves the whole
session (the buffer, `checked_index`, `start_line`, the phase, and what was
printed) exactly as the first call left it.  The hypothesis
`checked_index ≤ read_index` is not needed. -/
theorem reinvocation_noop (s : Session) (h : (parse_content s).1 = NO_REQUEST) :
    parse_content (parse_content s).2 = (NO_REQUEST, (parse_content s).2)
      ∧ (parse_content (parse_content s).2).2.buffer = (parse_content s).2.buffer
      ∧ (parse_content (parse_content s).2).2.checked_index = (parse_content s).2.checked_index
      ∧ (parse_content (parse_content s).2).2.start_line = (parse_content s).2.start_line
      ∧ (parse_content (parse_content s).2).2.checkstate = (parse_content s).2.checkstate := by
  have e : parse_content (parse_content s).2 = (NO_REQUEST, (parse_content s).2) :=
    parse_content_of_open (parse_content s).2 _ _ (parse_content_no_request_open s h)
  exact ⟨e, by rw [e], by rw [e], by rw [e], by rw [e]⟩

/-- Instance of C20: the session `ex_split`, where `GET` and a carriage return
have been received and `parse_content` asks for more. -/
theorem reinvocation_noop_witness :
    parse_content (parse_content ex_split).2 = (NO_REQUEST, (parse_content ex_split).2) :=
  (reinvocation_noop ex_split (by decide)).1

/-- Claim C19 (`checked_index` never stands just after an unconsumed CR).  In
every session that the receive loop reaches from the fresh session (each step
stores bytes at `read_index` and calls `parse_content`, the loop ending at the
first result other than `NO_REQUEST`), whenever `checked_index ≥ 1` the byte
before it is not a carriage return.  The same holds at every call of
`parse_line` made by the next call of `parse_content`, whatever bytes were
received before it; there, every `LINE_OK` comes from the CR branch (the scan
stopped at a carriage return at `i` followed by a line feed, both overwritten,
`checked_index` left at `i + 2`), and a line feed met by the scan gives
`LINE_BAD`. -/
theorem reachable_not_after_cr (st : Stage) (s : Session) (h : Reachable st s) :
    NotAfterCR s
      ∧ (st = Stage.awaiting → ∀ d : List Nat, s.read_index + d.length ≤ BUFFER_SIZE →
          ∀ x ∈ (parse_content_log (feed s d)).heads,
            NotAfterCR x
              ∧ (∀ (b : List Nat) (c : Nat),
                  parse_line x.buffer x.checked_index x.read_index = (LINE_OK, b, c) →
                  ∃ i, x.checked_index ≤ i ∧ i + 1 < x.read_index
                    ∧ NoCRLF x.buffer x.checked_index i
                    ∧ x.buffer.getD i 0 = CR ∧ x.buffer.getD (i + 1) 0 = LF
                    ∧ b = (x.buffer.set i 0).set (i + 1) 0 ∧ c = i + 2)
              ∧ (∀ i, x.checked_index ≤ i → i < x.read_index →
                  NoCRLF x.buffer x.checked_index i → x.buffer.getD i 0 = LF →
                  parse_line x.buffer x.checked_index x.read_index
                    = (LINE_BAD, x.buffer, i))) := by
  have hs := reachable_inv st s h
  refine ⟨hs.1, fun _ d _ x hx => ?_⟩
  have hx2 := parse_content_log_heads (fun s => NotAfterCR s ∧ s.checked_index ≤ s.read_index)
    (fun s b c hP hpl _ => interpret_not_after_cr s b c hP hpl) (feed s d)
    (feed_not_after_cr s d hs) x hx
  exact ⟨hx2.1, fun b c hok => parse_line_ok_cr _ _ _ _ _ hx2.2 hx2.1 hok,
    fun i hci hir hno hlf => parse_line_lf_bad _ _ _ _ hx2.1 hci hir hno hlf⟩

set_option maxRecDepth 100000 in
/-- Instance of C19: the session reached by receiving `GET` and a carriage
return, where `checked_index` stays at the carriage return. -/
theorem reachable_not_after_cr_witness :
    NotAfterCR (parse_content (feed begin_session [71, 69, 84, 13])).2 :=
  (reachable_not_after_cr Stage.awaiting _
    (Reachable.more begin_session [71, 69, 84, 13] Reachable.fresh (by decide) (by decide))).1


end FsmHttpd
